import Mathlib

/-!
# CSB: cloth / soft-body mesh (`CSBmesh.cpp`)

A shallow embedding of `CSBmesh` and the properties of its spatial hash, its
initialisation and its per-frame update.

Modelling conventions

* `float` is modelled by exact rational arithmetic (`ℚ`): rounding, infinities and
  NaN are outside the model.  A division whose divisor is zero is `0` in `ℚ`.
* `int` is a 32-bit two's-complement integer: products wrap modulo `2^32`.
* `size_t` is a 64-bit unsigned integer.
* A read outside a `std::vector`, an integer division by zero, a loop that cannot
  terminate and a failed allocation have no defined result: the embedding returns
  `none` there.
* The GLM routines `glm::fastSqrt` and `glm::fastInverseSqrt` are approximations whose
  code is not part of the repository; they are parameters (`FastMath`).
-/

namespace CSB

/-! ## Vectors -/

/-- The type `glm::vec3`, with exact components. -/
structure Vec3 where
  x : ℚ
  y : ℚ
  z : ℚ
deriving DecidableEq

/-- The type `glm::ivec3`: an integer grid cell. -/
structure IVec3 where
  x : Int
  y : Int
  z : Int
deriving DecidableEq

namespace Vec3

/-- The vector `glm::vec3(0.f)`. -/
def zero : Vec3 := ⟨0, 0, 0⟩

/-- Component-wise `operator+`. -/
def add (a b : Vec3) : Vec3 := ⟨a.x + b.x, a.y + b.y, a.z + b.z⟩

/-- Component-wise `operator-`. -/
def sub (a b : Vec3) : Vec3 := ⟨a.x - b.x, a.y - b.y, a.z - b.z⟩

/-- Unary minus. -/
def neg (a : Vec3) : Vec3 := ⟨-a.x, -a.y, -a.z⟩

/-- Vector times scalar, `v * s`. -/
def scale (a : Vec3) (s : ℚ) : Vec3 := ⟨a.x * s, a.y * s, a.z * s⟩

/-- Scalar times vector, `s * v`. -/
def smul (s : ℚ) (a : Vec3) : Vec3 := ⟨s * a.x, s * a.y, s * a.z⟩

/-- Vector divided by scalar, `v / s`. -/
def divs (a : Vec3) (s : ℚ) : Vec3 := ⟨a.x / s, a.y / s, a.z / s⟩

/-- The function `glm::dot`. -/
def dot (a b : Vec3) : ℚ := a.x * b.x + a.y * b.y + a.z * b.z

/-- The function `glm::cross`. -/
def cross (a b : Vec3) : Vec3 :=
  ⟨a.y * b.z - b.y * a.z, a.z * b.x - b.z * a.x, a.x * b.y - b.x * a.y⟩

/-- The function `glm::length2`: squared Euclidean length. -/
def length2 (a : Vec3) : ℚ := dot a a

/-- Component-wise `glm::min`. -/
def min (a b : Vec3) : Vec3 := ⟨Min.min a.x b.x, Min.min a.y b.y, Min.min a.z b.z⟩

/-- Component-wise `glm::max`. -/
def max (a b : Vec3) : Vec3 := ⟨Max.max a.x b.x, Max.max a.y b.y, Max.max a.z b.z⟩

end Vec3

/-- The approximate square-root routines of GLM (`gtx/fast_square_root.hpp`), whose code
is outside the repository. -/
structure FastMath where
  fastSqrt : ℚ → ℚ
  fastInverseSqrt : ℚ → ℚ

namespace FastMath

/-- The function `glm::fastLength(v) = fastSqrt(dot(v, v))`. -/
def fastLength (fm : FastMath) (v : Vec3) : ℚ := fm.fastSqrt (Vec3.dot v v)

/-- The function `glm::fastDistance(a, b) = fastLength(b - a)`. -/
def fastDistance (fm : FastMath) (a b : Vec3) : ℚ := fm.fastLength (Vec3.sub b a)

/-- The function `glm::fastNormalize(v) = v * fastInverseSqrt(dot(v, v))`. -/
def fastNormalize (fm : FastMath) (v : Vec3) : Vec3 :=
  Vec3.scale v (fm.fastInverseSqrt (Vec3.dot v v))

end FastMath

/-- Search for the integer square root: the largest `k` with `k * k ≤ n`, counting up. -/
def isqrtAux (n : Nat) : Nat → Nat → Nat
  | 0, k => k
  | fuel + 1, k => if (k + 1) * (k + 1) ≤ n then isqrtAux n fuel (k + 1) else k

/-- The integer square root of `n`. -/
def isqrt (n : Nat) : Nat := isqrtAux n n 0

/-- A rational square root that is exact on squares of rationals (integer square roots of
numerator and denominator); used to run the code on concrete inputs. -/
def ratSqrt (q : ℚ) : ℚ := (isqrt q.num.toNat : ℚ) / (isqrt q.den : ℚ)

/-- A concrete `FastMath`, exact on squares of rationals. -/
def exactMath : FastMath where
  fastSqrt := ratSqrt
  fastInverseSqrt := fun q => 1 / ratSqrt q

/-- The number `s` is the exact non-negative square root of `x`. -/
def IsSqrt (s x : ℚ) : Prop := 0 ≤ s ∧ s * s = x

/-! ## Spatial hash -/

/-- The table `primes` local to `hashCell`: `primes[0]`, `primes[1]`, `primes[2]`. -/
def primes : Nat → Int
  | 0 => 73856093
  | 1 => 19349663
  | _ => 83492791

/-- Reduction of an integer to the 32-bit two's-complement range (`int` arithmetic). -/
def wrapInt32 (v : Int) : Int := (v + 2 ^ 31) % 2 ^ 32 - 2 ^ 31

/-- The conversion `static_cast<size_t>(_x)` of a signed value to 64-bit unsigned. -/
def toSizeT (v : Int) : Nat := (v % 2 ^ 64).toNat

/-- The lambda `posMod` of `hashCell`:
`((static_cast<size_t>(_x) % _m) + _m) % _m` in `size_t` arithmetic.  The remainder by
`_m = 0` is undefined. -/
def posMod (x : Int) (m : Nat) : Option Nat :=
  if m = 0 then none else some (((toSizeT x % m + m) % 2 ^ 64) % m)

/-- The `int` value hashed by `hashCell`:
`(_cell.x * primes[0]) ^ (_cell.y * primes[1]) ^ (_cell.z * primes[2])`. -/
def cellKey (c : IVec3) : Int :=
  Int.xor (Int.xor (wrapInt32 (c.x * primes 0)) (wrapInt32 (c.y * primes 1)))
    (wrapInt32 (c.z * primes 2))

/-- The method `CSBmesh::hashCell`; `m` is `m_hashTable.size()`. -/
def hashCell (m : Nat) (c : IVec3) : Option Nat := posMod (cellKey c) m

/-- The method `CSBmesh::calcCell` in exact arithmetic; `len` is `m_avgEdgeLength`.  With
`len = 0` the quotient is not a finite number and its conversion to `int` is undefined.
The rounding of the float quotient and the range of `int` are in `calcCellFloat`. -/
def calcCell (len : ℚ) (p : Vec3) : Option IVec3 :=
  if len = 0 then none
  else some ⟨Int.floor (p.x / len), Int.floor (p.y / len), Int.floor (p.z / len)⟩

/-- The method `CSBmesh::hashPoint`. -/
def hashPoint (len : ℚ) (m : Nat) (p : Vec3) : Option Nat :=
  (calcCell len p).bind (hashCell m)

/-- The sign-correct modulo as the specification words it: `((x % m) + m) % m` on a signed
`x`, where `%` is the truncating remainder of C. -/
def signCorrectMod (x : Int) (m : Nat) : Int := Int.tmod (Int.tmod x m + m) m

/-- The hash table size computed at the top of `CSBmesh::init` from the vertex count:
`multiple = pow10(floor(log10(numVerts)))`,
`((numVerts + multiple - 1) / multiple) * multiple - 1`.  For `numVerts = 0` the
multiple is `0` and the division is undefined. -/
def hashTableSize (numVerts : Nat) : Option Nat :=
  if numVerts = 0 then none
  else
    let multiple := 10 ^ Nat.log 10 numVerts
    some (((numVerts + multiple - 1) / multiple) * multiple - 1)

/-! ## Mesh state -/

/-- The per-vertex simulated state `CSBmesh::Point`. -/
structure Point where
  m_pos : Vec3
  m_prevPos : Vec3
  m_invMass : ℚ
deriving DecidableEq

/-- Modelled from the spec: the constructor `Point(vert, invMass)`, declared in
`CSBmesh.h` which is not among the sources.  A point is created from its rest vertex
with zero velocity: current and previous position are both the vertex. -/
def Point.create (vert : Vec3) (invMass : ℚ) : Point := ⟨vert, vert, invMass⟩

/-- Modelled from the spec: the type `EdgePair`, declared in `CSBmesh.h` which is not
among the sources: an unordered pair of vertex indices in which `(a,b)` and `(b,a)` are
equal.  The pair `p` is kept as (smaller index, larger index). -/
structure EdgePair where
  p : Nat × Nat
deriving DecidableEq

/-- Construction `EdgePair{a, b}`. -/
def EdgePair.make (a b : Nat) : EdgePair := ⟨(Min.min a b, Max.max a b)⟩

/-- Insertion into a `std::unordered_set<EdgePair>`, kept as a duplicate-free list.  The
iteration order of the C++ container is unspecified; the list is in order of first
insertion. -/
def setInsert (s : List EdgePair) (e : EdgePair) : List EdgePair :=
  if e ∈ s then s else s ++ [e]

/-- The constraint objects pushed onto `m_constraints`:
`DistanceConstraint(p1, p2, distance)` and `BendingConstraint(p1, p2, p3, rest)`. -/
inductive Constraint where
  | distance (p1 p2 : Nat) (rest : ℚ)
  | bending (p1 p2 p3 : Nat) (rest : ℚ)
deriving DecidableEq

/-- The data members of `CSBmesh` used by `CSBmesh.cpp`. -/
structure Mesh where
  m_vertices : List Vec3
  m_indices : List Nat
  m_adjacency : List (List Nat)
  m_points : List Point
  m_constraints : List Constraint
  m_hashTable : List (List Nat)
  m_triangleVertHash : List (List Nat)
  m_avgEdgeLength : ℚ
deriving DecidableEq

/-- A freshly loaded mesh: topology set, every simulation container still empty. -/
def Mesh.load (vertices : List Vec3) (indices : List Nat) (adjacency : List (List Nat)) :
    Mesh :=
  ⟨vertices, indices, adjacency, [], [], [], [], 0⟩

/-- The call `std::vector::resize(n)` on a vector of vectors: truncate, or pad with
empty vectors. -/
def resizeLists (l : List (List Nat)) (n : Nat) : List (List Nat) :=
  l.take n ++ List.replicate (n - l.length) []

/-- The largest index a `GLushort` loop counter can reach; a loop
`for (GLushort i = 0; i < size; ++i)` with `size > 65535` never ends. -/
def maxUShort : Nat := 65535

/-! ## `CSBmesh::getEdges` -/

/-- The loop of `getEdges` from index `i` on:
`for (size_t i = 0; i < last; i += 3)`, reading `m_indices[i .. i+2]`. -/
def getEdgesFrom (indices : List Nat) (last : Nat) (i : Nat) (edgeSet : List EdgePair) :
    Option (List EdgePair) :=
  if i < last then
    if h : i + 2 < indices.length then
      let p1 := indices[i]
      let p2 := indices[i + 1]
      let p3 := indices[i + 2]
      getEdgesFrom indices last (i + 3)
        (setInsert (setInsert (setInsert edgeSet (EdgePair.make p1 p2)) (EdgePair.make p2 p3))
          (EdgePair.make p3 p1))
    else none
  else some edgeSet
termination_by indices.length - i
decreasing_by omega

/-- The method `CSBmesh::getEdges`.  `numEdges` and `last` are `size_t` values and wrap
below zero; reserving a wrapped `numEdges` buckets cannot be satisfied. -/
def getEdges (s : Mesh) : Option (List EdgePair) :=
  let nv := s.m_vertices.length
  let nt := s.m_indices.length / 3
  if nv + nt < 2 then none
  else
    let last := if 2 ≤ s.m_indices.length then s.m_indices.length - 2
      else s.m_indices.length + 2 ^ 64 - 2
    getEdgesFrom s.m_indices last 0 []

/-! ## `CSBmesh::init` -/

/-- The first part of `init` that fills `m_points`: one point per vertex with inverse
mass `1`, then `m_points[0]` and `m_points[size - 1]` get inverse mass `0`. -/
def initPoints (points : List Point) (vertices : List Vec3) : Option (List Point) :=
  let pts := points ++ vertices.map (fun vert => Point.create vert 1)
  match pts[0]? with
  | none => none
  | some first =>
    let pts1 := pts.set 0 { first with m_invMass := 0 }
    match pts1[pts1.length - 1]? with
    | none => none
    | some lastPt => some (pts1.set (pts1.length - 1) { lastPt with m_invMass := 0 })

/-- One pass of the loop over `edgeSet` in `init`: accumulate the edge length and push
a distance constraint. -/
def edgeStep (fm : FastMath) (vertices : List Vec3) (st : ℚ × List Constraint)
    (edge : EdgePair) : Option (ℚ × List Constraint) :=
  match vertices[edge.p.1]?, vertices[edge.p.2]? with
  | some v1, some v2 =>
    let distance := fm.fastDistance v1 v2
    some (st.1 + distance, st.2 ++ [Constraint.distance edge.p.1 edge.p.2 distance])
  | _, _ => none

/-- One pass of the innermost loop of `init` (over `vj`): keep the neighbour with the
smallest cosine seen so far, provided it is below the running `bestCosTheta`. -/
def wingtipStep (fm : FastMath) (vertices : List Vec3) (v vi : Nat) (st : ℚ × Nat)
    (vj : Nat) : Option (ℚ × Nat) :=
  if vj = vi then some st
  else
    match vertices[vi]?, vertices[v]?, vertices[vj]? with
    | some pvi, some pv, some pvj =>
      let a := Vec3.sub pvi pv
      let b := Vec3.sub pvj pv
      let cosTheta := Vec3.dot a b / (fm.fastLength a * fm.fastLength b)
      if cosTheta < st.1 then some (cosTheta, vj) else some st
    | _, _, _ => none

/-- The innermost loop of `init`: starts from `bestCosTheta = 0.0f`, `bestV = vi` and
returns the final `(bestCosTheta, bestV)`. -/
def selectWingtip (fm : FastMath) (vertices : List Vec3) (v vi : Nat)
    (neighbours : List Nat) : Option (ℚ × Nat) :=
  neighbours.foldlM (wingtipStep fm vertices v vi) ((0 : ℚ), vi)

/-- The body of the loop over `vi` in `init`: select `bestV`, and unless the connection
`{bestV, vi}` was seen before, record it and push a bending constraint. -/
def bendStep (fm : FastMath) (vertices : List Vec3) (v : Nat) (neighbours : List Nat)
    (st : List EdgePair × List Constraint) (vi : Nat) :
    Option (List EdgePair × List Constraint) :=
  match selectWingtip fm vertices v vi neighbours with
  | none => none
  | some best =>
    let bestV := best.2
    let connection := EdgePair.make bestV vi
    if connection ∈ st.1 then some st
    else
      match vertices[vi]?, vertices[bestV]?, vertices[v]? with
      | some pvi, some pbest, some pv =>
        let centre := Vec3.smul (1 / 3) (Vec3.add (Vec3.add pvi pbest) pv)
        let rest := fm.fastDistance pv centre
        some (setInsert st.1 connection, st.2 ++ [Constraint.bending vi bestV v rest])
      | _, _, _ => none

/-- The body of the loop over `v` in `init`. -/
def vertexStep (fm : FastMath) (vertices : List Vec3) (adjacency : List (List Nat))
    (st : List EdgePair × List Constraint) (v : Nat) :
    Option (List EdgePair × List Constraint) :=
  match adjacency[v]? with
  | none => none
  | some neighbours => neighbours.foldlM (bendStep fm vertices v neighbours) st

/-- The method `CSBmesh::init`. -/
def init (fm : FastMath) (s : Mesh) : Option Mesh :=
  let triHash := resizeLists s.m_triangleVertHash (s.m_indices.length / 3)
  let numVerts := s.m_vertices.length
  match hashTableSize numVerts with
  | none => none
  | some hashSize =>
    let table := resizeLists s.m_hashTable hashSize
    match initPoints s.m_points s.m_vertices with
    | none => none
    | some points =>
      match getEdges s with
      | none => none
      | some edgeSet =>
        match edgeSet.foldlM (edgeStep fm s.m_vertices) ((0 : ℚ), s.m_constraints) with
        | none => none
        | some (totalEdgeDist, constraints) =>
          let avg := totalEdgeDist / (edgeSet.length : ℚ)
          if maxUShort < numVerts then none
          else
            match (List.range numVerts).foldlM (vertexStep fm s.m_vertices s.m_adjacency)
                (([] : List EdgePair), constraints) with
            | none => none
            | some (_, constraints2) =>
              some { s with
                m_points := points
                m_constraints := constraints2
                m_hashTable := table
                m_triangleVertHash := triHash
                m_avgEdgeLength := avg }

/-! ## Grid rebuild -/

/-- The call `table[h].push_back(i)`. -/
def pushAt (table : List (List Nat)) (h : Nat) (i : Nat) : List (List Nat) :=
  match table[h]? with
  | none => table
  | some bucket => table.set h (bucket ++ [i])

/-- The body of the loop of `hashVerts`:
`m_hashTable[hashPoint(m_points[i].m_pos)].push_back(i)`. -/
def hashVertStep (len : ℚ) (points : List Point) (table : List (List Nat)) (i : Nat) :
    Option (List (List Nat)) :=
  match points[i]? with
  | none => none
  | some pt =>
    match hashPoint len table.length pt.m_pos with
    | none => none
    | some h => some (pushAt table h i)

/-- The method `CSBmesh::hashVerts`: clear every bucket, then file every vertex index
under the hash of its current position. -/
def hashVerts (s : Mesh) : Option Mesh :=
  if maxUShort < s.m_points.length then none
  else
    let cleared := s.m_hashTable.map (fun _ => ([] : List Nat))
    match (List.range s.m_points.length).foldlM
        (hashVertStep s.m_avgEdgeLength s.m_points) cleared with
    | none => none
    | some table => some { s with m_hashTable := table }

/-- The integers `lo, lo+1, ..., hi` visited by `for (int x = lo; x <= hi; ++x)`. -/
def intRange (lo hi : Int) : List Int :=
  (List.range (hi + 1 - lo).toNat).map (fun k => lo + (k : Int))

/-- The cells visited by the three nested loops of `hashTris`, in loop order. -/
def boxCells (lo hi : IVec3) : List IVec3 :=
  (intRange lo.x hi.x).flatMap (fun x =>
    (intRange lo.y hi.y).flatMap (fun y =>
      (intRange lo.z hi.z).map (fun z => (⟨x, y, z⟩ : IVec3))))

/-- The three points of triangle `i`: `m_points[m_indices[3*i + k]]`, `k = 0, 1, 2`. -/
def trianglePoints (s : Mesh) (i : Nat) : Option (Point × Point × Point) :=
  match s.m_indices[i * 3]?, s.m_indices[i * 3 + 1]?, s.m_indices[i * 3 + 2]? with
  | some i1, some i2, some i3 =>
    match s.m_points[i1]?, s.m_points[i2]?, s.m_points[i3]? with
    | some p1, some p2, some p3 => some (p1, p2, p3)
    | _, _, _ => none
  | _, _, _ => none

/-- The hashes that `hashTris` appends for triangle `i`. -/
def triangleHashes (s : Mesh) (i : Nat) : Option (List Nat) :=
  match trianglePoints s i with
  | none => none
  | some (p1, p2, p3) =>
    match calcCell s.m_avgEdgeLength (Vec3.min (Vec3.min p1.m_pos p2.m_pos) p3.m_pos),
          calcCell s.m_avgEdgeLength (Vec3.max (Vec3.max p1.m_pos p2.m_pos) p3.m_pos) with
    | some lo, some hi => (boxCells lo hi).mapM (hashCell s.m_hashTable.length)
    | _, _ => none

/-- The body of the loop of `hashTris` over the triangles. -/
def hashTriStep (s : Mesh) (triHash : List (List Nat)) (i : Nat) :
    Option (List (List Nat)) :=
  match triangleHashes s i with
  | none => none
  | some hs =>
    match triHash[i]? with
    | none => none
    | some old => some (triHash.set i (old ++ hs))

/-- The method `CSBmesh::hashTris`. -/
def hashTris (s : Mesh) : Option Mesh :=
  let cleared := s.m_triangleVertHash.map (fun _ => ([] : List Nat))
  match (List.range s.m_triangleVertHash.length).foldlM (hashTriStep s) cleared with
  | none => none
  | some triHash => some { s with m_triangleVertHash := triHash }

/-! ## Self collision -/

/-- The call `std::swap(m_points[k].m_pos, m_points[k].m_prevPos)`. -/
def swapPoint (points : List Point) (k : Nat) : Option (List Point) :=
  match points[k]? with
  | none => none
  | some pt => some (points.set k { pt with m_pos := pt.m_prevPos, m_prevPos := pt.m_pos })

/-- The narrow-phase test of `resolveSelfCollision_rays` for one candidate:
the trajectory `L0 → L1` crosses the plane of the triangle (`DistStart * DistEnd < 0`)
and the crossing point passes the three edge tests. -/
def rayHits (T0 T1 edge1 edge2 edge3 norm L0 L1 : Vec3) : Bool :=
  let distStart := Vec3.dot (Vec3.sub L0 T0) norm
  let distEnd := Vec3.dot (Vec3.sub L1 T0) norm
  let intersection :=
    Vec3.add L0 (Vec3.scale (Vec3.sub L1 L0) (-distStart / (distEnd - distStart)))
  let X1 := Vec3.dot (Vec3.cross norm edge1) (Vec3.sub intersection T0)
  let X2 := Vec3.dot (Vec3.cross norm edge3) (Vec3.sub intersection T1)
  let X3 := Vec3.dot (Vec3.cross norm (Vec3.neg edge2)) (Vec3.sub intersection T0)
  let insideTri := decide (0 ≤ X1) && decide (0 ≤ X2) && decide (0 ≤ X3)
  decide (distStart * distEnd < 0) && insideTri

/-- The body of the innermost loop of `resolveSelfCollision_rays` (over `pid`).  `T0`
and `T1` are references into `m_points` and are read from the current points; the edges
and the normal were copied before the loops. -/
def rayStep (i1 i2 i3 : Nat) (edge1 edge2 edge3 norm : Vec3) (points : List Point)
    (pid : Nat) : Option (List Point) :=
  if pid = i1 ∨ pid = i2 ∨ pid = i3 then some points
  else
    match points[pid]?, points[i1]?, points[i2]? with
    | some point, some P0, some P1 =>
      if rayHits P0.m_pos P1.m_pos edge1 edge2 edge3 norm point.m_prevPos point.m_pos then
        (((swapPoint points i1).bind (fun q => swapPoint q i2)).bind
          (fun q => swapPoint q i3)).bind (fun q => swapPoint q pid)
      else some points
    | _, _, _ => none

/-- The loop over the hashed cells of one face, and inside it over the points of the
cell. -/
def rayCellStep (table : List (List Nat)) (i1 i2 i3 : Nat) (edge1 edge2 edge3 norm : Vec3)
    (points : List Point) (hash : Nat) : Option (List Point) :=
  match table[hash]? with
  | none => none
  | some bucket => bucket.foldlM (rayStep i1 i2 i3 edge1 edge2 edge3 norm) points

/-- The body of the loop over the faces in `resolveSelfCollision_rays`. -/
def rayFaceStep (fm : FastMath) (s : Mesh) (points : List Point) (i : Nat) :
    Option (List Point) :=
  match s.m_indices[i * 3]?, s.m_indices[i * 3 + 1]?, s.m_indices[i * 3 + 2]? with
  | some i1, some i2, some i3 =>
    match points[i1]?, points[i2]?, points[i3]? with
    | some P0, some P1, some P2 =>
      let edge1 := Vec3.sub P1.m_pos P0.m_pos
      let edge2 := Vec3.sub P2.m_pos P0.m_pos
      let edge3 := Vec3.sub P2.m_pos P1.m_pos
      let norm := fm.fastNormalize (Vec3.cross edge1 edge2)
      match s.m_triangleVertHash[i]? with
      | none => none
      | some hashes =>
        hashes.foldlM (rayCellStep s.m_hashTable i1 i2 i3 edge1 edge2 edge3 norm) points
    | _, _, _ => none
  | _, _, _ => none

/-- The method `CSBmesh::resolveSelfCollision_rays`. -/
def resolveSelfCollision_rays (fm : FastMath) (s : Mesh) : Option Mesh :=
  match (List.range s.m_triangleVertHash.length).foldlM (rayFaceStep fm s) s.m_points with
  | none => none
  | some points => some { s with m_points := points }

/-- The body of the loop over `considered` in `resolveSelfCollision_spheres`: for a
candidate closer than the collision radius, add its push to `offset` and count it. -/
def sphereAccum (fm : FastMath) (len : ℚ) (points : List Point) (P : Point)
    (st : Vec3 × Nat) (pid : Nat) : Option (Vec3 × Nat) :=
  match points[pid]? with
  | none => none
  | some Q =>
    let disp := Vec3.sub P.m_pos Q.m_pos
    let dist := Vec3.length2 disp
    let double_radius_sqr := (len * (6 / 5)) * (len * (6 / 5))
    if dist < double_radius_sqr then
      let move := (fm.fastSqrt double_radius_sqr - fm.fastSqrt dist) * (1 / 2)
      some (Vec3.add st.1 (Vec3.scale (fm.fastNormalize disp) move), st.2 + 1)
    else some st

/-- The candidates of vertex `i`: its hash bucket, sorted, without the vertices in
`ignored` (the neighbours of `i` and `i` itself; the binary search over the sorted
`ignored` is a membership test). -/
def consideredOf (s : Mesh) (points : List Point) (i : Nat) : Option (List Nat) :=
  match points[i]?, s.m_adjacency[i]? with
  | some P, some connected =>
    let ignored := (connected ++ [i]).insertionSort (fun a b => a ≤ b)
    match hashPoint s.m_avgEdgeLength s.m_hashTable.length P.m_pos with
    | none => none
    | some h =>
      match s.m_hashTable[h]? with
      | none => none
      | some bucket =>
        some ((bucket.insertionSort (fun a b => a ≤ b)).filter (fun x => !decide (x ∈ ignored)))
  | _, _ => none

/-- The body of the loop over the vertices in `resolveSelfCollision_spheres`. -/
def sphereStep (fm : FastMath) (s : Mesh) (points : List Point) (i : Nat) :
    Option (List Point) :=
  match points[i]?, consideredOf s points i with
  | some P, some considered =>
    match considered.foldlM (sphereAccum fm s.m_avgEdgeLength points P) (Vec3.zero, 0) with
    | none => none
    | some (offset, count) =>
      if count ≠ 0 then
        let newPos := Vec3.add P.m_pos (Vec3.divs offset (count : ℚ))
        some (points.set i { P with m_pos := newPos, m_prevPos := newPos })
      else some points
  | _, _ => none

/-- The method `CSBmesh::resolveSelfCollision_spheres`. -/
def resolveSelfCollision_spheres (fm : FastMath) (s : Mesh) : Option Mesh :=
  if maxUShort < s.m_points.length then none
  else
    match (List.range s.m_points.length).foldlM (sphereStep fm s) s.m_points with
    | none => none
    | some points => some { s with m_points := points }

/-! ## `CSBmesh::update` -/

/-- The gravity vector of `update`. -/
def gravity : Vec3 := ⟨0, -1, 0⟩

/-- The body of the integration loop of `update` in exact arithmetic:
`newPos = pos * 2 - prevPos + invMass * gravity * dt * dt`, `prevPos = pos`,
`pos = newPos`.  The same expression with every operation rounded is `integrateFloat`. -/
def integrate (dt : ℚ) (point : Point) : Point :=
  let newPos :=
    Vec3.add (Vec3.sub (Vec3.scale point.m_pos 2) point.m_prevPos)
      (Vec3.scale (Vec3.scale (Vec3.smul point.m_invMass gravity) dt) dt)
  { point with m_prevPos := point.m_pos, m_pos := newPos }

/-- One sweep over `m_constraints`, each `project` seeing the points left by the one
before.  The code of `project` is not among the sources: it is a parameter. -/
def projectSweep (project : Constraint → List Point → List Point)
    (constraints : List Constraint) (points : List Point) : List Point :=
  constraints.foldl (fun pts c => project c pts) points

/-- The ten sweeps at the top of `update`. -/
def relax (project : Constraint → List Point → List Point) (constraints : List Constraint)
    (points : List Point) : List Point :=
  (List.range 10).foldl (fun pts _ => projectSweep project constraints pts) points

/-- The method `CSBmesh::update`: relaxation, integration, grid rebuild, continuous pass,
discrete pass. -/
def update (project : Constraint → List Point → List Point) (fm : FastMath) (dt : ℚ)
    (s : Mesh) : Option Mesh :=
  let relaxed := relax project s.m_constraints s.m_points
  let s1 := { s with m_points := relaxed.map (integrate dt) }
  (((hashVerts s1).bind hashTris).bind (resolveSelfCollision_rays fm)).bind
    (resolveSelfCollision_spheres fm)

/-- A finite sequence of `update` calls, one per time step of the list. -/
def updateMany (project : Constraint → List Point → List Point) (fm : FastMath) :
    List ℚ → Mesh → Option Mesh
  | [], s => some s
  | dt :: rest, s => (update project fm dt s).bind (updateMany project fm rest)

/-! ## Vocabulary for the properties -/

/-- The unordered pairs `{a, b}` and `{c, d}` are the same. -/
def sameEdge (a b c d : Nat) : Prop := (a = c ∧ b = d) ∨ (a = d ∧ b = c)

instance (a b c d : Nat) : Decidable (sameEdge a b c d) := by
  unfold sameEdge
  infer_instance

/-- The pair `{a, b}` is one of the three sides of a whole triangle
`(indices[3t], indices[3t+1], indices[3t+2])` of the index list. -/
def isTriangleEdge (indices : List Nat) (a b : Nat) : Prop :=
  ∃ t p1 p2 p3, indices[3 * t]? = some p1 ∧ indices[3 * t + 1]? = some p2 ∧
    indices[3 * t + 2]? = some p3 ∧
    (sameEdge a b p1 p2 ∨ sameEdge a b p2 p3 ∨ sameEdge a b p3 p1)

/-- The constraint is a distance constraint between `a` and `b`, in either order. -/
def Constraint.joins (a b : Nat) : Constraint → Bool
  | .distance p1 p2 _ => decide (sameEdge a b p1 p2)
  | .bending _ _ _ _ => false

/-- The constraint is a distance constraint. -/
def Constraint.isDistance : Constraint → Bool
  | .distance _ _ _ => true
  | .bending _ _ _ _ => false

/-- The rest length stored in a constraint. -/
def Constraint.rest : Constraint → ℚ
  | .distance _ _ r => r
  | .bending _ _ _ r => r

/-- The distance constraints of a mesh, in the order of `m_constraints`. -/
def distanceConstraints (s : Mesh) : List Constraint :=
  s.m_constraints.filter Constraint.isDistance

/-- The rest length `init` computes for an edge: `glm::fastDistance` of its two rest
vertices. -/
def edgeLength (fm : FastMath) (vertices : List Vec3) (e : EdgePair) : ℚ :=
  match vertices[e.p.1]?, vertices[e.p.2]? with
  | some v1, some v2 => fm.fastDistance v1 v2
  | _, _ => 0

/-- The distance constraint `init` pushes for an edge. -/
def edgeConstraint (fm : FastMath) (vertices : List Vec3) (e : EdgePair) : Constraint :=
  Constraint.distance e.p.1 e.p.2 (edgeLength fm vertices e)

/-- The input `init` can work on without leaving the vectors: at least one and at most
65535 vertices, at least three indices, every index and every adjacency entry a vertex
index, one adjacency list per vertex. -/
def WellFormed (vertices : List Vec3) (indices : List Nat) (adjacency : List (List Nat)) :
    Prop :=
  vertices ≠ [] ∧ vertices.length ≤ maxUShort ∧ 3 ≤ indices.length ∧
    (∀ idx ∈ indices, idx < vertices.length) ∧ vertices.length ≤ adjacency.length ∧
    (∀ nbs ∈ adjacency, ∀ nb ∈ nbs, nb < vertices.length)

instance (vertices : List Vec3) (indices : List Nat) (adjacency : List (List Nat)) :
    Decidable (WellFormed vertices indices adjacency) := by
  unfold WellFormed
  infer_instance

/-! ## Sample inputs -/

/-- One right triangle with sides 3, 4, 5. -/
def sampleVertices : List Vec3 := [⟨0, 0, 0⟩, ⟨3, 0, 0⟩, ⟨0, 4, 0⟩]

/-- The adjacency of the single triangle. -/
def sampleAdjacency : List (List Nat) := [[1, 2], [0, 2], [0, 1]]

/-- The single triangle, freshly loaded. -/
def sampleTriangle : Mesh := Mesh.load sampleVertices [0, 1, 2] sampleAdjacency

/-- The single triangle with a fourth, dangling index: the index list is not a whole
number of triangles. -/
def sampleDangling : Mesh := Mesh.load sampleVertices [0, 1, 2, 0] sampleAdjacency

/-- Two triangles with no common vertex; vertex `3` of the second lies on a side of the
first, one unit from the pinned vertex `0`. -/
def sampleTwoTriangles : Mesh :=
  Mesh.load [⟨0, 0, 0⟩, ⟨3, 0, 0⟩, ⟨0, 4, 0⟩, ⟨1, 0, 0⟩, ⟨4, 0, 0⟩, ⟨1, 4, 0⟩]
    [0, 1, 2, 3, 4, 5] [[1, 2], [0, 2], [0, 1], [4, 5], [3, 5], [3, 4]]

/-- A constraint projection that moves nothing (what an exact projection does on a mesh
at rest); in particular it leaves pinned points fixed. -/
def projectNothing (_ : Constraint) (points : List Point) : List Point := points

/-- The position of point `i`. -/
def positionOf (s : Mesh) (i : Nat) : Option Vec3 := (s.m_points[i]?).map (fun p => p.m_pos)

/-- The inverse mass of point `i`. -/
def invMassOf (s : Mesh) (i : Nat) : Option ℚ := (s.m_points[i]?).map (fun p => p.m_invMass)

/-- A point at rest at `(x, y, 0)`. -/
def restingPoint (x y invMass : ℚ) : Point := ⟨⟨x, y, 0⟩, ⟨x, y, 0⟩, invMass⟩

/-- The two-triangle sample after `init` (with `exactMath`). -/
def sampleInit : Mesh :=
  { m_vertices := [⟨0, 0, 0⟩, ⟨3, 0, 0⟩, ⟨0, 4, 0⟩, ⟨1, 0, 0⟩, ⟨4, 0, 0⟩, ⟨1, 4, 0⟩]
    m_indices := [0, 1, 2, 3, 4, 5]
    m_adjacency := [[1, 2], [0, 2], [0, 1], [4, 5], [3, 5], [3, 4]]
    m_points := [restingPoint 0 0 0, restingPoint 3 0 1, restingPoint 0 4 1,
      restingPoint 1 0 1, restingPoint 4 0 1, restingPoint 1 4 0]
    m_constraints := [.distance 0 1 3, .distance 1 2 5, .distance 0 2 4, .distance 3 4 3,
      .distance 4 5 5, .distance 3 5 4, .bending 1 1 0 2, .bending 2 2 0 (8 / 3),
      .bending 0 0 1 2, .bending 4 4 3 2, .bending 5 5 3 (8 / 3), .bending 3 3 4 2]
    m_hashTable := [[], [], [], [], []]
    m_triangleVertHash := [[], []]
    m_avgEdgeLength := 4 }

/-- The sample after the grid rebuild of its first `update`. -/
def sampleGrid : Mesh :=
  { sampleInit with
    m_hashTable := [[0, 1, 3], [], [], [2, 4, 5], []]
    m_triangleVertHash := [[0, 3], [0, 3, 3, 4]] }

/-- The sample after its first `update` with time step `0`. -/
def sampleAfter : Mesh :=
  { sampleGrid with
    m_points := [restingPoint (-19 / 10) 0 0, restingPoint (22 / 5) 0 1,
      restingPoint (-19 / 10) 4 1, restingPoint (9 / 8) 0 1, restingPoint 4 0 1,
      restingPoint (39 / 20) 4 0] }

/-- The collision radius `1.2 * m_avgEdgeLength` of the discrete pass. -/
def collisionRadius (s : Mesh) : ℚ := s.m_avgEdgeLength * (6 / 5)

/-- The point `P` after the discrete pass has pushed it away from a single candidate
`Q` inside the collision radius: the offset of `sphereAccum`, divided by the count `1`,
added to the position, and the previous position reset. -/
def pushFrom (fm : FastMath) (len : ℚ) (P Q : Point) : Point :=
  let disp := Vec3.sub P.m_pos Q.m_pos
  let double_radius_sqr := (len * (6 / 5)) * (len * (6 / 5))
  let move := (fm.fastSqrt double_radius_sqr - fm.fastSqrt (Vec3.length2 disp)) * (1 / 2)
  let offset := Vec3.add Vec3.zero (Vec3.scale (fm.fastNormalize disp) move)
  let newPos := Vec3.add P.m_pos (Vec3.divs offset ((1 : Nat) : ℚ))
  { P with m_pos := newPos, m_prevPos := newPos }

/-- The routines `fastSqrt` and `fastInverseSqrt` are exact at the square of `x`. -/
def ExactAt (fm : FastMath) (x : ℚ) : Prop :=
  fm.fastSqrt (x * x) = x ∧ fm.fastInverseSqrt (x * x) = 1 / x

/-- A state on which the discrete pass stays inside its vectors: at most 65535 points,
an adjacency list for each point, a cell size that is not zero, a hash table with at
least one bucket whose entries are point indices. -/
def GridOk (s : Mesh) : Prop :=
  s.m_points.length ≤ maxUShort ∧ s.m_points.length ≤ s.m_adjacency.length ∧
    s.m_avgEdgeLength ≠ 0 ∧ 1 ≤ s.m_hashTable.length ∧
    (∀ bucket ∈ s.m_hashTable, ∀ pid ∈ bucket, pid < s.m_points.length)

instance (s : Mesh) : Decidable (GridOk s) := by
  unfold GridOk
  infer_instance

/-- Three unconnected points on a line, all in one cell of size `5` and pairwise closer
than the collision radius `6`; the hash table is the one `hashVerts` builds. -/
def sampleCollinear : Mesh :=
  { m_vertices := [⟨0, 0, 0⟩, ⟨4, 0, 0⟩, ⟨9 / 2, 0, 0⟩]
    m_indices := []
    m_adjacency := [[], [], []]
    m_points := [restingPoint 0 0 1, restingPoint 4 0 1, restingPoint (9 / 2) 0 1]
    m_constraints := []
    m_hashTable := [[0, 1, 2], []]
    m_triangleVertHash := []
    m_avgEdgeLength := 5 }

/-- Two unconnected points three units apart in one cell of size `5`. -/
def samplePair : Mesh :=
  { m_vertices := [⟨0, 0, 0⟩, ⟨3, 0, 0⟩]
    m_indices := []
    m_adjacency := [[], []]
    m_points := [restingPoint 0 0 1, restingPoint 3 0 1]
    m_constraints := []
    m_hashTable := [[0, 1]]
    m_triangleVertHash := []
    m_avgEdgeLength := 5 }

/-! ## `TrackballCamera::handleMouseClick` -/

namespace TrackballCamera

/-- The Qt constant `QEvent::MouseButtonPress`. -/
def MouseButtonPress : Nat := 2

/-- The Qt constant `QEvent::MouseButtonRelease`. -/
def MouseButtonRelease : Nat := 3

/-- The Qt constant `Qt::LeftButton`. -/
def LeftButton : Nat := 1

/-- The Qt constant `Qt::RightButton`. -/
def RightButton : Nat := 2

/-- The numeric values of the enumerators of `CAM_STATE`.  The enumeration is declared in
`TrackballCamera.h`, which is not among the sources: its values are parameters. -/
structure CamStates where
  TRACKBALL_ZOOMING : Int
  TRACKBALL_ROTATING : Int
  TRACKBALL_PASSIVE : Int

/-- What `handleMouseClick` reads from a `QMouseEvent`: `type()`, `buttons()` (the set of
held buttons as a bit mask) and `pos()`. -/
structure MouseEvent where
  type : Nat
  buttons : Nat
  x : Int
  y : Int

/-- The members of the camera that `handleMouseClick` and `updateYawPitch` touch;
`m_currentState` holds the numeric value of the state. -/
structure Camera where
  m_currentState : Int
  m_yaw : ℚ
  m_pitch : ℚ
  m_lastYaw : ℚ
  m_lastPitch : ℚ
  m_lastPos : Int × Int

/-- The value of a `bool` in integer arithmetic. -/
def boolToInt (b : Bool) : Int := if b then 1 else 0

/-- The method `updateYawPitch`. -/
def updateYawPitch (cam : Camera) : Camera :=
  { cam with m_lastYaw := cam.m_yaw, m_lastPitch := cam.m_pitch }

/-- The branchless expression `input` of `handleMouseClick`. -/
def clickInput (cs : CamStates) (ev : MouseEvent) : Int :=
  boolToInt (decide (ev.type = MouseButtonPress))
      * (boolToInt (decide (ev.buttons = LeftButton)) * cs.TRACKBALL_ROTATING
        + boolToInt (decide (ev.buttons = RightButton)) * cs.TRACKBALL_ZOOMING)
    + boolToInt (decide (ev.type = MouseButtonRelease)) * cs.TRACKBALL_PASSIVE

/-- The method `TrackballCamera::handleMouseClick`.  The code of `setMousePos` is not
among the sources: it is a parameter. -/
def handleMouseClick (setMousePos : Camera → Int → Int → Camera) (cs : CamStates)
    (cam : Camera) (ev : MouseEvent) : Camera :=
  let cam1 := setMousePos cam ev.x ev.y
  let cam2 := updateYawPitch cam1
  { cam2 with m_currentState := clickInput cs ev }

/-- The transition table as the specification words it: rotating on a press with exactly
the left button, zooming on a press with exactly the right button, passive on a release,
the state of value `0` on every other event. -/
def transitionTable (cs : CamStates) (ev : MouseEvent) : Int :=
  if ev.type = MouseButtonPress ∧ ev.buttons = LeftButton then cs.TRACKBALL_ROTATING
  else if ev.type = MouseButtonPress ∧ ev.buttons = RightButton then cs.TRACKBALL_ZOOMING
  else if ev.type = MouseButtonRelease then cs.TRACKBALL_PASSIVE
  else 0

end TrackballCamera

/-! ## Vocabulary for the collision passes -/

/-- The point with position and previous position exchanged. -/
def swapped (p : Point) : Point :=
  { p with m_pos := p.m_prevPos, m_prevPos := p.m_pos }

/-- Every bucket listed for a triangle holds only the three vertices of that triangle. -/
def OwnOnly (s : Mesh) : Prop :=
  ∀ t hashes, s.m_triangleVertHash[t]? = some hashes → ∀ hash ∈ hashes,
    ∀ bucket, s.m_hashTable[hash]? = some bucket → ∀ pid ∈ bucket,
      s.m_indices[t * 3]? = some pid ∨ s.m_indices[t * 3 + 1]? = some pid ∨
        s.m_indices[t * 3 + 2]? = some pid

/-- A state on which the continuous pass stays inside its vectors: three indices for
each triangle list, every index a point index, every listed hash a bucket index, every
bucket entry a point index. -/
def RaysOk (s : Mesh) : Prop :=
  s.m_triangleVertHash.length * 3 ≤ s.m_indices.length ∧
    (∀ idx ∈ s.m_indices, idx < s.m_points.length) ∧
    (∀ hashes ∈ s.m_triangleVertHash, ∀ hash ∈ hashes, hash < s.m_hashTable.length) ∧
    (∀ bucket ∈ s.m_hashTable, ∀ pid ∈ bucket, pid < s.m_points.length)

instance (s : Mesh) : Decidable (RaysOk s) := by
  unfold RaysOk
  infer_instance

/-- The list `b` arises from `a` by exchanging position and previous position of some of
its points. -/
def SwapRel (a b : List Point) : Prop :=
  b.length = a.length ∧ ∀ k : Nat, b[k]? = a[k]? ∨ b[k]? = (a[k]?).map swapped

/-- The list `b` arises from `a` by the discrete pass: every point keeps its inverse mass
and is either untouched or has been moved and had its previous position reset to its new
position. -/
def RestRel (a b : List Point) : Prop :=
  b.length = a.length ∧ ∀ (k : Nat) (P : Point), a[k]? = some P →
    ∃ P2 : Point, b[k]? = some P2 ∧ P2.m_invMass = P.m_invMass ∧
      (P2 = P ∨ P2.m_prevPos = P2.m_pos)

/-- Three unconnected points on a line at `4`, `3` and `21/2`, cell size `5`, collision
radius `6`; the third lies in another cell that hashes to the same bucket of the
two-bucket table, and is farther than the radius from both others. -/
def sampleLate : Mesh :=
  { m_vertices := [⟨4, 0, 0⟩, ⟨3, 0, 0⟩, ⟨21 / 2, 0, 0⟩]
    m_indices := []
    m_adjacency := [[], [], []]
    m_points := [restingPoint 4 0 1, restingPoint 3 0 1, restingPoint (21 / 2) 0 1]
    m_constraints := []
    m_hashTable := [[0, 1, 2], []]
    m_triangleVertHash := []
    m_avgEdgeLength := 5 }

/-! ## Vocabulary for the hash rebuilds -/

/-- The bucket in which `hashVerts` files vertex `i`: `hashPoint` of its current
position. -/
def hashOfVertex (s : Mesh) (i : Nat) : Option Nat :=
  (s.m_points[i]?).bind
    (fun p => hashPoint s.m_avgEdgeLength s.m_hashTable.length p.m_pos)

/-- The position `p` lies in the axis-aligned box from `lo` to `hi`, faces included. -/
def Vec3.between (lo hi p : Vec3) : Prop :=
  (lo.x ≤ p.x ∧ p.x ≤ hi.x) ∧ (lo.y ≤ p.y ∧ p.y ≤ hi.y) ∧ (lo.z ≤ p.z ∧ p.z ≤ hi.z)

/-- The cell `c` lies in the box of cells from `lo` to `hi`, component-wise and
inclusive. -/
def IVec3.between (lo hi c : IVec3) : Prop :=
  (lo.x ≤ c.x ∧ c.x ≤ hi.x) ∧ (lo.y ≤ c.y ∧ c.y ≤ hi.y) ∧ (lo.z ≤ c.z ∧ c.z ≤ hi.z)

/-! ## The inside test of the continuous pass -/

/-- The scalar `X1 = dot(cross(norm, edge1), intersection - T0)` of
`resolveSelfCollision_rays`. -/
def X1 (norm edge1 T0 intersection : Vec3) : ℚ :=
  Vec3.dot (Vec3.cross norm edge1) (Vec3.sub intersection T0)

/-- The scalar `X2 = dot(cross(norm, edge3), intersection - T1)`. -/
def X2 (norm edge3 T1 intersection : Vec3) : ℚ :=
  Vec3.dot (Vec3.cross norm edge3) (Vec3.sub intersection T1)

/-- The scalar `X3 = dot(cross(norm, -edge2), intersection - T0)`. -/
def X3 (norm edge2 T0 intersection : Vec3) : ℚ :=
  Vec3.dot (Vec3.cross norm (Vec3.neg edge2)) (Vec3.sub intersection T0)

/-- The flag `insideTri = (X1 >= 0) && (X2 >= 0) && (X3 >= 0)` of
`resolveSelfCollision_rays`. -/
def insideTri (T0 T1 edge1 edge2 edge3 norm intersection : Vec3) : Bool :=
  decide (0 ≤ X1 norm edge1 T0 intersection) && decide (0 ≤ X2 norm edge3 T1 intersection)
    && decide (0 ≤ X3 norm edge2 T0 intersection)

/-- The point `I` is a convex combination of `T0`, `T1` and `T2`: it lies in the closed
triangle. -/
def inClosedTriangle (T0 T1 T2 I : Vec3) : Prop :=
  ∃ a b g : ℚ, 0 ≤ a ∧ 0 ≤ b ∧ 0 ≤ g ∧ a + b + g = 1 ∧
    I = Vec3.add (Vec3.add (Vec3.smul a T0) (Vec3.smul b T1)) (Vec3.smul g T2)

/-! ## Float arithmetic

The members `m_pos`, `m_prevPos`, `m_invMass` and `m_avgEdgeLength` are 32-bit floats:
the result of every arithmetic operation is rounded to the nearest binary32 value.
Overflow to infinity and NaN are not modelled. -/

/-- The nearest integer, a tie going to the even one. -/
def roundHalfEven (q : ℚ) : Int :=
  if q - (Int.floor q : ℚ) < 1 / 2 then Int.floor q
  else if 1 / 2 < q - (Int.floor q : ℚ) then Int.floor q + 1
  else if Int.floor q % 2 = 0 then Int.floor q else Int.floor q + 1

/-- The number of binary digits of `n`, by halving; `fuel` bounds the number of steps. -/
def bitLenAux : Nat → Nat → Nat
  | 0, _ => 0
  | fuel + 1, n => if n = 0 then 0 else bitLenAux fuel (n / 2) + 1

/-- The number of binary digits of `n`. -/
def bitLen (n : Nat) : Nat := bitLenAux n n

/-- The binary exponent of `a > 0`: the integer `e` with `2^e ≤ a < 2^(e+1)`, found from
the digit counts of numerator and denominator. -/
def floorLog2 (a : ℚ) : Int :=
  if (2 : ℚ) ^ ((bitLen a.num.toNat : Int) - (bitLen a.den : Int)) ≤ a
  then (bitLen a.num.toNat : Int) - (bitLen a.den : Int)
  else (bitLen a.num.toNat : Int) - (bitLen a.den : Int) - 1

/-- The exponent of the unit in the last place of binary32 at the magnitude `a > 0`: a
significand of 24 bits, and the fixed exponent of the subnormal numbers below `2^-126`. -/
def ulpExp (a : ℚ) : Int := max (floorLog2 a) (-126) - 23

/-- The nearest binary32 value of a positive number, ties to even. -/
def roundPos (a : ℚ) : ℚ := (roundHalfEven (a / 2 ^ ulpExp a) : ℚ) * 2 ^ ulpExp a

/-- The rounding of IEEE 754 binary32 arithmetic in its default mode (to nearest, ties to
even) on a finite result. -/
def round32 (x : ℚ) : ℚ :=
  if x = 0 then 0 else if 0 < x then roundPos x else -roundPos (-x)

/-- A rounding as float arithmetic applies it: monotone and exact at zero. -/
def IsRounding (rnd : ℚ → ℚ) : Prop := Monotone rnd ∧ rnd 0 = 0

/-- Every component rounded. -/
def Vec3.round (rnd : ℚ → ℚ) (v : Vec3) : Vec3 := ⟨rnd v.x, rnd v.y, rnd v.z⟩

/-- The body of the integration loop of `update` in float arithmetic:
`newPos = pos * 2.0f - prevPos + (invMass * gravity * dt * dt)`, every operation rounded
by `rnd`, evaluated from left to right as C++ does; `prevPos = pos`, `pos = newPos`. -/
def integrateFloat (rnd : ℚ → ℚ) (dt : ℚ) (point : Point) : Point :=
  let doubled := Vec3.round rnd (Vec3.scale point.m_pos 2)
  let inertia := Vec3.round rnd (Vec3.sub doubled point.m_prevPos)
  let force := Vec3.round rnd (Vec3.smul point.m_invMass gravity)
  let forceDt := Vec3.round rnd (Vec3.scale force dt)
  let forceDt2 := Vec3.round rnd (Vec3.scale forceDt dt)
  let newPos := Vec3.round rnd (Vec3.add inertia forceDt2)
  { point with m_prevPos := point.m_pos, m_pos := newPos }

/-- The position is stored in floats and doubling it does not overflow: rounding leaves
the coordinates and their doubles as they are. -/
def Storable (rnd : ℚ → ℚ) (v : Vec3) : Prop :=
  Vec3.round rnd v = v ∧ Vec3.round rnd (Vec3.scale v 2) = Vec3.scale v 2

instance (rnd : ℚ → ℚ) (v : Vec3) : Decidable (Storable rnd v) := by
  unfold Storable
  infer_instance

/-! ## The grid in float arithmetic -/

/-- The value fits the C++ type `int` (32 bits). -/
def inInt32 (v : Int) : Prop := -2 ^ 31 ≤ v ∧ v < 2 ^ 31

instance (v : Int) : Decidable (inInt32 v) := by
  unfold inInt32
  infer_instance

/-- The method `CSBmesh::calcCell` in float arithmetic:
`static_cast<int>(glm::floor(coord / m_avgEdgeLength))` per component, the quotient
rounded by `rnd` (the floor of a float is a float).  With `len = 0` the quotient is not a
finite number, and the conversion of a value outside `int` is undefined. -/
def calcCellFloat (rnd : ℚ → ℚ) (len : ℚ) (p : Vec3) : Option IVec3 :=
  if len = 0 then none
  else if inInt32 (Int.floor (rnd (p.x / len))) ∧ inInt32 (Int.floor (rnd (p.y / len))) ∧
      inInt32 (Int.floor (rnd (p.z / len))) then
    some ⟨Int.floor (rnd (p.x / len)), Int.floor (rnd (p.y / len)),
      Int.floor (rnd (p.z / len))⟩
  else none

/-- The method `CSBmesh::hashPoint` in float arithmetic. -/
def hashPointFloat (rnd : ℚ → ℚ) (len : ℚ) (m : Nat) (p : Vec3) : Option Nat :=
  (calcCellFloat rnd len p).bind (hashCell m)

/-- The body of the loop of `hashVerts` in float arithmetic. -/
def hashVertStepFloat (rnd : ℚ → ℚ) (len : ℚ) (points : List Point)
    (table : List (List Nat)) (i : Nat) : Option (List (List Nat)) :=
  match points[i]? with
  | none => none
  | some pt =>
    match hashPointFloat rnd len table.length pt.m_pos with
    | none => none
    | some h => some (pushAt table h i)

/-- The method `CSBmesh::hashVerts` in float arithmetic. -/
def hashVertsFloat (rnd : ℚ → ℚ) (s : Mesh) : Option Mesh :=
  if maxUShort < s.m_points.length then none
  else
    let cleared := s.m_hashTable.map (fun _ => ([] : List Nat))
    match (List.range s.m_points.length).foldlM
        (hashVertStepFloat rnd s.m_avgEdgeLength s.m_points) cleared with
    | none => none
    | some table => some { s with m_hashTable := table }

/-- The hashes that `hashTris` appends for triangle `i`, in float arithmetic
(`glm::min` and `glm::max` do not round).  A loop `for (int x = min.x; x <= max.x; ++x)`
whose bound is the largest `int` overflows its counter. -/
def triangleHashesFloat (rnd : ℚ → ℚ) (s : Mesh) (i : Nat) : Option (List Nat) :=
  match trianglePoints s i with
  | none => none
  | some (p1, p2, p3) =>
    match calcCellFloat rnd s.m_avgEdgeLength
            (Vec3.min (Vec3.min p1.m_pos p2.m_pos) p3.m_pos),
          calcCellFloat rnd s.m_avgEdgeLength
            (Vec3.max (Vec3.max p1.m_pos p2.m_pos) p3.m_pos) with
    | some lo, some hi =>
      if hi.x < 2 ^ 31 - 1 ∧ hi.y < 2 ^ 31 - 1 ∧ hi.z < 2 ^ 31 - 1 then
        (boxCells lo hi).mapM (hashCell s.m_hashTable.length)
      else none
    | _, _ => none

/-- The body of the loop of `hashTris` over the triangles, in float arithmetic. -/
def hashTriStepFloat (rnd : ℚ → ℚ) (s : Mesh) (triHash : List (List Nat)) (i : Nat) :
    Option (List (List Nat)) :=
  match triangleHashesFloat rnd s i with
  | none => none
  | some hs =>
    match triHash[i]? with
    | none => none
    | some old => some (triHash.set i (old ++ hs))

/-- The method `CSBmesh::hashTris` in float arithmetic. -/
def hashTrisFloat (rnd : ℚ → ℚ) (s : Mesh) : Option Mesh :=
  let cleared := s.m_triangleVertHash.map (fun _ => ([] : List Nat))
  match (List.range s.m_triangleVertHash.length).foldlM (hashTriStepFloat rnd s) cleared with
  | none => none
  | some triHash => some { s with m_triangleVertHash := triHash }

/-- The rounded quotient of the coordinate `v` by the cell size gives a cell index that
fits `int` and can be a loop bound. -/
def coordOk (rnd : ℚ → ℚ) (len v : ℚ) : Prop :=
  -2 ^ 31 ≤ Int.floor (rnd (v / len)) ∧ Int.floor (rnd (v / len)) < 2 ^ 31 - 1

instance (rnd : ℚ → ℚ) (len v : ℚ) : Decidable (coordOk rnd len v) := by
  unfold coordOk
  infer_instance

/-- The three coordinates of a position give cell indices that fit `int`. -/
def CellOk (rnd : ℚ → ℚ) (len : ℚ) (p : Vec3) : Prop :=
  coordOk rnd len p.x ∧ coordOk rnd len p.y ∧ coordOk rnd len p.z

instance (rnd : ℚ → ℚ) (len : ℚ) (p : Vec3) : Decidable (CellOk rnd len p) := by
  unfold CellOk
  infer_instance

/-! # Properties -/

/-! ## Properties of the spatial hash -/

/-- For a table with at least one bucket `posMod` is defined and below the table size. -/
theorem posMod_lt (x : Int) (m : Nat) (hm : 1 ≤ m) :
    ∃ h, posMod x m = some h ∧ h < m := by
  refine ⟨((toSizeT x % m + m) % 2 ^ 64) % m, ?_, Nat.mod_lt _ (by omega)⟩
  have h0 : m ≠ 0 := by omega
  simp [posMod, h0]

/-- Whatever `posMod` returns is below the table size. -/
theorem posMod_some_lt (x : Int) (m h : Nat) (hh : posMod x m = some h) : h < m := by
  unfold posMod at hh
  split at hh
  · cases hh
  · cases hh
    exact Nat.mod_lt _ (by omega)

/-- The 32-bit signed range. -/
theorem wrapInt32_range (v : Int) : -2 ^ 31 ≤ wrapInt32 v ∧ wrapInt32 v < 2 ^ 31 := by
  unfold wrapInt32
  have h1 := Int.emod_nonneg (v + 2 ^ 31) (by norm_num : (2 ^ 32 : Int) ≠ 0)
  have h2 := Int.emod_lt_of_pos (v + 2 ^ 31) (by norm_num : (0 : Int) < 2 ^ 32)
  constructor <;> omega

/-- The exclusive or of two 32-bit signed values is a 32-bit signed value. -/
theorem xor_int32_range (a b : Int) (ha : -2 ^ 31 ≤ a ∧ a < 2 ^ 31)
    (hb : -2 ^ 31 ≤ b ∧ b < 2 ^ 31) :
    -2 ^ 31 ≤ Int.xor a b ∧ Int.xor a b < 2 ^ 31 := by
  obtain ⟨ha1, ha2⟩ := ha
  obtain ⟨hb1, hb2⟩ := hb
  cases a with
  | ofNat m =>
    cases b with
    | ofNat n =>
      simp only [Int.xor]
      simp only [Int.ofNat_eq_coe, Int.negSucc_eq] at ha1 ha2 hb1 hb2 ⊢
      have := Nat.xor_lt_two_pow (by omega : m < 2 ^ 31) (by omega : n < 2 ^ 31)
      constructor <;> omega
    | negSucc n =>
      simp only [Int.xor]
      simp only [Int.ofNat_eq_coe, Int.negSucc_eq] at ha1 ha2 hb1 hb2 ⊢
      have := Nat.xor_lt_two_pow (by omega : m < 2 ^ 31) (by omega : n < 2 ^ 31)
      constructor <;> omega
  | negSucc m =>
    cases b with
    | ofNat n =>
      simp only [Int.xor]
      simp only [Int.ofNat_eq_coe, Int.negSucc_eq] at ha1 ha2 hb1 hb2 ⊢
      have := Nat.xor_lt_two_pow (by omega : m < 2 ^ 31) (by omega : n < 2 ^ 31)
      constructor <;> omega
    | negSucc n =>
      simp only [Int.xor]
      simp only [Int.ofNat_eq_coe, Int.negSucc_eq] at ha1 ha2 hb1 hb2 ⊢
      have := Nat.xor_lt_two_pow (by omega : m < 2 ^ 31) (by omega : n < 2 ^ 31)
      constructor <;> omega

/-- The hashed value is a 32-bit signed value. -/
theorem cellKey_range (c : IVec3) : -2 ^ 31 ≤ cellKey c ∧ cellKey c < 2 ^ 31 := by
  unfold cellKey
  exact xor_int32_range _ _
    (xor_int32_range _ _ (wrapInt32_range _) (wrapInt32_range _)) (wrapInt32_range _)

/-- With a cell size other than zero and at least one bucket, `hashPoint` is defined and
below the table size. -/
theorem hashPoint_total (len : ℚ) (m : Nat) (p : Vec3) (hlen : len ≠ 0) (hm : 1 ≤ m) :
    ∃ h, hashPoint len m p = some h ∧ h < m := by
  obtain ⟨h, hh, hlt⟩ := posMod_lt (cellKey ⟨Int.floor (p.x / len), Int.floor (p.y / len),
    Int.floor (p.z / len)⟩) m hm
  exact ⟨h, by simp [hashPoint, calcCell, hlen, hashCell, hh], hlt⟩

/-- C2 as stated fails: for the cell `(-1, 0, 0)` and a table of nine buckets the hashed
value is `v = -73856093`, whose non-negative residue modulo `9` is `4`, but `hashCell`
returns `2`. -/
theorem hashCell_not_signed_residue :
    cellKey ⟨-1, 0, 0⟩ = -73856093 ∧
    signCorrectMod (cellKey ⟨-1, 0, 0⟩) 9 = 4 ∧
    cellKey ⟨-1, 0, 0⟩ % 9 = 4 ∧
    hashCell 9 ⟨-1, 0, 0⟩ = some 2 ∧
    ¬ (∀ (c : IVec3) (m : Nat), 1 ≤ m →
        (hashCell m c).map Int.ofNat = some (signCorrectMod (cellKey c) m)) := by
  have h1 : cellKey ⟨-1, 0, 0⟩ = -73856093 := by decide
  have h2 : signCorrectMod (cellKey ⟨-1, 0, 0⟩) 9 = 4 := by decide
  have h3 : hashCell 9 ⟨-1, 0, 0⟩ = some 2 := by decide
  refine ⟨h1, h2, by rw [h1]; decide, h3, ?_⟩
  intro h
  have := h ⟨-1, 0, 0⟩ 9 (by decide)
  rw [h2, h3] at this
  exact absurd this (by decide)

/-- C2 amended: for every cell and every table size `1 ≤ m ≤ 2^63`, `hashCell` is the
remainder modulo `m` of the hashed 32-bit value `v` converted to a 64-bit unsigned
number (`v` itself when `v ≥ 0`, `v + 2^64` when `v < 0`); when `v ≥ 0` this is the
sign-correct modulo `((v % m) + m) % m`, the non-negative residue of `v` modulo `m`. -/
theorem hashCell_unsigned_residue (c : IVec3) (m : Nat) (hm : 1 ≤ m) (hm2 : m ≤ 2 ^ 63) :
    hashCell m c = some (toSizeT (cellKey c) % m) ∧
    ((toSizeT (cellKey c) : Int) = if 0 ≤ cellKey c then cellKey c else cellKey c + 2 ^ 64) ∧
    (0 ≤ cellKey c →
      (hashCell m c).map Int.ofNat = some (signCorrectMod (cellKey c) m) ∧
      signCorrectMod (cellKey c) m = cellKey c % (m : Int)) := by
  obtain ⟨hlo, hhi⟩ := cellKey_range c
  have h0 : m ≠ 0 := by omega
  have hmod : toSizeT (cellKey c) % m < m := Nat.mod_lt _ (by omega)
  have hcell : hashCell m c = some (toSizeT (cellKey c) % m) := by
    simp only [hashCell, posMod, h0, if_false]
    congr 1
    rw [Nat.mod_eq_of_lt (by omega : toSizeT (cellKey c) % m + m < 2 ^ 64)]
    simp
  have hconv : (toSizeT (cellKey c) : Int) =
      if 0 ≤ cellKey c then cellKey c else cellKey c + 2 ^ 64 := by
    unfold toSizeT
    rw [Int.toNat_of_nonneg (Int.emod_nonneg _ (by norm_num))]
    split
    · exact Int.emod_eq_of_lt (by omega) (by omega)
    · rw [← Int.add_emod_self]
      exact Int.emod_eq_of_lt (by omega) (by omega)
  refine ⟨hcell, hconv, ?_⟩
  intro hv
  have hm0 : (0 : Int) ≤ (m : Int) := by omega
  have hmpos : (0 : Int) < (m : Int) := by omega
  have hsc : signCorrectMod (cellKey c) m = cellKey c % (m : Int) := by
    unfold signCorrectMod
    rw [Int.tmod_eq_emod hv hm0]
    have hr := Int.emod_nonneg (cellKey c) (by omega : (m : Int) ≠ 0)
    rw [Int.tmod_eq_emod (by omega) hm0]
    simp
  refine ⟨?_, hsc⟩
  rw [hcell, hsc]
  simp only [Option.map_some']
  congr 1
  rw [if_pos hv] at hconv
  have : ((toSizeT (cellKey c) % m : Nat) : Int) = (toSizeT (cellKey c) : Int) % (m : Int) := by
    simp
  simp only [Int.ofNat_eq_coe]
  rw [this, hconv]

/-- Witness of the amended C2 at the cell `(1, 2, 3)` and nine buckets. -/
theorem hashCell_unsigned_residue_witness :
    (1 ≤ 9) ∧ (9 ≤ 2 ^ 63) ∧
    hashCell 9 ⟨1, 2, 3⟩ = some (toSizeT (cellKey ⟨1, 2, 3⟩) % 9) ∧
    ((toSizeT (cellKey ⟨1, 2, 3⟩) : Int) =
      if 0 ≤ cellKey ⟨1, 2, 3⟩ then cellKey ⟨1, 2, 3⟩ else cellKey ⟨1, 2, 3⟩ + 2 ^ 64) ∧
    (0 ≤ cellKey ⟨1, 2, 3⟩ →
      (hashCell 9 ⟨1, 2, 3⟩).map Int.ofNat = some (signCorrectMod (cellKey ⟨1, 2, 3⟩) 9) ∧
      signCorrectMod (cellKey ⟨1, 2, 3⟩) 9 = cellKey ⟨1, 2, 3⟩ % ((9 : Nat) : Int)) :=
  ⟨by decide, by decide, hashCell_unsigned_residue ⟨1, 2, 3⟩ 9 (by decide) (by decide)⟩

/-! ## Hash table size -/

/-- C3 as stated fails: for ten vertices the table gets nine buckets, fewer than the
vertex count. -/
theorem hashTableSize_below_count :
    hashTableSize 10 = some 9 ∧
    ¬ (∀ n : Nat, 1 ≤ n → ∃ size k : Nat, hashTableSize n = some size ∧ 1 ≤ k ∧
        size = k * 10 ^ Nat.log 10 n - 1 ∧ n ≤ size) := by
  have h10 : hashTableSize 10 = some 9 := by
    simp [hashTableSize, Nat.log]
  refine ⟨h10, ?_⟩
  intro h
  obtain ⟨size, k, hs, -, -, hle⟩ := h 10 (by decide)
  rw [h10] at hs
  cases hs
  omega

/-- Rounding `n` up to a multiple of `mult ≤ n` and subtracting one: the multiplier is
positive, the result is at least `n - 1`, and it reaches `n` exactly when `mult` does not
divide `n`. -/
theorem roundUp_minus_one (n mult : Nat) (hpos : 0 < mult) (hle : mult ≤ n) :
    1 ≤ (n + mult - 1) / mult ∧ n - 1 ≤ (n + mult - 1) / mult * mult - 1 ∧
      (n ≤ (n + mult - 1) / mult * mult - 1 ↔ ¬ mult ∣ n) := by
  have h1 : n + mult - 1 < (n + mult - 1) / mult * mult + mult := by
    have := Nat.lt_div_mul_add hpos (a := n + mult - 1)
    omega
  have h2 : (n + mult - 1) / mult * mult ≤ n + mult - 1 := Nat.div_mul_le_self _ _
  refine ⟨Nat.div_pos (by omega) hpos, by omega, ?_⟩
  constructor
  · intro hsz hdvd
    obtain ⟨q, rfl⟩ := hdvd
    have hq : (mult * q + mult - 1) / mult = q := by
      have : mult * q + mult - 1 = (mult - 1) + mult * q := by omega
      rw [this, Nat.add_mul_div_left _ _ hpos, Nat.div_eq_of_lt (by omega)]
      simp
    rw [hq] at hsz
    have : q * mult = mult * q := Nat.mul_comm _ _
    omega
  · intro hnd
    by_contra hlt
    have heq : (n + mult - 1) / mult * mult = n := by omega
    exact hnd ⟨(n + mult - 1) / mult, by rw [Nat.mul_comm]; exact heq.symm⟩

/-- C3 amended: for every vertex count `n ≥ 1` the table size has the form
`k * 10^d - 1` with `k ≥ 1` and `d = floor(log10 n)`, and it is at least `n - 1`; it
is at least `n` exactly when `n` is not a multiple of `10^d`. -/
theorem hashTableSize_form (n : Nat) (hn : 1 ≤ n) :
    ∃ size k : Nat, hashTableSize n = some size ∧ 1 ≤ k ∧
      size = k * 10 ^ Nat.log 10 n - 1 ∧ n - 1 ≤ size ∧
      (n ≤ size ↔ ¬ 10 ^ Nat.log 10 n ∣ n) := by
  have hn0 : n ≠ 0 := by omega
  have hpos : 0 < 10 ^ Nat.log 10 n := Nat.pos_pow_of_pos _ (by decide)
  have hle : 10 ^ Nat.log 10 n ≤ n := Nat.pow_log_le_self 10 hn0
  obtain ⟨hk, hge, hiff⟩ := roundUp_minus_one n _ hpos hle
  exact ⟨_, (n + 10 ^ Nat.log 10 n - 1) / 10 ^ Nat.log 10 n,
    by simp only [hashTableSize, hn0, if_false], hk, rfl, hge, hiff⟩

/-- Witness of the amended C3 at fifteen vertices. -/
theorem hashTableSize_form_witness :
    (1 ≤ 15) ∧
    ∃ size k : Nat, hashTableSize 15 = some size ∧ 1 ≤ k ∧
      size = k * 10 ^ Nat.log 10 15 - 1 ∧ 15 - 1 ≤ size ∧
      (15 ≤ size ↔ ¬ 10 ^ Nat.log 10 15 ∣ 15) :=
  ⟨by decide, hashTableSize_form 15 (by decide)⟩

/-! ## The points built by `init` -/

/-- The points phase of `init` on an empty store: one point per vertex at the vertex, the
first and the last pinned. -/
theorem initPoints_spec (vertices : List Vec3) (hne : vertices ≠ []) :
    ∃ pts, initPoints [] vertices = some pts ∧ pts.length = vertices.length ∧
      ∀ i (h : i < vertices.length),
        pts[i]? = some ⟨vertices[i], vertices[i],
          if i = 0 ∨ i = vertices.length - 1 then 0 else 1⟩ := by
  have hn : 0 < vertices.length := List.length_pos.mpr hne
  have hP : ∀ i (h : i < vertices.length),
      (vertices.map (fun vert => Point.create vert 1))[i]? =
        some ⟨vertices[i], vertices[i], 1⟩ := by
    intro i h
    simp [List.getElem?_map, List.getElem?_eq_getElem h, Point.create]
  have hlen1 : ((vertices.map (fun vert => Point.create vert 1)).set 0
      ⟨vertices[0], vertices[0], 0⟩).length = vertices.length := by simp
  have hlast : ((vertices.map (fun vert => Point.create vert 1)).set 0
      ⟨vertices[0], vertices[0], 0⟩)[vertices.length - 1]? =
        some ⟨vertices[vertices.length - 1], vertices[vertices.length - 1],
          if 0 = vertices.length - 1 then 0 else 1⟩ := by
    rw [List.getElem?_set]
    by_cases h0 : 0 = vertices.length - 1
    · simp only [if_pos h0, List.length_map, hn]
      simp [← h0]
    · rw [if_neg h0, hP _ (by omega), if_neg h0]
  refine ⟨((vertices.map (fun vert => Point.create vert 1)).set 0
      ⟨vertices[0], vertices[0], 0⟩).set (vertices.length - 1)
        ⟨vertices[vertices.length - 1], vertices[vertices.length - 1], 0⟩, ?_, by simp, ?_⟩
  · simp only [initPoints, List.nil_append, hP 0 hn, hlen1, hlast]
  · intro i h
    rw [List.getElem?_set, List.getElem?_set]
    by_cases hi : vertices.length - 1 = i
    · subst hi
      simp [hn]
    · by_cases h0 : 0 = i
      · subst h0
        simp [hi, hn]
      · have hne2 : ¬ (i = 0 ∨ i = vertices.length - 1) := by omega
        rw [if_neg hi, if_neg h0, hP i h, if_neg hne2]

/-- A completed `init` carries the result of its points phase. -/
theorem init_points_eq (fm : FastMath) (s s2 : Mesh) (h : init fm s = some s2) :
    initPoints s.m_points s.m_vertices = some s2.m_points := by
  unfold init at h
  simp only at h
  split at h
  · cases h
  · split at h
    · cases h
    · split at h
      · cases h
      · split at h
        · cases h
        · split at h
          · cases h
          · split at h
            · cases h
            · cases h
              simp_all

/-- C6: for every non-empty vertex list of length `n`, `init` on the freshly loaded mesh
fills the point store with exactly `n` points; point `i` sits at rest vertex `i`, the
points `0` and `n - 1` have inverse mass `0` and every other point has inverse mass
`1`.  The points phase of `init` always completes, and every completed `init` has these
points. -/
theorem init_points (fm : FastMath) (vertices : List Vec3) (indices : List Nat)
    (adjacency : List (List Nat)) (hne : vertices ≠ []) :
    ∃ pts, initPoints [] vertices = some pts ∧
      pts.length = vertices.length ∧
      (∀ i (h : i < vertices.length), ∃ pt, pts[i]? = some pt ∧ pt.m_pos = vertices[i] ∧
        pt.m_invMass = if i = 0 ∨ i = vertices.length - 1 then 0 else 1) ∧
      (∀ s2, init fm (Mesh.load vertices indices adjacency) = some s2 → s2.m_points = pts) := by
  obtain ⟨pts, h1, h2, h3⟩ := initPoints_spec vertices hne
  refine ⟨pts, h1, h2, fun i h => ⟨_, h3 i h, rfl, rfl⟩, ?_⟩
  intro s2 hs
  have := init_points_eq fm _ s2 hs
  simp only [Mesh.load] at this
  rw [h1] at this
  cases this
  rfl

/-! ## The edge set -/

/-- Membership after an insertion into the edge set. -/
theorem mem_setInsert (s : List EdgePair) (e x : EdgePair) :
    x ∈ setInsert s e ↔ x ∈ s ∨ x = e := by
  unfold setInsert
  split
  · constructor
    · exact fun h => Or.inl h
    · rintro (h | rfl)
      · exact h
      · assumption
  · simp

/-- Insertion keeps the edge set duplicate free. -/
theorem nodup_setInsert (s : List EdgePair) (e : EdgePair) (h : s.Nodup) :
    (setInsert s e).Nodup := by
  unfold setInsert
  split
  · exact h
  · rename_i hne
    rw [List.nodup_append]
    refine ⟨h, List.nodup_singleton e, ?_⟩
    intro a ha hb
    simp only [List.mem_singleton] at hb
    subst hb
    exact hne ha

/-- Two edge pairs are equal exactly when they join the same two vertices. -/
theorem make_eq_make (a b c d : Nat) :
    EdgePair.make a b = EdgePair.make c d ↔ sameEdge a b c d := by
  unfold EdgePair.make sameEdge
  constructor
  · intro h
    injection h with h
    injection h with h1 h2
    omega
  · rintro (⟨rfl, rfl⟩ | ⟨rfl, rfl⟩)
    · rfl
    · rw [Nat.min_comm, Nat.max_comm]

/-- Both ends of an edge pair built from members of a list are members of it. -/
theorem min_max_mem (a b : Nat) (l : List Nat) (ha : a ∈ l) (hb : b ∈ l) :
    (EdgePair.make a b).p.1 ∈ l ∧ (EdgePair.make a b).p.2 ∈ l := by
  simp only [EdgePair.make]
  rcases Nat.le_total a b with h | h
  · rw [Nat.min_eq_left h, Nat.max_eq_right h]; exact ⟨ha, hb⟩
  · rw [Nat.min_eq_right h, Nat.max_eq_left h]; exact ⟨hb, ha⟩

/-- The loop of `getEdges`, started at index `i` with `last = size - 2`, completes; it
keeps the set duplicate free and adds exactly the sides of the triangles at `i`, `i + 3`,
... -/
theorem getEdgesFrom_spec (indices : List Nat) (last : Nat) (hlast : last + 2 = indices.length) :
    ∀ (k i : Nat) (acc : List EdgePair), indices.length - i ≤ k →
      ∃ res, getEdgesFrom indices last i acc = some res ∧ (acc.Nodup → res.Nodup) ∧
        ∀ e, e ∈ res ↔ e ∈ acc ∨ ∃ t p1 p2 p3, indices[i + 3 * t]? = some p1 ∧
          indices[i + 3 * t + 1]? = some p2 ∧ indices[i + 3 * t + 2]? = some p3 ∧
          (e = EdgePair.make p1 p2 ∨ e = EdgePair.make p2 p3 ∨ e = EdgePair.make p3 p1) := by
  intro k
  induction k with
  | zero =>
    intro i acc hk
    have hnot : ¬ i < last := by omega
    refine ⟨acc, by rw [getEdgesFrom]; simp [hnot], id, ?_⟩
    intro e
    constructor
    · exact Or.inl
    · rintro (h | ⟨t, p1, p2, p3, -, -, h3, -⟩)
      · exact h
      · have := (List.getElem?_eq_some_iff.mp h3).1
        omega
  | succ k ih =>
    intro i acc hk
    by_cases hlt : i < last
    · have h2 : i + 2 < indices.length := by omega
      obtain ⟨res, hres, hnd, hmem⟩ := ih (i + 3)
        (setInsert (setInsert (setInsert acc (EdgePair.make indices[i] indices[i + 1]))
          (EdgePair.make indices[i + 1] indices[i + 2])) (EdgePair.make indices[i + 2] indices[i]))
        (by omega)
      refine ⟨res, ?_, ?_, ?_⟩
      · rw [getEdgesFrom]
        simp only [hlt, if_true, h2, dite_true]
        exact hres
      · intro hacc
        exact hnd (nodup_setInsert _ _ (nodup_setInsert _ _ (nodup_setInsert _ _ hacc)))
      · intro e
        rw [hmem e, mem_setInsert, mem_setInsert, mem_setInsert]
        constructor
        · rintro ((((h | h) | h) | h) | ⟨t, p1, p2, p3, h1, h2, h3, h4⟩)
          · exact Or.inl h
          · exact Or.inr ⟨0, _, _, _, List.getElem?_eq_getElem (by omega),
              List.getElem?_eq_getElem (by omega), List.getElem?_eq_getElem (by omega),
              Or.inl h⟩
          · exact Or.inr ⟨0, _, _, _, List.getElem?_eq_getElem (by omega),
              List.getElem?_eq_getElem (by omega), List.getElem?_eq_getElem (by omega),
              Or.inr (Or.inl h)⟩
          · exact Or.inr ⟨0, _, _, _, List.getElem?_eq_getElem (by omega),
              List.getElem?_eq_getElem (by omega), List.getElem?_eq_getElem (by omega),
              Or.inr (Or.inr h)⟩
          · refine Or.inr ⟨t + 1, p1, p2, p3, ?_, ?_, ?_, h4⟩
            · rw [← h1]; congr 1; omega
            · rw [← h2]; congr 1; omega
            · rw [← h3]; congr 1; omega
        · rintro (h | ⟨t, p1, p2, p3, h1, h2, h3, h4⟩)
          · exact Or.inl (Or.inl (Or.inl (Or.inl h)))
          · cases t with
            | zero =>
              simp only [Nat.mul_zero, Nat.add_zero] at h1 h2 h3
              rw [List.getElem?_eq_getElem (by omega)] at h1 h2 h3
              cases h1; cases h2; cases h3
              rcases h4 with h | h | h
              · exact Or.inl (Or.inl (Or.inl (Or.inr h)))
              · exact Or.inl (Or.inl (Or.inr h))
              · exact Or.inl (Or.inr h)
            | succ t =>
              refine Or.inr ⟨t, p1, p2, p3, ?_, ?_, ?_, h4⟩
              · rw [← h1]; congr 1; omega
              · rw [← h2]; congr 1; omega
              · rw [← h3]; congr 1; omega
    · refine ⟨acc, by rw [getEdgesFrom]; simp [hlt], id, ?_⟩
      intro e
      constructor
      · exact Or.inl
      · rintro (h | ⟨t, p1, p2, p3, -, -, h3, -⟩)
        · exact h
        · have := (List.getElem?_eq_some_iff.mp h3).1
          omega

/-- The edge set of a mesh with at least two indices: duplicate free, stored as
(smaller, larger), and holding exactly the sides of the whole triangles. -/
theorem getEdges_spec (s : Mesh) (hlen : 2 ≤ s.m_indices.length)
    (hsz : 2 ≤ s.m_vertices.length + s.m_indices.length / 3) :
    ∃ edgeSet, getEdges s = some edgeSet ∧ edgeSet.Nodup ∧
      (∀ e ∈ edgeSet, e.p.1 ≤ e.p.2) ∧
      (∀ a b, EdgePair.make a b ∈ edgeSet ↔ isTriangleEdge s.m_indices a b) ∧
      (∀ e ∈ edgeSet, e.p.1 ∈ s.m_indices ∧ e.p.2 ∈ s.m_indices) := by
  obtain ⟨res, hres, hnd, hmem⟩ := getEdgesFrom_spec s.m_indices (s.m_indices.length - 2)
    (by omega) s.m_indices.length 0 [] (by omega)
  have hmem2 : ∀ e, e ∈ res ↔ ∃ t p1 p2 p3, s.m_indices[3 * t]? = some p1 ∧
      s.m_indices[3 * t + 1]? = some p2 ∧ s.m_indices[3 * t + 2]? = some p3 ∧
      (e = EdgePair.make p1 p2 ∨ e = EdgePair.make p2 p3 ∨ e = EdgePair.make p3 p1) := by
    intro e
    rw [hmem e]
    simp
  refine ⟨res, ?_, hnd List.nodup_nil, ?_, ?_, ?_⟩
  · have h1 : ¬ s.m_vertices.length + s.m_indices.length / 3 < 2 := by omega
    simp only [getEdges, h1, if_false, hlen, if_true]
    exact hres
  · intro e he
    obtain ⟨t, p1, p2, p3, -, -, -, h | h | h⟩ := (hmem2 e).mp he <;>
      · subst h
        simp only [EdgePair.make]
        omega
  · intro a b
    rw [hmem2]
    unfold isTriangleEdge
    simp only [make_eq_make]
  · intro e he
    obtain ⟨t, p1, p2, p3, h1, h2, h3, h⟩ := (hmem2 e).mp he
    have m1 := List.getElem?_mem h1
    have m2 := List.getElem?_mem h2
    have m3 := List.getElem?_mem h3
    rcases h with h | h | h
    · subst h; exact min_max_mem _ _ _ m1 m2
    · subst h; exact min_max_mem _ _ _ m2 m3
    · subst h; exact min_max_mem _ _ _ m3 m1

/-! ## Loops in the `Option` monad -/

/-- An invariant kept by every step of a loop that completes holds at its end. -/
theorem foldlM_inv {α β : Type} (f : β → α → Option β) (P : β → Prop)
    (hf : ∀ b a b2, f b a = some b2 → P b → P b2) :
    ∀ (l : List α) (b b2 : β), l.foldlM f b = some b2 → P b → P b2 := by
  intro l
  induction l with
  | nil =>
    intro b b2 h hb
    simp only [List.foldlM_nil] at h
    cases h
    exact hb
  | cons a l ih =>
    intro b b2 h hb
    simp only [List.foldlM_cons] at h
    cases hfa : f b a with
    | none => rw [hfa] at h; cases h
    | some b1 =>
      rw [hfa] at h
      exact ih b1 b2 h (hf b a b1 hfa hb)

/-- A loop completes when every step does under an invariant the steps keep. -/
theorem foldlM_total {α β : Type} (f : β → α → Option β) (P : β → Prop) (l : List α)
    (hf : ∀ b a, a ∈ l → P b → ∃ b2, f b a = some b2 ∧ P b2) :
    ∀ (b : β), P b → ∃ b2, l.foldlM f b = some b2 ∧ P b2 := by
  induction l with
  | nil =>
    intro b hb
    exact ⟨b, rfl, hb⟩
  | cons a l ih =>
    intro b hb
    obtain ⟨b1, h1, hb1⟩ := hf b a (List.mem_cons_self a l) hb
    obtain ⟨b2, h2, hb2⟩ := ih (fun b a ha => hf b a (List.mem_cons_of_mem _ ha)) b1 hb1
    refine ⟨b2, ?_, hb2⟩
    simp only [List.foldlM_cons, h1]
    exact h2

/-! ## The distance constraints built by `init` -/

/-- The loop over the edge set in `init`: with in-range edge ends it completes, adding
each edge length to the total and one distance constraint per edge. -/
theorem edgeFold_spec (fm : FastMath) (vertices : List Vec3) :
    ∀ (es : List EdgePair) (t : ℚ) (cs : List Constraint),
      (∀ e ∈ es, e.p.1 < vertices.length ∧ e.p.2 < vertices.length) →
      es.foldlM (edgeStep fm vertices) (t, cs) =
        some (t + (es.map (edgeLength fm vertices)).sum,
          cs ++ es.map (edgeConstraint fm vertices)) := by
  intro es
  induction es with
  | nil => intro t cs _; simp
  | cons e es ih =>
    intro t cs h
    obtain ⟨h1, h2⟩ := h e (List.mem_cons_self _ _)
    have hstep : edgeStep fm vertices (t, cs) e =
        some (t + edgeLength fm vertices e, cs ++ [edgeConstraint fm vertices e]) := by
      simp only [edgeStep, edgeLength, edgeConstraint, List.getElem?_eq_getElem h1,
        List.getElem?_eq_getElem h2]
    simp only [List.foldlM_cons, hstep]
    have := ih (t + edgeLength fm vertices e) (cs ++ [edgeConstraint fm vertices e])
      (fun e he => h e (List.mem_cons_of_mem _ he))
    simp only [Option.bind_eq_bind, Option.some_bind, this, List.map_cons, List.sum_cons,
      List.append_assoc, List.singleton_append, add_assoc]

/-- A step of the bending loop leaves the distance constraints as they are. -/
theorem bendStep_distance (fm : FastMath) (vertices : List Vec3) (v : Nat)
    (neighbours : List Nat) (st st2 : List EdgePair × List Constraint) (vi : Nat)
    (h : bendStep fm vertices v neighbours st vi = some st2) :
    st2.2.filter Constraint.isDistance = st.2.filter Constraint.isDistance := by
  unfold bendStep at h
  split at h
  · cases h
  · simp only at h
    split at h
    · cases h; rfl
    · split at h
      · cases h
        simp [List.filter_append, Constraint.isDistance]
      · cases h

/-- The bending loop of one vertex leaves the distance constraints as they are. -/
theorem vertexStep_distance (fm : FastMath) (vertices : List Vec3)
    (adjacency : List (List Nat)) (st st2 : List EdgePair × List Constraint) (v : Nat)
    (h : vertexStep fm vertices adjacency st v = some st2) :
    st2.2.filter Constraint.isDistance = st.2.filter Constraint.isDistance := by
  unfold vertexStep at h
  split at h
  · cases h
  · rename_i neighbours _
    exact foldlM_inv (bendStep fm vertices v neighbours)
      (fun x => x.2.filter Constraint.isDistance = st.2.filter Constraint.isDistance)
      (fun b a b2 hb hP => (bendStep_distance fm vertices v neighbours b b2 a hb).trans hP)
      neighbours st st2 h rfl

/-- The whole bending phase leaves the distance constraints as they are. -/
theorem bendFold_distance (fm : FastMath) (vertices : List Vec3)
    (adjacency : List (List Nat)) (l : List Nat) (st st2 : List EdgePair × List Constraint)
    (h : l.foldlM (vertexStep fm vertices adjacency) st = some st2) :
    st2.2.filter Constraint.isDistance = st.2.filter Constraint.isDistance :=
  foldlM_inv (vertexStep fm vertices adjacency)
    (fun x => x.2.filter Constraint.isDistance = st.2.filter Constraint.isDistance)
    (fun b a b2 hb hP => (vertexStep_distance fm vertices adjacency b b2 a hb).trans hP)
    l st st2 h rfl

/-! ## The bending phase completes on well-formed input -/

/-- With in-range vertex indices the wingtip selection completes and selects a vertex
index. -/
theorem selectWingtip_total (fm : FastMath) (vertices : List Vec3) (v vi : Nat)
    (neighbours : List Nat) (hv : v < vertices.length) (hvi : vi < vertices.length)
    (hnb : ∀ nb ∈ neighbours, nb < vertices.length) :
    ∃ best, selectWingtip fm vertices v vi neighbours = some best ∧
      best.2 < vertices.length := by
  unfold selectWingtip
  refine foldlM_total (wingtipStep fm vertices v vi) (fun st => st.2 < vertices.length)
    neighbours ?_ ((0 : ℚ), vi) hvi
  intro st vj hvj hst
  have hj := hnb vj hvj
  unfold wingtipStep
  split
  · exact ⟨st, rfl, hst⟩
  · simp only [List.getElem?_eq_getElem hvi, List.getElem?_eq_getElem hv,
      List.getElem?_eq_getElem hj]
    split
    · exact ⟨_, rfl, hj⟩
    · exact ⟨_, rfl, hst⟩

/-- With in-range vertex indices a step of the bending loop completes. -/
theorem bendStep_total (fm : FastMath) (vertices : List Vec3) (v vi : Nat)
    (neighbours : List Nat) (st : List EdgePair × List Constraint)
    (hv : v < vertices.length) (hvi : vi < vertices.length)
    (hnb : ∀ nb ∈ neighbours, nb < vertices.length) :
    ∃ st2, bendStep fm vertices v neighbours st vi = some st2 := by
  obtain ⟨best, hbest, hlt⟩ := selectWingtip_total fm vertices v vi neighbours hv hvi hnb
  unfold bendStep
  simp only [hbest]
  split
  · exact ⟨_, rfl⟩
  · simp only [List.getElem?_eq_getElem hvi, List.getElem?_eq_getElem hv,
      List.getElem?_eq_getElem hlt]
    exact ⟨_, rfl⟩

/-- With a well-formed adjacency the bending loop of one vertex completes. -/
theorem vertexStep_total (fm : FastMath) (vertices : List Vec3) (adjacency : List (List Nat))
    (st : List EdgePair × List Constraint) (v : Nat) (hv : v < vertices.length)
    (hadj : vertices.length ≤ adjacency.length)
    (hnb : ∀ nbs ∈ adjacency, ∀ nb ∈ nbs, nb < vertices.length) :
    ∃ st2, vertexStep fm vertices adjacency st v = some st2 := by
  unfold vertexStep
  have hva : v < adjacency.length := by omega
  simp only [List.getElem?_eq_getElem hva]
  have hn := hnb _ (List.getElem_mem hva)
  obtain ⟨st2, h, -⟩ := foldlM_total (bendStep fm vertices v adjacency[v]) (fun _ => True)
    adjacency[v]
    (fun b a ha _ => by
      obtain ⟨st2, h⟩ := bendStep_total fm vertices v a adjacency[v] b hv (hn a ha) hn
      exact ⟨st2, h, trivial⟩) st trivial
  exact ⟨st2, h⟩

/-- With a well-formed adjacency the bending phase completes. -/
theorem bendFold_total (fm : FastMath) (vertices : List Vec3) (adjacency : List (List Nat))
    (st : List EdgePair × List Constraint)
    (hadj : vertices.length ≤ adjacency.length)
    (hnb : ∀ nbs ∈ adjacency, ∀ nb ∈ nbs, nb < vertices.length) :
    ∃ st2, (List.range vertices.length).foldlM (vertexStep fm vertices adjacency) st
      = some st2 := by
  obtain ⟨st2, h, -⟩ := foldlM_total (vertexStep fm vertices adjacency) (fun _ => True)
    (List.range vertices.length)
    (fun b a ha _ => by
      obtain ⟨st2, h⟩ := vertexStep_total fm vertices adjacency b a
        (List.mem_range.mp ha) hadj hnb
      exact ⟨st2, h, trivial⟩) st trivial
  exact ⟨st2, h⟩

/-! ## `init` as a whole -/

/-- What a completed `init` went through, phase by phase. -/
theorem init_inv (fm : FastMath) (s s2 : Mesh) (h : init fm s = some s2) :
    ∃ hashSize points edgeSet total cs conn cs2,
      hashTableSize s.m_vertices.length = some hashSize ∧
      initPoints s.m_points s.m_vertices = some points ∧
      getEdges s = some edgeSet ∧
      edgeSet.foldlM (edgeStep fm s.m_vertices) ((0 : ℚ), s.m_constraints) = some (total, cs) ∧
      s.m_vertices.length ≤ maxUShort ∧
      (List.range s.m_vertices.length).foldlM (vertexStep fm s.m_vertices s.m_adjacency)
        (([] : List EdgePair), cs) = some (conn, cs2) ∧
      s2 = { s with
        m_points := points
        m_constraints := cs2
        m_hashTable := resizeLists s.m_hashTable hashSize
        m_triangleVertHash := resizeLists s.m_triangleVertHash (s.m_indices.length / 3)
        m_avgEdgeLength := total / (edgeSet.length : ℚ) } := by
  unfold init at h
  simp only at h
  split at h
  · cases h
  · rename_i hashSize h1
    split at h
    · cases h
    · rename_i points h2
      split at h
      · cases h
      · rename_i edgeSet h3
        split at h
        · cases h
        · rename_i total cs h4
          split at h
          · cases h
          · rename_i h5
            split at h
            · cases h
            · rename_i conn cs2 h6
              cases h
              exact ⟨hashSize, points, edgeSet, total, cs, conn, cs2, h1, h2, h3, h4,
                by omega, h6, rfl⟩

/-- When every phase of `init` completes, `init` returns the mesh assembled from their
results. -/
theorem init_intro (fm : FastMath) (s : Mesh) (hashSize : Nat) (points : List Point)
    (edgeSet : List EdgePair) (total : ℚ) (cs : List Constraint) (conn : List EdgePair)
    (cs2 : List Constraint)
    (h1 : hashTableSize s.m_vertices.length = some hashSize)
    (h2 : initPoints s.m_points s.m_vertices = some points)
    (h3 : getEdges s = some edgeSet)
    (h4 : edgeSet.foldlM (edgeStep fm s.m_vertices) ((0 : ℚ), s.m_constraints)
      = some (total, cs))
    (h5 : s.m_vertices.length ≤ maxUShort)
    (h6 : (List.range s.m_vertices.length).foldlM
      (vertexStep fm s.m_vertices s.m_adjacency) (([] : List EdgePair), cs) = some (conn, cs2)) :
    init fm s = some { s with
        m_points := points
        m_constraints := cs2
        m_hashTable := resizeLists s.m_hashTable hashSize
        m_triangleVertHash := resizeLists s.m_triangleVertHash (s.m_indices.length / 3)
        m_avgEdgeLength := total / (edgeSet.length : ℚ) } := by
  have h5b : ¬ maxUShort < s.m_vertices.length := by omega
  unfold init
  simp only [h1, h2, h3, h4, h5b, if_false, h6]

/-- A resized vector has the requested size. -/
theorem length_resizeLists (l : List (List Nat)) (n : Nat) : (resizeLists l n).length = n := by
  unfold resizeLists
  simp only [List.length_append, List.length_take, List.length_replicate]
  omega

/-- The distance constraint of a stored edge joins `a` and `b` exactly when the edge is
`{a, b}`. -/
theorem joins_edgeConstraint (fm : FastMath) (vertices : List Vec3) (a b : Nat)
    (e : EdgePair) (he : e.p.1 ≤ e.p.2) :
    Constraint.joins a b (edgeConstraint fm vertices e) = decide (e = EdgePair.make a b) := by
  have hnorm : e = EdgePair.make e.p.1 e.p.2 := by
    cases e with
    | mk p =>
      cases p with
      | mk x y =>
        simp only at he
        simp [EdgePair.make, Nat.min_eq_left he, Nat.max_eq_right he]
  simp only [edgeConstraint, Constraint.joins]
  have : (e = EdgePair.make a b) ↔ sameEdge a b e.p.1 e.p.2 := by
    rw [← make_eq_make]
    constructor
    · intro h; rw [← hnorm]; exact h.symm
    · intro h; rw [hnorm]; exact h.symm
  simp only [this]

/-- Among the distance constraints of a duplicate-free edge set, those joining `a` and `b`
number one if `{a, b}` is in the set and zero otherwise. -/
theorem count_joins (fm : FastMath) (vertices : List Vec3) (es : List EdgePair)
    (hnd : es.Nodup) (hnorm : ∀ e ∈ es, e.p.1 ≤ e.p.2) (a b : Nat) :
    ((es.map (edgeConstraint fm vertices)).filter (Constraint.joins a b)).length =
      if EdgePair.make a b ∈ es then 1 else 0 := by
  rw [List.filter_map, List.length_map, ← List.count_eq_of_nodup hnd, List.count,
    List.countP_eq_length_filter]
  congr 1
  apply List.filter_congr
  intro e he
  simp only [Function.comp, joins_edgeConstraint fm vertices a b e (hnorm e he)]
  by_cases h : e = EdgePair.make a b <;> simp [h]

/-- The squared distance is symmetric. -/
theorem length2_sub_comm (a b : Vec3) :
    Vec3.length2 (Vec3.sub a b) = Vec3.length2 (Vec3.sub b a) := by
  simp only [Vec3.length2, Vec3.dot, Vec3.sub]
  ring

/-- C5 as stated fails: on an index list of length 4 (not a multiple of 3) `init`
reports nothing and builds three points, six constraints, the two-bucket hash table and
the per-triangle list. -/
theorem init_accepts_dangling_index :
    sampleDangling.m_indices.length % 3 ≠ 0 ∧
    ∃ s2, init exactMath sampleDangling = some s2 ∧ s2.m_points.length = 3 ∧
      s2.m_constraints.length = 6 ∧ s2.m_hashTable.length = 2 ∧
      s2.m_triangleVertHash.length = 1 ∧ s2.m_avgEdgeLength = 4 := by
  refine ⟨by decide, ?_⟩
  have h : (init exactMath sampleDangling).isSome = true := by decide!
  obtain ⟨s2, hs⟩ := Option.isSome_iff_exists.mp h
  refine ⟨s2, hs, ?_⟩
  have h2 : (init exactMath sampleDangling).map (fun s => (s.m_points.length,
      s.m_constraints.length, s.m_hashTable.length, s.m_triangleVertHash.length,
      s.m_avgEdgeLength)) = some (3, 6, 2, 1, 4) := by decide!
  rw [hs] at h2
  simp only [Option.map_some', Option.some.injEq, Prod.mk.injEq] at h2
  exact h2

/-- C5 amended: `init` has no failure path of its own: it checks nothing and reports
nothing.  For every input with between 1 and 65535 vertices, at least three indices,
every index and adjacency entry below the vertex count and an adjacency list for each
vertex, it completes: it builds the `n` points, both grid tables and a distance
constraint for every side of every whole triangle, also when the index list length is
not a multiple of 3 (the trailing one or two indices are not read). -/
theorem init_completes (fm : FastMath) (vertices : List Vec3) (indices : List Nat)
    (adjacency : List (List Nat)) (hwf : WellFormed vertices indices adjacency) :
    ∃ s2, init fm (Mesh.load vertices indices adjacency) = some s2 ∧
      s2.m_points.length = vertices.length ∧
      hashTableSize vertices.length = some s2.m_hashTable.length ∧
      s2.m_triangleVertHash.length = indices.length / 3 ∧
      (∀ a b, isTriangleEdge indices a b →
        ((distanceConstraints s2).filter (Constraint.joins a b)).length = 1) := by
  obtain ⟨hne, hmax, hlen, hrange, hadj, hnb⟩ := hwf
  have hn : 1 ≤ vertices.length := List.length_pos.mpr hne
  obtain ⟨hashSize, hhs⟩ : ∃ hashSize, hashTableSize vertices.length = some hashSize :=
    ⟨_, if_neg (by omega : ¬ vertices.length = 0)⟩
  obtain ⟨pts, hpts, hptslen, -⟩ := initPoints_spec vertices hne
  obtain ⟨es, hes, hnd, hnorm, hedge, hmem⟩ :=
    getEdges_spec (Mesh.load vertices indices adjacency) (by simp only [Mesh.load]; omega)
      (by simp only [Mesh.load]; omega)
  simp only [Mesh.load] at hedge hmem
  have hin : ∀ e ∈ es, e.p.1 < vertices.length ∧ e.p.2 < vertices.length :=
    fun e he => ⟨hrange _ (hmem e he).1, hrange _ (hmem e he).2⟩
  have hfold := edgeFold_spec fm vertices es 0 [] hin
  obtain ⟨⟨conn, cs2⟩, hbend⟩ := bendFold_total fm vertices adjacency
    (([] : List EdgePair), [] ++ es.map (edgeConstraint fm vertices)) hadj hnb
  have hinit := init_intro fm (Mesh.load vertices indices adjacency) hashSize pts es _ _
    conn cs2 hhs hpts hes hfold hmax hbend
  refine ⟨_, hinit, hptslen, ?_, ?_, ?_⟩
  · simp only [length_resizeLists]
    exact hhs
  · simp only [length_resizeLists, Mesh.load]
  · intro a b hab
    have hd := bendFold_distance fm vertices adjacency _ _ _ hbend
    simp only [distanceConstraints]
    simp only at hd
    rw [hd]
    have hall : (([] : List Constraint) ++ es.map (edgeConstraint fm vertices)).filter
        Constraint.isDistance = es.map (edgeConstraint fm vertices) := by
      simp only [List.nil_append, List.filter_eq_self, List.mem_map]
      rintro c ⟨e, -, rfl⟩
      rfl
    rw [hall, count_joins fm vertices es hnd hnorm a b, if_pos ((hedge a b).mpr hab)]

/-- Witness of the amended C5: the triangle with a dangling fourth index. -/
theorem init_completes_witness :
    WellFormed sampleVertices [0, 1, 2, 0] sampleAdjacency ∧
    ∃ s2, init exactMath (Mesh.load sampleVertices [0, 1, 2, 0] sampleAdjacency) = some s2 ∧
      s2.m_points.length = sampleVertices.length ∧
      hashTableSize sampleVertices.length = some s2.m_hashTable.length ∧
      s2.m_triangleVertHash.length = [0, 1, 2, 0].length / 3 ∧
      (∀ a b, isTriangleEdge [0, 1, 2, 0] a b →
        ((distanceConstraints s2).filter (Constraint.joins a b)).length = 1) :=
  ⟨by decide, init_completes exactMath sampleVertices [0, 1, 2, 0] sampleAdjacency (by decide)⟩

/-- Witness of C6: the three points of the sample triangle. -/
theorem init_points_witness :
    sampleVertices ≠ [] ∧
    ∃ pts, initPoints [] sampleVertices = some pts ∧
      pts.length = sampleVertices.length ∧
      (∀ i (h : i < sampleVertices.length), ∃ pt, pts[i]? = some pt ∧
        pt.m_pos = sampleVertices[i] ∧
        pt.m_invMass = if i = 0 ∨ i = sampleVertices.length - 1 then 0 else 1) ∧
      (∀ s2, init exactMath (Mesh.load sampleVertices [0, 1, 2] sampleAdjacency) = some s2 →
        s2.m_points = pts) :=
  ⟨by decide, init_points exactMath sampleVertices [0, 1, 2] sampleAdjacency (by decide)⟩

/-- C7: for an index list that is a non-empty sequence of whole triangles with in-range
indices, the edge phase of `init` completes and creates exactly one distance constraint
for every unordered pair `{a, b}` that is a side of some triangle and none for any other
pair; each rest length is `glm::fastDistance` of the two rest vertices, which is their
Euclidean distance wherever `fastSqrt` is exact; the average edge length is the mean of
these rest lengths; and every completed `init` carries exactly these distance
constraints and this average. -/
theorem init_distance_constraints (fm : FastMath) (vertices : List Vec3)
    (indices : List Nat) (adjacency : List (List Nat)) (hne : indices ≠ [])
    (hwhole : indices.length % 3 = 0) (hrange : ∀ idx ∈ indices, idx < vertices.length) :
    ∃ edgeSet total cs,
      getEdges (Mesh.load vertices indices adjacency) = some edgeSet ∧
      edgeSet.foldlM (edgeStep fm vertices) ((0 : ℚ), []) = some (total, cs) ∧
      (∀ a b, isTriangleEdge indices a b →
        (cs.filter (Constraint.joins a b)).length = 1) ∧
      (∀ a b, ¬ isTriangleEdge indices a b →
        (cs.filter (Constraint.joins a b)).length = 0) ∧
      (∀ c ∈ cs, ∃ p1 p2 v1 v2, vertices[p1]? = some v1 ∧ vertices[p2]? = some v2 ∧
        c = Constraint.distance p1 p2 (fm.fastDistance v1 v2) ∧
        (IsSqrt (fm.fastSqrt (Vec3.length2 (Vec3.sub v1 v2))) (Vec3.length2 (Vec3.sub v1 v2)) →
          IsSqrt c.rest (Vec3.length2 (Vec3.sub v1 v2)))) ∧
      cs.length = edgeSet.length ∧
      total / (edgeSet.length : ℚ) = (cs.map Constraint.rest).sum / (cs.length : ℚ) ∧
      (∀ s2, init fm (Mesh.load vertices indices adjacency) = some s2 →
        distanceConstraints s2 = cs ∧
        s2.m_avgEdgeLength = (cs.map Constraint.rest).sum / (cs.length : ℚ)) := by
  have hlen : 3 ≤ indices.length := by
    have : 0 < indices.length := List.length_pos.mpr hne
    omega
  have hn : 1 ≤ vertices.length := by
    cases indices with
    | nil => exact absurd rfl hne
    | cons i rest =>
      have := hrange i (List.mem_cons_self _ _)
      omega
  obtain ⟨es, hes, hnd, hnorm, hedge, hmem⟩ :=
    getEdges_spec (Mesh.load vertices indices adjacency) (by simp only [Mesh.load]; omega)
      (by simp only [Mesh.load]; omega)
  simp only [Mesh.load] at hedge hmem
  have hin : ∀ e ∈ es, e.p.1 < vertices.length ∧ e.p.2 < vertices.length :=
    fun e he => ⟨hrange _ (hmem e he).1, hrange _ (hmem e he).2⟩
  have hfold := edgeFold_spec fm vertices es 0 [] hin
  have hrest : (es.map (edgeConstraint fm vertices)).map Constraint.rest =
      es.map (edgeLength fm vertices) := by
    simp only [List.map_map]
    rfl
  have hall : (es.map (edgeConstraint fm vertices)).filter Constraint.isDistance =
      es.map (edgeConstraint fm vertices) := by
    simp only [List.filter_eq_self, List.mem_map]
    rintro c ⟨e, -, rfl⟩
    rfl
  refine ⟨es, _, _, hes, hfold, ?_, ?_, ?_, ?_, ?_, ?_⟩
  · intro a b hab
    simp only [List.nil_append]
    rw [count_joins fm vertices es hnd hnorm a b, if_pos ((hedge a b).mpr hab)]
  · intro a b hab
    simp only [List.nil_append]
    rw [count_joins fm vertices es hnd hnorm a b, if_neg (fun h => hab ((hedge a b).mp h))]
  · intro c hc
    simp only [List.nil_append, List.mem_map] at hc
    obtain ⟨e, he, rfl⟩ := hc
    obtain ⟨h1, h2⟩ := hin e he
    refine ⟨e.p.1, e.p.2, vertices[e.p.1], vertices[e.p.2], List.getElem?_eq_getElem h1,
      List.getElem?_eq_getElem h2, ?_, ?_⟩
    · simp only [edgeConstraint, edgeLength, List.getElem?_eq_getElem h1,
        List.getElem?_eq_getElem h2]
    · intro hs
      simp only [edgeConstraint, edgeLength, List.getElem?_eq_getElem h1,
        List.getElem?_eq_getElem h2, Constraint.rest, FastMath.fastDistance,
        FastMath.fastLength]
      rw [length2_sub_comm] at hs ⊢
      exact hs
  · simp
  · simp only [List.nil_append, hrest, zero_add, List.length_map]
  · intro s2 hs2
    obtain ⟨hashSize, points, edgeSet, total, cs, conn, cs2, -, -, h3, h4, -, h6, rfl⟩ :=
      init_inv fm _ s2 hs2
    rw [hes] at h3
    cases h3
    simp only [Mesh.load] at h4 h6
    rw [hfold] at h4
    cases h4
    have hd := bendFold_distance fm vertices adjacency _ _ _ h6
    simp only at hd
    simp only [distanceConstraints, hd, List.nil_append, hall, hrest, zero_add,
      List.length_map, and_self]

/-- Witness of C7: the sample triangle. -/
theorem init_distance_constraints_witness :
    ([0, 1, 2] ≠ []) ∧ ([0, 1, 2].length % 3 = 0) ∧
    (∀ idx ∈ [0, 1, 2], idx < sampleVertices.length) ∧
    ∃ edgeSet total cs,
      getEdges (Mesh.load sampleVertices [0, 1, 2] sampleAdjacency) = some edgeSet ∧
      edgeSet.foldlM (edgeStep exactMath sampleVertices) ((0 : ℚ), []) = some (total, cs) ∧
      (∀ a b, isTriangleEdge [0, 1, 2] a b →
        (cs.filter (Constraint.joins a b)).length = 1) ∧
      (∀ a b, ¬ isTriangleEdge [0, 1, 2] a b →
        (cs.filter (Constraint.joins a b)).length = 0) ∧
      (∀ c ∈ cs, ∃ p1 p2 v1 v2, sampleVertices[p1]? = some v1 ∧
        sampleVertices[p2]? = some v2 ∧
        c = Constraint.distance p1 p2 (exactMath.fastDistance v1 v2) ∧
        (IsSqrt (exactMath.fastSqrt (Vec3.length2 (Vec3.sub v1 v2)))
            (Vec3.length2 (Vec3.sub v1 v2)) →
          IsSqrt c.rest (Vec3.length2 (Vec3.sub v1 v2)))) ∧
      cs.length = edgeSet.length ∧
      total / (edgeSet.length : ℚ) = (cs.map Constraint.rest).sum / (cs.length : ℚ) ∧
      (∀ s2, init exactMath (Mesh.load sampleVertices [0, 1, 2] sampleAdjacency) = some s2 →
        distanceConstraints s2 = cs ∧
        s2.m_avgEdgeLength = (cs.map Constraint.rest).sum / (cs.length : ℚ)) :=
  ⟨by decide, by decide, by decide,
    init_distance_constraints exactMath sampleVertices [0, 1, 2] sampleAdjacency (by decide)
      (by decide) (by decide)⟩

/-! ## Wingtip selection -/

/-- C8 on the code: at the right-angled corner `V = 0` of the sample triangle, with
neighbours `VI = 1` and `VJ = 2`, the only other neighbour `VJ` has cosine `0`; the
running minimum starts at `0.0f` and the test is strict, so the selected wingtip is `VI`
itself, not `VJ`, and `init` pushes the bending constraint `(1, 1, 0)`. -/
theorem selectWingtip_right_angle (fm : FastMath) :
    sampleAdjacency[0]? = some [1, 2] ∧
    selectWingtip fm sampleVertices 0 1 [1, 2] = some (0, 1) ∧
    ∃ r, bendStep fm sampleVertices 0 [1, 2] ([], []) 1 =
      some ([EdgePair.make 1 1], [Constraint.bending 1 1 0 r]) := by
  have h : selectWingtip fm sampleVertices 0 1 [1, 2] = some (0, 1) := by
    simp [selectWingtip, wingtipStep, sampleVertices, Vec3.dot, Vec3.sub]
  refine ⟨rfl, h, ?_⟩
  simp only [bendStep, h]
  simp [sampleVertices, setInsert]

/-! ## Pinned points -/

/-- The discrete pass on the two-triangle sample, vertex by vertex. -/
theorem sample_spheres :
    resolveSelfCollision_spheres exactMath sampleGrid = some sampleAfter := by
  have h0 : sphereStep exactMath sampleGrid sampleGrid.m_points 0 =
      some [restingPoint (-19 / 10) 0 0, restingPoint 3 0 1, restingPoint 0 4 1,
        restingPoint 1 0 1, restingPoint 4 0 1, restingPoint 1 4 0] := by decide!
  have h1 : sphereStep exactMath sampleGrid
      [restingPoint (-19 / 10) 0 0, restingPoint 3 0 1, restingPoint 0 4 1,
        restingPoint 1 0 1, restingPoint 4 0 1, restingPoint 1 4 0] 1 =
      some [restingPoint (-19 / 10) 0 0, restingPoint (22 / 5) 0 1, restingPoint 0 4 1,
        restingPoint 1 0 1, restingPoint 4 0 1, restingPoint 1 4 0] := by decide!
  have h2 : sphereStep exactMath sampleGrid
      [restingPoint (-19 / 10) 0 0, restingPoint (22 / 5) 0 1, restingPoint 0 4 1,
        restingPoint 1 0 1, restingPoint 4 0 1, restingPoint 1 4 0] 2 =
      some [restingPoint (-19 / 10) 0 0, restingPoint (22 / 5) 0 1,
        restingPoint (-19 / 10) 4 1, restingPoint 1 0 1, restingPoint 4 0 1,
        restingPoint 1 4 0] := by decide!
  have h3 : sphereStep exactMath sampleGrid
      [restingPoint (-19 / 10) 0 0, restingPoint (22 / 5) 0 1,
        restingPoint (-19 / 10) 4 1, restingPoint 1 0 1, restingPoint 4 0 1,
        restingPoint 1 4 0] 3 =
      some [restingPoint (-19 / 10) 0 0, restingPoint (22 / 5) 0 1,
        restingPoint (-19 / 10) 4 1, restingPoint (9 / 8) 0 1, restingPoint 4 0 1,
        restingPoint 1 4 0] := by decide!
  have h4 : sphereStep exactMath sampleGrid
      [restingPoint (-19 / 10) 0 0, restingPoint (22 / 5) 0 1,
        restingPoint (-19 / 10) 4 1, restingPoint (9 / 8) 0 1, restingPoint 4 0 1,
        restingPoint 1 4 0] 4 =
      some [restingPoint (-19 / 10) 0 0, restingPoint (22 / 5) 0 1,
        restingPoint (-19 / 10) 4 1, restingPoint (9 / 8) 0 1, restingPoint 4 0 1,
        restingPoint 1 4 0] := by decide!
  have h5 : sphereStep exactMath sampleGrid
      [restingPoint (-19 / 10) 0 0, restingPoint (22 / 5) 0 1,
        restingPoint (-19 / 10) 4 1, restingPoint (9 / 8) 0 1, restingPoint 4 0 1,
        restingPoint 1 4 0] 5 =
      some [restingPoint (-19 / 10) 0 0, restingPoint (22 / 5) 0 1,
        restingPoint (-19 / 10) 4 1, restingPoint (9 / 8) 0 1, restingPoint 4 0 1,
        restingPoint (39 / 20) 4 0] := by decide!
  have hlen : sampleGrid.m_points.length = 6 := by decide!
  have hrange : List.range 6 = [0, 1, 2, 3, 4, 5] := by decide
  have hmax : ¬ maxUShort < 6 := by decide
  simp only [resolveSelfCollision_spheres, hlen, hmax, if_false, hrange, List.foldlM_cons,
    List.foldlM_nil, h0, h1, h2, h3, h4, h5, Option.bind_eq_bind, Option.some_bind, pure]
  rfl

/-- C4 on the code: on the two-triangle sample, initialised, point `0` is pinned
(inverse mass `0`) and sits at the origin; one `update` with time step `0` and a
projection that moves nothing leaves its inverse mass `0` but puts it at
`(-19/10, 0, 0)`: the discrete pass pushed it away from vertex `3`, which shares its
bucket, is not its neighbour and is one unit away. -/
theorem update_moves_pinned_point :
    init exactMath sampleTwoTriangles = some sampleInit ∧
    invMassOf sampleInit 0 = some 0 ∧
    positionOf sampleInit 0 = some ⟨0, 0, 0⟩ ∧
    updateMany projectNothing exactMath [0] sampleInit = some sampleAfter ∧
    invMassOf sampleAfter 0 = some 0 ∧
    positionOf sampleAfter 0 = some ⟨-19 / 10, 0, 0⟩ := by
  have hinit : init exactMath sampleTwoTriangles = some sampleInit := by decide!
  have hint : ({ sampleInit with m_points :=
      (relax projectNothing sampleInit.m_constraints sampleInit.m_points).map (integrate 0) }
        : Mesh) = sampleInit := by decide!
  have hverts : hashVerts sampleInit =
      some { sampleInit with m_hashTable := [[0, 1, 3], [], [], [2, 4, 5], []] } := by
    decide!
  have htris : hashTris { sampleInit with m_hashTable := [[0, 1, 3], [], [], [2, 4, 5], []] }
      = some sampleGrid := by decide!
  have hrays : resolveSelfCollision_rays exactMath sampleGrid = some sampleGrid := by decide!
  refine ⟨hinit, by decide!, by decide!, ?_, by decide!, by decide!⟩
  simp only [updateMany, update, hint, hverts, htris, hrays, sample_spheres,
    Option.some_bind, Option.bind_eq_bind]

/-! ## The discrete pass -/

/-- The step of the discrete pass for vertex `k` keeps the number of points and changes no
point other than `k`. -/
theorem sphereStep_other (fm : FastMath) (s : Mesh) (pts pts2 : List Point) (k : Nat)
    (h : sphereStep fm s pts k = some pts2) :
    pts2.length = pts.length ∧ ∀ m, m ≠ k → pts2[m]? = pts[m]? := by
  unfold sphereStep at h
  split at h
  · split at h
    · cases h
    · split at h
      · cases h
        refine ⟨by simp, fun m hm => ?_⟩
        rw [List.getElem?_set_ne (fun hkm => hm hkm.symm)]
      · cases h
        exact ⟨rfl, fun _ _ => rfl⟩
  · cases h

/-- The candidates of a vertex depend on the point store only through that vertex. -/
theorem consideredOf_congr (s : Mesh) (pts pts2 : List Point) (i : Nat)
    (h : pts[i]? = pts2[i]?) : consideredOf s pts i = consideredOf s pts2 i := by
  unfold consideredOf
  rw [h]

/-- The step of the discrete pass for a vertex whose only candidate is inside the
collision radius. -/
theorem sphereStep_single (fm : FastMath) (s : Mesh) (pts : List Point) (i j : Nat)
    (P Q : Point) (hc : consideredOf s pts i = some [j]) (hP : pts[i]? = some P)
    (hQ : pts[j]? = some Q)
    (hin : Vec3.length2 (Vec3.sub P.m_pos Q.m_pos) <
      (s.m_avgEdgeLength * (6 / 5)) * (s.m_avgEdgeLength * (6 / 5))) :
    sphereStep fm s pts i = some (pts.set i (pushFrom fm s.m_avgEdgeLength P Q)) := by
  simp only [sphereStep, hP, hc, List.foldlM_cons, List.foldlM_nil, sphereAccum, hQ, hin,
    if_true, Option.bind_eq_bind, Option.some_bind, pure, pushFrom]
  simp

/-- With exact square roots, a point pushed away from its single candidate at distance `d`
ends at distance `(r + d)/2` from it. -/
theorem pushFrom_distance (fm : FastMath) (len : ℚ) (P Q : Point) (r d : ℚ)
    (hr : r = len * (6 / 5)) (hsr : fm.fastSqrt (r * r) = r) (hd : 0 < d)
    (hdd : Vec3.length2 (Vec3.sub P.m_pos Q.m_pos) = d * d) (hex : ExactAt fm d) :
    Vec3.length2 (Vec3.sub (pushFrom fm len P Q).m_pos Q.m_pos) =
      ((r + d) / 2) * ((r + d) / 2) := by
  have hd0 : d ≠ 0 := ne_of_gt hd
  have hdot : Vec3.dot (Vec3.sub P.m_pos Q.m_pos) (Vec3.sub P.m_pos Q.m_pos) = d * d := hdd
  simp only [pushFrom, FastMath.fastNormalize, Vec3.length2, hdot, ← hr, hsr, hex.1, hex.2]
  simp only [Vec3.dot, Vec3.sub] at hdot
  simp only [Vec3.dot, Vec3.sub, Vec3.add, Vec3.scale, Vec3.divs, Vec3.zero, Nat.cast_one]
  field_simp
  linear_combination 4 * (d + r) ^ 2 * hdot

/-- The accumulation step completes for a candidate inside the point store. -/
theorem sphereAccum_total (fm : FastMath) (len : ℚ) (pts : List Point) (P : Point)
    (st : Vec3 × Nat) (pid : Nat) (hp : pid < pts.length) :
    ∃ acc, sphereAccum fm len pts P st pid = some acc := by
  unfold sphereAccum
  rw [List.getElem?_eq_getElem hp]
  simp only
  split
  · exact ⟨_, rfl⟩
  · exact ⟨_, rfl⟩

/-- On a state that keeps the pass inside its vectors, the step for any vertex completes.
-/
theorem sphereStep_total (fm : FastMath) (s : Mesh) (pts : List Point) (k : Nat)
    (hok : GridOk s) (hlen : pts.length = s.m_points.length) (hk : k < s.m_points.length) :
    ∃ pts2, sphereStep fm s pts k = some pts2 := by
  obtain ⟨-, hadj, havg, htab, hentries⟩ := hok
  have hk1 : k < pts.length := by omega
  have hk2 : k < s.m_adjacency.length := by omega
  obtain ⟨h, hh, hlt⟩ := hashPoint_total s.m_avgEdgeLength s.m_hashTable.length pts[k].m_pos
    havg htab
  have hmem : ∀ pid ∈ ((s.m_hashTable[h]).insertionSort (fun a b => a ≤ b)).filter
      (fun x => !decide (x ∈ (s.m_adjacency[k] ++ [k]).insertionSort (fun a b => a ≤ b))),
      pid < pts.length := by
    intro pid hpid
    have h1 := (List.mem_filter.mp hpid).1
    rw [(List.perm_insertionSort _ _).mem_iff] at h1
    rw [hlen]
    exact hentries _ (List.getElem_mem hlt) pid h1
  obtain ⟨acc, hacc, -⟩ := foldlM_total (sphereAccum fm s.m_avgEdgeLength pts pts[k])
    (fun _ => True) _
    (fun b pid hpid _ => by
      obtain ⟨acc, hacc⟩ := sphereAccum_total fm s.m_avgEdgeLength pts pts[k] b pid
        (hmem pid hpid)
      exact ⟨acc, hacc, trivial⟩) (Vec3.zero, 0) trivial
  simp only [sphereStep, consideredOf, List.getElem?_eq_getElem hk1,
    List.getElem?_eq_getElem hk2, hh, List.getElem?_eq_getElem hlt, hacc]
  split
  · exact ⟨_, rfl⟩
  · exact ⟨_, rfl⟩

/-- On a state that keeps the pass inside its vectors, every prefix of the pass completes
and keeps the number of points. -/
theorem spheres_fold_total (fm : FastMath) (s : Mesh) (hok : GridOk s) :
    ∀ m, m ≤ s.m_points.length →
      ∃ pts, (List.range m).foldlM (sphereStep fm s) s.m_points = some pts ∧
        pts.length = s.m_points.length := by
  intro m
  induction m with
  | zero => exact fun _ => ⟨s.m_points, rfl, rfl⟩
  | succ m ih =>
    intro hm
    obtain ⟨pts, hpts, hlen⟩ := ih (by omega)
    obtain ⟨pts2, h2⟩ := sphereStep_total fm s pts m hok hlen (by omega)
    refine ⟨pts2, ?_, ?_⟩
    · rw [List.range_succ, List.foldlM_append, hpts]
      simp only [Option.bind_eq_bind, Option.some_bind, List.foldlM_cons, List.foldlM_nil, h2,
        pure]
    · rw [(sphereStep_other fm s pts pts2 m h2).1, hlen]

/-- For two vertices `i < j` that are each other's only candidate and stay inside the
collision radius: after the first `m` vertices of the pass, `i` has been pushed from `j`
if `i < m`, and `j` from the pushed `i` if `j < m`. -/
theorem spheres_fold_pair (fm : FastMath) (s : Mesh) (i j : Nat) (P Q : Point) (hij : i < j)
    (hci : consideredOf s s.m_points i = some [j])
    (hcj : consideredOf s s.m_points j = some [i])
    (hP : s.m_points[i]? = some P) (hQ : s.m_points[j]? = some Q)
    (hin1 : Vec3.length2 (Vec3.sub P.m_pos Q.m_pos) <
      (s.m_avgEdgeLength * (6 / 5)) * (s.m_avgEdgeLength * (6 / 5)))
    (hin2 : Vec3.length2 (Vec3.sub Q.m_pos (pushFrom fm s.m_avgEdgeLength P Q).m_pos) <
      (s.m_avgEdgeLength * (6 / 5)) * (s.m_avgEdgeLength * (6 / 5))) :
    ∀ m pts, (List.range m).foldlM (sphereStep fm s) s.m_points = some pts →
      pts[i]? = some (if i < m then pushFrom fm s.m_avgEdgeLength P Q else P) ∧
      pts[j]? = some (if j < m then
        pushFrom fm s.m_avgEdgeLength Q (pushFrom fm s.m_avgEdgeLength P Q) else Q) := by
  intro m
  induction m with
  | zero =>
    intro pts h
    simp only [List.range_zero, List.foldlM_nil] at h
    cases h
    simp [hP, hQ]
  | succ m ih =>
    intro pts2 h
    rw [List.range_succ, List.foldlM_append] at h
    cases hfold : (List.range m).foldlM (sphereStep fm s) s.m_points with
    | none => rw [hfold] at h; cases h
    | some pts =>
      rw [hfold] at h
      simp only [Option.bind_eq_bind, Option.some_bind, List.foldlM_cons, List.foldlM_nil] at h
      have hstep : sphereStep fm s pts m = some pts2 := by
        cases hs : sphereStep fm s pts m with
        | none => rw [hs] at h; cases h
        | some q => rw [hs] at h; simpa using h
      obtain ⟨ihP, ihQ⟩ := ih pts hfold
      by_cases hmi : m = i
      · subst hmi
        rw [if_neg (Nat.lt_irrefl _)] at ihP
        rw [if_neg (by omega)] at ihQ
        have hc : consideredOf s pts m = some [j] := by
          rw [consideredOf_congr s pts s.m_points m (ihP.trans hP.symm)]; exact hci
        rw [sphereStep_single fm s pts m j P Q hc ihP ihQ hin1] at hstep
        cases hstep
        have hlt : m < pts.length := (List.getElem?_eq_some_iff.mp ihP).1
        refine ⟨?_, ?_⟩
        · rw [if_pos (by omega)]
          simp [List.getElem?_set_self, hlt]
        · rw [if_neg (by omega), List.getElem?_set_ne (by omega)]
          exact ihQ
      · by_cases hmj : m = j
        · subst hmj
          rw [if_pos hij] at ihP
          rw [if_neg (Nat.lt_irrefl _)] at ihQ
          have hc : consideredOf s pts m = some [i] := by
            rw [consideredOf_congr s pts s.m_points m (ihQ.trans hQ.symm)]; exact hcj
          rw [sphereStep_single fm s pts m i Q _ hc ihQ ihP hin2] at hstep
          cases hstep
          have hlt : m < pts.length := (List.getElem?_eq_some_iff.mp ihQ).1
          refine ⟨?_, ?_⟩
          · rw [if_pos (by omega), List.getElem?_set_ne (by omega)]
            exact ihP
          · rw [if_pos (by omega)]
            simp [List.getElem?_set_self, hlt]
        · obtain ⟨-, hother⟩ := sphereStep_other fm s pts pts2 m hstep
          rw [hother i (fun h => hmi h.symm), hother j (fun h => hmj h.symm), ihP, ihQ]
          have e1 : (i < m + 1) ↔ (i < m) := by omega
          have e2 : (j < m + 1) ↔ (j < m) := by omega
          simp only [e1, e2, and_self]

/-- C19: for every vertex count `n ≥ 1` the table size computed by `init` is the smallest
multiple of `10^floor(log10 n)` that is at least `n`, minus one; for `n ≥ 2` it is at
least `1`, so `hashCell` is defined for every cell (its modulo does not divide by zero);
and it is `0` exactly when `n = 1`. -/
theorem hashTableSize_smallest_multiple (n : Nat) (hn : 1 ≤ n) :
    ∃ size, hashTableSize n = some size ∧
      (10 ^ Nat.log 10 n ∣ size + 1 ∧ n ≤ size + 1 ∧
        ∀ M, 10 ^ Nat.log 10 n ∣ M → n ≤ M → size + 1 ≤ M) ∧
      (2 ≤ n → 1 ≤ size ∧ ∀ c : IVec3, ∃ h, hashCell size c = some h ∧ h < size) ∧
      (size = 0 ↔ n = 1) := by
  have hn0 : n ≠ 0 := by omega
  have hpos : 0 < 10 ^ Nat.log 10 n := Nat.pos_pow_of_pos _ (by decide)
  have hle : 10 ^ Nat.log 10 n ≤ n := Nat.pow_log_le_self 10 hn0
  have hsize : hashTableSize n = some ((n + 10 ^ Nat.log 10 n - 1) / 10 ^ Nat.log 10 n *
      10 ^ Nat.log 10 n - 1) := if_neg hn0
  have hone : n = 1 → 10 ^ Nat.log 10 n = 1 := by
    intro h; subst h; simp
  generalize 10 ^ Nat.log 10 n = mult at hpos hle hsize hone ⊢
  obtain ⟨hk, hge, -⟩ := roundUp_minus_one n mult hpos hle
  have h2 : (n + mult - 1) / mult * mult ≤ n + mult - 1 := Nat.div_mul_le_self _ _
  have hkm : 1 ≤ (n + mult - 1) / mult * mult := Nat.mul_pos hk hpos
  refine ⟨_, hsize, ⟨?_, by omega, ?_⟩, ?_, ?_⟩
  · rw [Nat.sub_add_cancel hkm]
    exact Dvd.intro_left _ rfl
  · rintro M ⟨q, rfl⟩ hM
    rw [Nat.sub_add_cancel hkm]
    by_contra hlt
    have hq : q < (n + mult - 1) / mult := by
      by_contra hnq
      have := Nat.mul_le_mul_right mult (Nat.le_of_not_lt hnq)
      rw [Nat.mul_comm mult q] at hlt
      omega
    have h3 : (q + 1) * mult ≤ (n + mult - 1) / mult * mult :=
      Nat.mul_le_mul_right mult hq
    rw [Nat.add_mul, Nat.mul_comm q mult] at h3
    omega
  · intro h2n
    have hs : 1 ≤ (n + mult - 1) / mult * mult - 1 := by omega
    exact ⟨hs, fun c => posMod_lt _ _ hs⟩
  · constructor
    · intro h0; omega
    · intro h1
      have hm := hone h1
      subst h1
      rw [hm]

/-- Witness of C19 at twenty vertices (nineteen buckets). -/
theorem hashTableSize_smallest_multiple_witness :
    (1 ≤ 20) ∧
    ∃ size, hashTableSize 20 = some size ∧
      (10 ^ Nat.log 10 20 ∣ size + 1 ∧ 20 ≤ size + 1 ∧
        ∀ M, 10 ^ Nat.log 10 20 ∣ M → 20 ≤ M → size + 1 ≤ M) ∧
      (2 ≤ 20 → 1 ≤ size ∧ ∀ c : IVec3, ∃ h, hashCell size c = some h ∧ h < size) ∧
      (size = 0 ↔ 20 = 1) :=
  ⟨by decide, hashTableSize_smallest_multiple 20 (by decide)⟩

/-! ## The camera state switch -/

/-- C20: the branchless arithmetic of `handleMouseClick` equals the transition table:
the new state is rotating on a press with exactly the left button, zooming on a press
with exactly the right button, passive on a release and the state of value `0` on every
other event; it depends on the event only, not on the camera it is applied to. -/
theorem handleMouseClick_table
    (setMousePos : TrackballCamera.Camera → Int → Int → TrackballCamera.Camera)
    (cs : TrackballCamera.CamStates) (ev : TrackballCamera.MouseEvent) :
    (∀ cam, (TrackballCamera.handleMouseClick setMousePos cs cam ev).m_currentState =
      TrackballCamera.transitionTable cs ev) ∧
    (∀ cam1 cam2, (TrackballCamera.handleMouseClick setMousePos cs cam1 ev).m_currentState =
      (TrackballCamera.handleMouseClick setMousePos cs cam2 ev).m_currentState) := by
  have h : ∀ cam, (TrackballCamera.handleMouseClick setMousePos cs cam ev).m_currentState =
      TrackballCamera.transitionTable cs ev := by
    intro cam
    simp only [TrackballCamera.handleMouseClick, TrackballCamera.clickInput,
      TrackballCamera.transitionTable, TrackballCamera.boolToInt,
      TrackballCamera.MouseButtonPress, TrackballCamera.MouseButtonRelease,
      TrackballCamera.LeftButton, TrackballCamera.RightButton]
    by_cases h1 : ev.type = 2
    · by_cases h2 : ev.buttons = 1
      · simp [h1, h2]
      · by_cases h3 : ev.buttons = 2
        · simp [h1, h3]
        · simp [h1, h2, h3]
    · by_cases h4 : ev.type = 3
      · simp [h4]
      · simp [h1, h4]
  exact ⟨h, fun cam1 cam2 => (h cam1).trans (h cam2).symm⟩

/-! ## The continuous pass -/

/-- C11: a candidate whose plane-distance denominator `DistEnd - DistStart` is zero never
passes the test of `resolveSelfCollision_rays` (whatever the intersection expression
evaluates to), in particular a vertex that did not move; the loop body then leaves the
point store exactly as it was. -/
theorem rays_parallel_skipped (T0 T1 edge1 edge2 edge3 norm L0 L1 : Vec3) :
    (Vec3.dot (Vec3.sub L1 T0) norm - Vec3.dot (Vec3.sub L0 T0) norm = 0 →
      rayHits T0 T1 edge1 edge2 edge3 norm L0 L1 = false) ∧
    (L0 = L1 → rayHits T0 T1 edge1 edge2 edge3 norm L0 L1 = false) ∧
    (∀ (i1 i2 i3 pid : Nat) (points : List Point) (point P0 P1 : Point),
      points[pid]? = some point → points[i1]? = some P0 → points[i2]? = some P1 →
      Vec3.dot (Vec3.sub point.m_pos P0.m_pos) norm -
        Vec3.dot (Vec3.sub point.m_prevPos P0.m_pos) norm = 0 →
      rayStep i1 i2 i3 edge1 edge2 edge3 norm points pid = some points) := by
  have key : ∀ (A B M0 M1 : Vec3),
      Vec3.dot (Vec3.sub M1 A) norm - Vec3.dot (Vec3.sub M0 A) norm = 0 →
      rayHits A B edge1 edge2 edge3 norm M0 M1 = false := by
    intro A B M0 M1 h
    have heq : Vec3.dot (Vec3.sub M1 A) norm = Vec3.dot (Vec3.sub M0 A) norm := by linarith
    have hnot : ¬ Vec3.dot (Vec3.sub M0 A) norm * Vec3.dot (Vec3.sub M1 A) norm < 0 := by
      rw [heq]
      exact not_lt.mpr (mul_self_nonneg _)
    simp only [rayHits, hnot, decide_False, Bool.false_and]
  refine ⟨key T0 T1 L0 L1, ?_, ?_⟩
  · intro h
    exact key T0 T1 L0 L1 (by rw [h]; ring)
  · intro i1 i2 i3 pid points point P0 P1 hp h0 h1 hden
    unfold rayStep
    split
    · rfl
    · simp only [hp, h0, h1, key P0.m_pos P1.m_pos point.m_prevPos point.m_pos hden]
      rfl

/-- The test of the continuous pass fails for a vertex that did not move and for one that
moved parallel to the plane. -/
theorem rays_parallel_skipped_witness :
    rayHits ⟨0, 0, 0⟩ ⟨1, 0, 0⟩ ⟨1, 0, 0⟩ ⟨0, 1, 0⟩ ⟨-1, 1, 0⟩ ⟨0, 0, 1⟩
        ⟨1 / 4, 1 / 4, 1⟩ ⟨1 / 4, 1 / 4, 1⟩ = false ∧
      rayHits ⟨0, 0, 0⟩ ⟨1, 0, 0⟩ ⟨1, 0, 0⟩ ⟨0, 1, 0⟩ ⟨-1, 1, 0⟩ ⟨0, 0, 1⟩
        ⟨1 / 4, 1 / 4, 1⟩ ⟨3 / 4, 1 / 8, 1⟩ = false :=
  ⟨(rays_parallel_skipped ⟨0, 0, 0⟩ ⟨1, 0, 0⟩ ⟨1, 0, 0⟩ ⟨0, 1, 0⟩ ⟨-1, 1, 0⟩ ⟨0, 0, 1⟩
      ⟨1 / 4, 1 / 4, 1⟩ ⟨1 / 4, 1 / 4, 1⟩).2.1 rfl,
    (rays_parallel_skipped ⟨0, 0, 0⟩ ⟨1, 0, 0⟩ ⟨1, 0, 0⟩ ⟨0, 1, 0⟩ ⟨-1, 1, 0⟩ ⟨0, 0, 1⟩
      ⟨1 / 4, 1 / 4, 1⟩ ⟨3 / 4, 1 / 8, 1⟩).1 (by decide!)⟩

/-! ## The continuous pass only swaps -/

/-- Every point store is related to itself. -/
theorem swapRel_refl (a : List Point) : SwapRel a a :=
  ⟨rfl, fun _ => Or.inl rfl⟩

/-- Exchanging position and previous position twice gives the point back. -/
theorem swapped_swapped (p : Point) : swapped (swapped p) = p := rfl

/-- One `std::swap` keeps the point store within the relation `SwapRel`. -/
theorem swapPoint_rel (a pts pts2 : List Point) (k : Nat)
    (h : swapPoint pts k = some pts2)
    (hrel : SwapRel a pts) : SwapRel a pts2 := by
  unfold swapPoint at h
  split at h
  · cases h
  · rename_i pt hpt
    cases h
    refine ⟨by rw [List.length_set]; exact hrel.1, fun m => ?_⟩
    by_cases hm : k = m
    · subst hm
      have hlt : k < pts.length := (List.getElem?_eq_some_iff.mp hpt).1
      have hset : (pts.set k { pt with m_pos := pt.m_prevPos, m_prevPos := pt.m_pos })[k]? =
          some (swapped pt) := by
        rw [List.getElem?_set_self hlt]; rfl
      rw [hset]
      rcases hrel.2 k with h1 | h1
      · right
        rw [← h1, hpt]; rfl
      · left
        rw [hpt] at h1
        cases ha : a[k]? with
        | none => rw [ha] at h1; cases h1
        | some q =>
          rw [ha] at h1
          simp only [Option.map_some', Option.some.injEq] at h1
          rw [h1, swapped_swapped]
    · rw [List.getElem?_set_ne hm]
      exact hrel.2 m

/-- The innermost loop body of the continuous pass keeps the point store within `SwapRel`.
-/
theorem rayStep_rel (a : List Point) (i1 i2 i3 : Nat) (edge1 edge2 edge3 norm : Vec3)
    (pts pts2 : List Point) (pid : Nat)
    (h : rayStep i1 i2 i3 edge1 edge2 edge3 norm pts pid = some pts2)
    (hrel : SwapRel a pts) : SwapRel a pts2 := by
  unfold rayStep at h
  split at h
  · cases h; exact hrel
  · split at h
    · split at h
      · cases h1 : swapPoint pts i1 with
        | none => rw [h1] at h; cases h
        | some q1 =>
          rw [h1] at h
          simp only [Option.some_bind] at h
          cases h2 : swapPoint q1 i2 with
          | none => rw [h2] at h; cases h
          | some q2 =>
            rw [h2] at h
            simp only [Option.some_bind] at h
            cases h3 : swapPoint q2 i3 with
            | none => rw [h3] at h; cases h
            | some q3 =>
              rw [h3] at h
              simp only [Option.some_bind] at h
              exact swapPoint_rel a q3 pts2 pid h
                (swapPoint_rel a q2 q3 i3 h3
                  (swapPoint_rel a q1 q2 i2 h2 (swapPoint_rel a pts q1 i1 h1 hrel)))
      · cases h; exact hrel
    · cases h

/-- The loop over one cell keeps the point store within `SwapRel`. -/
theorem rayCellStep_rel (a : List Point) (table : List (List Nat)) (i1 i2 i3 : Nat)
    (edge1 edge2 edge3 norm : Vec3) (pts pts2 : List Point) (hash : Nat)
    (h : rayCellStep table i1 i2 i3 edge1 edge2 edge3 norm pts hash = some pts2)
    (hrel : SwapRel a pts) : SwapRel a pts2 := by
  unfold rayCellStep at h
  split at h
  · cases h
  · rename_i bucket _
    exact foldlM_inv (rayStep i1 i2 i3 edge1 edge2 edge3 norm)
      (fun x => SwapRel a x)
      (fun b p b2 hb hP => rayStep_rel a i1 i2 i3 edge1 edge2 edge3 norm b b2 p hb hP)
      bucket pts pts2 h hrel

/-- The loop over one face keeps the point store within `SwapRel`. -/
theorem rayFaceStep_rel (a : List Point) (fm : FastMath) (s : Mesh) (pts pts2 : List Point)
    (i : Nat) (h : rayFaceStep fm s pts i = some pts2)
    (hrel : SwapRel a pts) : SwapRel a pts2 := by
  unfold rayFaceStep at h
  split at h
  · split at h
    · simp only at h
      split at h
      · cases h
      · rename_i hashes _
        exact foldlM_inv _
          (fun x => SwapRel a x)
          (fun b p b2 hb hP => rayCellStep_rel a _ _ _ _ _ _ _ _ b b2 p hb hP)
          hashes pts pts2 h hrel
    · cases h
  · cases h

/-- The loop over the faces keeps the point store within `SwapRel`. -/
theorem rays_rel (fm : FastMath) (s : Mesh) (l : List Nat) (pts2 : List Point)
    (h : l.foldlM (rayFaceStep fm s) s.m_points = some pts2) :
    SwapRel s.m_points pts2 :=
  foldlM_inv (rayFaceStep fm s) (fun x => SwapRel s.m_points x)
    (fun b p b2 hb hP => rayFaceStep_rel s.m_points fm s b b2 p hb hP)
    l s.m_points pts2 h (swapRel_refl s.m_points)

/-- An invariant kept by every step on a member of the list is kept by the fold. -/
theorem foldlM_inv_mem {α β : Type} (f : β → α → Option β) (P : β → Prop) :
    ∀ (l : List α), (∀ b a b2, a ∈ l → f b a = some b2 → P b → P b2) →
      ∀ (b b2 : β), l.foldlM f b = some b2 → P b → P b2 := by
  intro l
  induction l with
  | nil =>
    intro _ b b2 h hb
    simp only [List.foldlM_nil] at h
    cases h
    exact hb
  | cons a l ih =>
    intro hf b b2 h hb
    simp only [List.foldlM_cons] at h
    cases hfa : f b a with
    | none => rw [hfa] at h; cases h
    | some b1 =>
      rw [hfa] at h
      exact ih (fun b a b2 ha => hf b a b2 (List.mem_cons_of_mem _ ha)) b1 b2 h
        (hf b a b1 (List.mem_cons_self _ _) hfa hb)

/-- A candidate that is a vertex of the face is skipped. -/
theorem rayStep_own (i1 i2 i3 : Nat) (edge1 edge2 edge3 norm : Vec3) (pts : List Point)
    (pid : Nat) (h : pid = i1 ∨ pid = i2 ∨ pid = i3) :
    rayStep i1 i2 i3 edge1 edge2 edge3 norm pts pid = some pts := by
  unfold rayStep
  rw [if_pos h]

/-- A face whose cells hold its own three vertices only leaves the point store as it was.
-/
theorem rayFaceStep_own (fm : FastMath) (s : Mesh) (hown : OwnOnly s) (pts pts2 : List Point)
    (i : Nat) (h : rayFaceStep fm s pts i = some pts2) : pts2 = pts := by
  unfold rayFaceStep at h
  split at h
  · rename_i i1 i2 i3 hi1 hi2 hi3
    split at h
    · simp only at h
      split at h
      · cases h
      · rename_i hashes hhashes
        refine foldlM_inv_mem _ (fun x => x = pts) hashes ?_ pts pts2 h rfl
        intro b hash b2 hmem hstep hb
        subst hb
        unfold rayCellStep at hstep
        split at hstep
        · cases hstep
        · rename_i bucket hbucket
          refine foldlM_inv_mem _ (fun x => x = b) bucket ?_ b b2 hstep rfl
          intro c pid c2 hpid hray hc
          subst hc
          have hpidown : pid = i1 ∨ pid = i2 ∨ pid = i3 := by
            rcases hown i hashes hhashes hash hmem bucket hbucket pid hpid with h1 | h1 | h1
            · left; rw [hi1] at h1; cases h1; rfl
            · right; left; rw [hi2] at h1; cases h1; rfl
            · right; right; rw [hi3] at h1; cases h1; rfl
          rw [rayStep_own _ _ _ _ _ _ _ _ _ hpidown] at hray
          cases hray
          rfl
    · cases h
  · cases h

/-- The swap of a point inside the store is defined and keeps the length. -/
theorem swapPoint_total (pts : List Point) (k : Nat) (hk : k < pts.length) :
    ∃ pts2, swapPoint pts k = some pts2 ∧ pts2.length = pts.length := by
  unfold swapPoint
  rw [List.getElem?_eq_getElem hk]
  exact ⟨_, rfl, by simp⟩

/-- The innermost loop body is defined when the four indices are inside the store. -/
theorem rayStep_total (i1 i2 i3 : Nat) (edge1 edge2 edge3 norm : Vec3) (pts : List Point)
    (pid : Nat) (h1 : i1 < pts.length) (h2 : i2 < pts.length) (h3 : i3 < pts.length)
    (hp : pid < pts.length) :
    ∃ pts2, rayStep i1 i2 i3 edge1 edge2 edge3 norm pts pid = some pts2 ∧
      pts2.length = pts.length := by
  unfold rayStep
  split
  · exact ⟨pts, rfl, rfl⟩
  · simp only [List.getElem?_eq_getElem hp, List.getElem?_eq_getElem h1,
      List.getElem?_eq_getElem h2]
    split
    · obtain ⟨q1, e1, l1⟩ := swapPoint_total pts i1 h1
      obtain ⟨q2, e2, l2⟩ := swapPoint_total q1 i2 (by omega)
      obtain ⟨q3, e3, l3⟩ := swapPoint_total q2 i3 (by omega)
      obtain ⟨q4, e4, l4⟩ := swapPoint_total q3 pid (by omega)
      refine ⟨q4, ?_, by omega⟩
      simp only [e1, e2, e3, e4, Option.some_bind]
    · exact ⟨pts, rfl, rfl⟩

/-- The loop over one face is defined on a state whose indices, hashes and bucket entries
are in range. -/
theorem rayFaceStep_total (fm : FastMath) (s : Mesh) (hok : RaysOk s) (pts : List Point)
    (i : Nat) (hi : i < s.m_triangleVertHash.length) (hlen : pts.length = s.m_points.length) :
    ∃ pts2, rayFaceStep fm s pts i = some pts2 ∧ pts2.length = s.m_points.length := by
  obtain ⟨hidx, hrange, hhash, hbucket⟩ := hok
  have hi1 : i * 3 < s.m_indices.length := by omega
  have hi2 : i * 3 + 1 < s.m_indices.length := by omega
  have hi3 : i * 3 + 2 < s.m_indices.length := by omega
  have r1 : s.m_indices[i * 3] < pts.length := by
    rw [hlen]; exact hrange _ (List.getElem_mem hi1)
  have r2 : s.m_indices[i * 3 + 1] < pts.length := by
    rw [hlen]; exact hrange _ (List.getElem_mem hi2)
  have r3 : s.m_indices[i * 3 + 2] < pts.length := by
    rw [hlen]; exact hrange _ (List.getElem_mem hi3)
  unfold rayFaceStep
  simp only [List.getElem?_eq_getElem hi1, List.getElem?_eq_getElem hi2,
    List.getElem?_eq_getElem hi3, List.getElem?_eq_getElem r1, List.getElem?_eq_getElem r2,
    List.getElem?_eq_getElem r3, List.getElem?_eq_getElem hi]
  refine foldlM_total _ (fun x => x.length = s.m_points.length) _ ?_ pts hlen
  intro b hash hmem hb
  have hh : hash < s.m_hashTable.length := hhash _ (List.getElem_mem hi) hash hmem
  unfold rayCellStep
  simp only [List.getElem?_eq_getElem hh]
  refine foldlM_total _ (fun x => x.length = s.m_points.length) _ ?_ b hb
  intro c pid hpid hc
  have hp : pid < c.length := by
    rw [hc]; exact hbucket _ (List.getElem_mem hh) pid hpid
  obtain ⟨c2, e, l⟩ := rayStep_total s.m_indices[i * 3] s.m_indices[i * 3 + 1]
    s.m_indices[i * 3 + 2] _ _ _ _ c pid (by omega) (by omega) (by omega) hp
  exact ⟨c2, e, by omega⟩

/-- C16: the continuous pass can only exchange position and previous position of a
point: after it every point is either exactly as before or exactly swapped, its inverse
mass is the same, both hash tables and every other member are unchanged, and a mesh in
which every bucket listed for a triangle holds only that triangle's own three vertices is
left completely unchanged.  The pass completes on every state that keeps it inside its
vectors. -/
theorem rays_only_swaps (fm : FastMath) (s : Mesh) :
    (∀ s2, resolveSelfCollision_rays fm s = some s2 →
      s2.m_points.length = s.m_points.length ∧
      (∀ (k : Nat) (P : Point), s.m_points[k]? = some P →
        (s2.m_points[k]? = some P ∨ s2.m_points[k]? = some (swapped P)) ∧
        ∀ P2 : Point, s2.m_points[k]? = some P2 → P2.m_invMass = P.m_invMass) ∧
      s2.m_hashTable = s.m_hashTable ∧ s2.m_triangleVertHash = s.m_triangleVertHash ∧
      s2 = { s with m_points := s2.m_points } ∧
      (OwnOnly s → s2 = s)) ∧
    (RaysOk s → ∃ s2, resolveSelfCollision_rays fm s = some s2) := by
  constructor
  · intro s2 h
    unfold resolveSelfCollision_rays at h
    cases hfold : (List.range s.m_triangleVertHash.length).foldlM (rayFaceStep fm s)
        s.m_points with
    | none => rw [hfold] at h; cases h
    | some pts =>
      rw [hfold] at h
      simp only [Option.some.injEq] at h
      subst h
      obtain ⟨hlen, hrel⟩ := rays_rel fm s _ pts hfold
      refine ⟨hlen, ?_, rfl, rfl, rfl, ?_⟩
      · intro k P hP
        have hk := hrel k
        rw [hP] at hk
        simp only [Option.map_some'] at hk
        refine ⟨hk, ?_⟩
        intro P2 hP2
        rcases hk with h1 | h1
        · rw [h1] at hP2; cases hP2; rfl
        · rw [h1] at hP2; cases hP2; rfl
      · intro hown
        have : pts = s.m_points :=
          foldlM_inv (rayFaceStep fm s) (fun x => x = s.m_points)
            (fun b i b2 hb hP => by
              subst hP
              exact rayFaceStep_own fm s hown _ b2 i hb)
            _ s.m_points pts hfold rfl
        rw [this]
  · intro hok
    obtain ⟨pts, hpts, -⟩ := foldlM_total (rayFaceStep fm s)
      (fun x => x.length = s.m_points.length) (List.range s.m_triangleVertHash.length)
      (fun b i hi hb => rayFaceStep_total fm s hok b i (List.mem_range.mp hi) hb)
      s.m_points rfl
    exact ⟨{ s with m_points := pts }, by simp only [resolveSelfCollision_rays, hpts]⟩

/-- The continuous pass returns on the sample grid and keeps the number of points and the
table. -/
theorem rays_only_swaps_witness :
    RaysOk sampleGrid ∧
    ∃ s2 : Mesh, resolveSelfCollision_rays exactMath sampleGrid = some s2 ∧
      s2.m_points.length = sampleGrid.m_points.length ∧
      s2.m_hashTable = sampleGrid.m_hashTable := by
  have H := rays_only_swaps exactMath sampleGrid
  obtain ⟨s2, hs2⟩ := H.2 (by decide!)
  exact ⟨by decide!, s2, hs2, (H.1 s2 hs2).1, (H.1 s2 hs2).2.2.1⟩

/-! ## What the discrete pass does to a point -/

/-- Every point store is related to itself. -/
theorem restRel_refl (a : List Point) : RestRel a a :=
  ⟨rfl, fun _ P h => ⟨P, h, rfl, Or.inl rfl⟩⟩

/-- One vertex of the discrete pass keeps the point store within the relation `RestRel`.
-/
theorem sphereStep_rest (a : List Point) (fm : FastMath) (s : Mesh) (pts pts2 : List Point)
    (k : Nat) (h : sphereStep fm s pts k = some pts2) (hrel : RestRel a pts) :
    RestRel a pts2 := by
  unfold sphereStep at h
  split at h
  · rename_i Pk considered hPk _
    split at h
    · cases h
    · split at h
      · cases h
        refine ⟨by rw [List.length_set]; exact hrel.1, fun m P hP => ?_⟩
        obtain ⟨P2, hP2, hmass, hor⟩ := hrel.2 m P hP
        by_cases hm : k = m
        · subst hm
          have hlt : k < pts.length := (List.getElem?_eq_some_iff.mp hPk).1
          rw [hPk] at hP2
          cases hP2
          exact ⟨_, List.getElem?_set_self hlt, hmass, Or.inr rfl⟩
        · rw [List.getElem?_set_ne hm]
          exact ⟨P2, hP2, hmass, hor⟩
      · cases h
        exact hrel
  · cases h

/-- A vertex none of whose candidates is inside the collision radius is left as it was. -/
theorem sphereStep_far (fm : FastMath) (s : Mesh) (pts pts2 : List Point) (i : Nat)
    (P : Point) (cons : List Nat) (h : sphereStep fm s pts i = some pts2)
    (hP : pts[i]? = some P) (hc : consideredOf s pts i = some cons)
    (hfar : ∀ pid ∈ cons, ∀ Q : Point, pts[pid]? = some Q →
      (s.m_avgEdgeLength * (6 / 5)) * (s.m_avgEdgeLength * (6 / 5)) ≤
        Vec3.length2 (Vec3.sub P.m_pos Q.m_pos)) :
    pts2 = pts := by
  unfold sphereStep at h
  rw [hP, hc] at h
  simp only at h
  cases hfold : cons.foldlM (sphereAccum fm s.m_avgEdgeLength pts P) (Vec3.zero, 0) with
  | none => rw [hfold] at h; cases h
  | some acc =>
    have hacc : acc = (Vec3.zero, 0) := by
      refine foldlM_inv_mem _ (fun x => x = (Vec3.zero, 0)) cons ?_ _ acc hfold rfl
      intro st pid st2 hpid hstep hst
      subst hst
      unfold sphereAccum at hstep
      split at hstep
      · cases hstep
      · rename_i Q hQ
        simp only at hstep
        rw [if_neg (not_lt.mpr (hfar pid hpid Q hQ))] at hstep
        cases hstep
        rfl
    subst hacc
    rw [hfold] at h
    simp only [ne_eq, not_true_eq_false, if_false, Option.some.injEq] at h
    exact h.symm

/-- The vertices after `i` do not touch point `i`, and vertex `i` is left as it was when
no candidate is inside the collision radius at its turn. -/
theorem spheres_fold_far (fm : FastMath) (s : Mesh) (i : Nat) (P : Point) (cons : List Nat)
    (hP : s.m_points[i]? = some P) (hc : consideredOf s s.m_points i = some cons)
    (hfar : ∀ ptsi, (List.range i).foldlM (sphereStep fm s) s.m_points = some ptsi →
      ∀ pid ∈ cons, ∀ Q : Point, ptsi[pid]? = some Q →
        (s.m_avgEdgeLength * (6 / 5)) * (s.m_avgEdgeLength * (6 / 5)) ≤
          Vec3.length2 (Vec3.sub P.m_pos Q.m_pos)) :
    ∀ m pts, (List.range m).foldlM (sphereStep fm s) s.m_points = some pts →
      pts[i]? = some P := by
  intro m
  induction m with
  | zero =>
    intro pts h
    simp only [List.range_zero, List.foldlM_nil] at h
    cases h
    exact hP
  | succ m ih =>
    intro pts2 h
    rw [List.range_succ, List.foldlM_append] at h
    cases hfold : (List.range m).foldlM (sphereStep fm s) s.m_points with
    | none => rw [hfold] at h; cases h
    | some pts =>
      rw [hfold] at h
      simp only [Option.bind_eq_bind, Option.some_bind, List.foldlM_cons, List.foldlM_nil] at h
      have hstep : sphereStep fm s pts m = some pts2 := by
        cases hs : sphereStep fm s pts m with
        | none => rw [hs] at h; cases h
        | some q => rw [hs] at h; simpa using h
      have ihP := ih pts hfold
      by_cases hmi : m = i
      · subst hmi
        have hc2 : consideredOf s pts m = some cons := by
          rw [consideredOf_congr s pts s.m_points m (ihP.trans hP.symm)]; exact hc
        rw [sphereStep_far fm s pts pts2 m P cons hstep ihP hc2 (hfar pts hfold)]
        exact ihP
      · rw [(sphereStep_other fm s pts pts2 m hstep).2 i (fun h => hmi h.symm)]
        exact ihP

/-- In a bucket holding exactly `i` and `j`, not neighbours, the candidates of `i` are `j`
alone. -/
theorem consideredOf_two (s : Mesh) (pts : List Point) (a b k other : Nat) (P : Point)
    (adj : List Nat) (h : Nat) (hab : a < b)
    (hk : (k = a ∧ other = b) ∨ (k = b ∧ other = a))
    (hP : pts[k]? = some P) (hadj : s.m_adjacency[k]? = some adj) (hno : other ∉ adj)
    (hh : hashPoint s.m_avgEdgeLength s.m_hashTable.length P.m_pos = some h)
    (hbucket : s.m_hashTable[h]? = some [a, b]) :
    consideredOf s pts k = some [other] := by
  have hsort : List.insertionSort (fun x y => x ≤ y) [a, b] = [a, b] := by
    simp [List.insertionSort, List.orderedInsert, Nat.le_of_lt hab]
  have hmem : ∀ x, x ∈ List.insertionSort (fun x y => x ≤ y) (adj ++ [k]) ↔ x ∈ adj ∨ x = k := by
    intro x
    rw [(List.perm_insertionSort _ _).mem_iff]
    simp
  simp only [consideredOf, hP, hadj, hh, hbucket, hsort]
  congr 1
  rcases hk with ⟨rfl, rfl⟩ | ⟨rfl, rfl⟩
  · have h1 : k ∈ List.insertionSort (fun x y => x ≤ y) (adj ++ [k]) := (hmem k).mpr (Or.inr rfl)
    have h2 : other ∉ List.insertionSort (fun x y => x ≤ y) (adj ++ [k]) := by
      rw [hmem]; rintro (h | h)
      · exact hno h
      · omega
    simp [List.filter, h1, h2]
  · have h1 : k ∈ List.insertionSort (fun x y => x ≤ y) (adj ++ [k]) := (hmem k).mpr (Or.inr rfl)
    have h2 : other ∉ List.insertionSort (fun x y => x ≤ y) (adj ++ [k]) := by
      rw [hmem]; rintro (h | h)
      · exact hno h
      · omega
    simp [List.filter, h1, h2]

/-- The position after a push from one candidate at distance `d`, with exact square roots.
-/
theorem pushFrom_pos (fm : FastMath) (len : ℚ) (P Q : Point) (r d : ℚ)
    (hr : r = len * (6 / 5)) (hsr : fm.fastSqrt (r * r) = r) (hd : 0 < d)
    (hdd : Vec3.length2 (Vec3.sub P.m_pos Q.m_pos) = d * d) (hex : ExactAt fm d) :
    (pushFrom fm len P Q).m_pos =
      Vec3.add P.m_pos (Vec3.scale (Vec3.sub P.m_pos Q.m_pos) ((r - d) / (2 * d))) := by
  have hd0 : d ≠ 0 := ne_of_gt hd
  have hdot : Vec3.dot (Vec3.sub P.m_pos Q.m_pos) (Vec3.sub P.m_pos Q.m_pos) = d * d := hdd
  simp only [pushFrom, FastMath.fastNormalize, Vec3.length2, hdot, ← hr, hsr, hex.1, hex.2]
  simp only [Vec3.sub, Vec3.add, Vec3.scale, Vec3.divs, Vec3.zero, Nat.cast_one,
    Vec3.mk.injEq]
  refine ⟨?_, ?_, ?_⟩ <;> field_simp <;> ring

/-- The squared length of a displacement along `D`. -/
theorem length2_add_scale (A D : Vec3) (c : ℚ) :
    Vec3.length2 (Vec3.sub (Vec3.add A (Vec3.scale D c)) A) = c * c * Vec3.length2 D := by
  simp only [Vec3.length2, Vec3.dot, Vec3.sub, Vec3.add, Vec3.scale]
  ring

/-- Whatever `hashPoint` returns is below the table size. -/
theorem hashPoint_some_lt (len : ℚ) (m : Nat) (p : Vec3) (h : Nat)
    (hh : hashPoint len m p = some h) : h < m := by
  unfold hashPoint at hh
  cases hc : calcCell len p with
  | none => rw [hc] at hh; cases hh
  | some c =>
    rw [hc] at hh
    exact posMod_some_lt _ _ _ hh

/-- A `push_back` into one bucket keeps the number of buckets. -/
theorem length_pushAt (T : List (List Nat)) (h i : Nat) : (pushAt T h i).length = T.length := by
  unfold pushAt
  cases T[h]? with
  | none => rfl
  | some b => simp

/-- The buckets after a `push_back` into bucket `h`. -/
theorem pushAt_get (T : List (List Nat)) (h i k : Nat) (hh : h < T.length) :
    (pushAt T h i)[k]? = if k = h then (T[h]?).map (fun b => b ++ [i]) else T[k]? := by
  unfold pushAt
  rw [List.getElem?_eq_getElem hh]
  simp only [Option.map_some']
  by_cases hk : k = h
  · subst hk
    simp [hh]
  · rw [if_neg hk, List.getElem?_set_ne (fun e => hk e.symm)]

/-- The loop of `hashVerts` after `k` vertices: every bucket has received, in order, the
vertices below `k` that hash to it. -/
theorem hashVerts_fold (len : ℚ) (points : List Point) (T0 : List (List Nat)) (k : Nat) :
    ∀ Tk : List (List Nat), (List.range k).foldlM (hashVertStep len points) T0 = some Tk →
      Tk.length = T0.length ∧
      (∀ i : Nat, i < k → ∃ (p : Point) (h : Nat), points[i]? = some p ∧
        hashPoint len T0.length p.m_pos = some h) ∧
      ∀ (h : Nat) (bucket : List Nat), T0[h]? = some bucket →
        Tk[h]? = some (bucket ++ (List.range k).filter (fun i =>
          decide ((points[i]?).bind (fun p => hashPoint len T0.length p.m_pos) = some h))) := by
  induction k with
  | zero =>
    intro Tk h
    simp only [List.range_zero, List.foldlM_nil] at h
    cases h
    refine ⟨rfl, fun i hi => absurd hi (Nat.not_lt_zero i), fun h bucket hb => ?_⟩
    simp [hb]
  | succ k ih =>
    intro Tk h
    rw [List.range_succ, List.foldlM_append] at h
    cases hT : (List.range k).foldlM (hashVertStep len points) T0 with
    | none => rw [hT] at h; cases h
    | some T =>
      rw [hT] at h
      obtain ⟨hlen, hdef, hget⟩ := ih T hT
      simp only [List.foldlM_cons, List.foldlM_nil, Option.pure_def, Option.bind_eq_bind,
        Option.bind_some, Option.some_bind] at h
      unfold hashVertStep at h
      cases hp : points[k]? with
      | none => rw [hp] at h; cases h
      | some pt =>
        rw [hp] at h
        simp only at h
        cases hh : hashPoint len T.length pt.m_pos with
        | none => rw [hh] at h; cases h
        | some hk =>
          rw [hh] at h
          simp only [Option.some.injEq] at h
          subst h
          have hklt : hk < T.length := hashPoint_some_lt _ _ _ _ hh
          rw [hlen] at hh
          refine ⟨by rw [length_pushAt, hlen], ?_, ?_⟩
          · intro i hi
            by_cases hik : i < k
            · exact hdef i hik
            · have : i = k := by omega
              subst this
              exact ⟨pt, hk, hp, hh⟩
          · intro h bucket hb
            rw [pushAt_get T hk k h hklt, List.range_succ, List.filter_append]
            by_cases hhk : h = hk
            · subst hhk
              rw [if_pos rfl, hget h bucket hb]
              simp [hp, hh]
            · rw [if_neg hhk, hget h bucket hb]
              have : ¬ (hk = h) := fun e => hhk e.symm
              simp [hp, hh, this]

/-- The loop body of `hashVerts` is defined for a vertex of the store, a cell size other
than zero and at least one bucket. -/
theorem hashVertStep_total (len : ℚ) (points : List Point) (T : List (List Nat)) (i : Nat)
    (hlen : len ≠ 0) (hT : 1 ≤ T.length) (hi : i < points.length) :
    ∃ T2, hashVertStep len points T i = some T2 ∧ T2.length = T.length := by
  obtain ⟨h, hh, _⟩ := hashPoint_total len T.length (points[i]).m_pos hlen hT
  refine ⟨pushAt T h i, ?_, length_pushAt T h i⟩
  unfold hashVertStep
  rw [List.getElem?_eq_getElem hi]
  simp only [hh]

/-- The loop of `hashVerts` is defined for a cell size other than zero and at least one
bucket. -/
theorem hashVerts_fold_total (len : ℚ) (points : List Point) (T0 : List (List Nat))
    (hlen : len ≠ 0) (hT : 1 ≤ T0.length) :
    ∃ Tk, (List.range points.length).foldlM (hashVertStep len points) T0 = some Tk := by
  obtain ⟨Tk, h, _⟩ := foldlM_total (hashVertStep len points) (fun T => 1 ≤ T.length)
    (List.range points.length)
    (fun T i hi hP => by
      obtain ⟨T2, h2, hl⟩ := hashVertStep_total len points T i hlen hP
        (List.mem_range.mp hi)
      exact ⟨T2, h2, by show 1 ≤ T2.length; rw [hl]; exact hP⟩) T0 hT
  exact ⟨Tk, h⟩

/-- Two tables of the same length are equal once cleared. -/
theorem cleared_eq (a b : List (List Nat)) (h : a.length = b.length) :
    a.map (fun _ => ([] : List Nat)) = b.map (fun _ => ([] : List Nat)) := by
  rw [List.map_const', List.map_const', h]

/-- The result of `hashVerts`: only the table changes, and bucket `h` holds the vertices
that hash to `h`, in increasing order. -/
theorem hashVerts_spec (s s2 : Mesh) (h : hashVerts s = some s2) :
    s2 = { s with m_hashTable := s2.m_hashTable } ∧
    s2.m_hashTable.length = s.m_hashTable.length ∧
    s.m_points.length ≤ maxUShort ∧
    (∀ i : Nat, i < s.m_points.length → ∃ h : Nat, hashOfVertex s i = some h ∧
      h < s.m_hashTable.length) ∧
    ∀ h : Nat, h < s.m_hashTable.length →
      s2.m_hashTable[h]? = some ((List.range s.m_points.length).filter
        (fun i => decide (hashOfVertex s i = some h))) := by
  unfold hashVerts at h
  by_cases hbig : maxUShort < s.m_points.length
  · rw [if_pos hbig] at h
    cases h
  · rw [if_neg hbig] at h
    simp only at h
    cases hfold : (List.range s.m_points.length).foldlM
        (hashVertStep s.m_avgEdgeLength s.m_points)
        (s.m_hashTable.map (fun _ => ([] : List Nat))) with
    | none => rw [hfold] at h; cases h
    | some T =>
      rw [hfold] at h
      simp only [Option.some.injEq] at h
      subst h
      obtain ⟨hlen, hdef, hget⟩ := hashVerts_fold _ _ _ _ T hfold
      rw [List.length_map] at hlen hdef hget
      refine ⟨rfl, hlen, Nat.le_of_not_lt hbig, ?_, ?_⟩
      · intro i hi
        obtain ⟨p, h, hp, hh⟩ := hdef i hi
        refine ⟨h, ?_, hashPoint_some_lt _ _ _ _ hh⟩
        unfold hashOfVertex
        rw [hp]
        exact hh
      · intro h hh
        have := hget h [] (by
          rw [List.getElem?_map, List.getElem?_eq_getElem hh]
          rfl)
        simpa [hashOfVertex] using this

/-- The method `hashVerts` returns for at most 65535 points, at least one bucket and a
cell size other than zero. -/
theorem hashVerts_returns (s : Mesh) (hn : s.m_points.length ≤ maxUShort)
    (hm : 1 ≤ s.m_hashTable.length) (havg : s.m_avgEdgeLength ≠ 0) :
    ∃ s2, hashVerts s = some s2 := by
  obtain ⟨T, hT⟩ := hashVerts_fold_total s.m_avgEdgeLength s.m_points
    (s.m_hashTable.map (fun _ => ([] : List Nat))) havg (by rw [List.length_map]; exact hm)
  refine ⟨{ s with m_hashTable := T }, ?_⟩
  unfold hashVerts
  rw [if_neg (Nat.not_lt.mpr hn)]
  simp only [hT]

/-- The number of occurrences of `i` in the buckets of a duplicate-free list of hashes. -/
theorem count_buckets (f : Nat → Option Nat) (R : List Nat) (i : Nat) :
    ∀ L : List Nat, L.Nodup →
      ((L.map (fun h => R.filter (fun j => decide (f j = some h)))).flatten).count i
        = if ∃ h ∈ L, f i = some h then R.count i else 0 := by
  intro L
  induction L with
  | nil => intro _; simp
  | cons h L ih =>
    intro hnd
    rw [List.nodup_cons] at hnd
    rw [List.map_cons, List.flatten_cons, List.count_append, ih hnd.2]
    by_cases hfi : f i = some h
    · have h1 : (R.filter (fun j => decide (f j = some h))).count i = R.count i :=
        List.count_filter (by simp [hfi])
      have h2 : ¬ ∃ h2 ∈ L, f i = some h2 := by
        rintro ⟨h2, hmem, he⟩
        rw [hfi] at he
        cases he
        exact hnd.1 hmem
      rw [h1, if_neg h2, if_pos ⟨h, List.mem_cons_self _ _, hfi⟩, Nat.add_zero]
    · have h1 : (R.filter (fun j => decide (f j = some h))).count i = 0 := by
        rw [List.count_eq_zero, List.mem_filter]
        rintro ⟨_, hp⟩
        exact hfi (by simpa using hp)
      rw [h1, Nat.zero_add]
      by_cases hex : ∃ h2 ∈ L, f i = some h2
      · obtain ⟨h2, hmem, he⟩ := hex
        rw [if_pos ⟨h2, hmem, he⟩, if_pos ⟨h2, List.mem_cons_of_mem _ hmem, he⟩]
      · rw [if_neg hex, if_neg]
        rintro ⟨h2, hmem, he⟩
        rcases List.mem_cons.mp hmem with e | hmem2
        · exact hfi (e ▸ he)
        · exact hex ⟨h2, hmem2, he⟩

/-- A table is determined by its length and its buckets. -/
theorem table_eq_of_get (T : List (List Nat)) (m : Nat) (B : Nat → List Nat)
    (hlen : T.length = m) (hget : ∀ h : Nat, h < m → T[h]? = some (B h)) :
    T = (List.range m).map B := by
  apply List.ext_getElem?
  intro k
  by_cases hk : k < m
  · rw [hget k hk, List.getElem?_map, List.getElem?_range hk]
    rfl
  · rw [List.getElem?_eq_none (by omega), List.getElem?_eq_none (by simp; omega)]

/-- The values of a loop `for (int x = lo; x <= hi; ++x)` by position. -/
theorem intRange_eq (lo hi : Int) :
    intRange lo hi = (List.range (hi + 1 - lo).toNat).map (fun k : Nat => lo + (k : Int)) := by
  unfold intRange
  have h : ∀ l : List Nat,
      (do let a ← l; pure (a : Int) : List Int) = l.map (fun k : Nat => (k : Int)) := by
    intro l
    induction l with
    | nil => rfl
    | cons a l ih =>
      simp only [List.bind_eq_flatMap, List.pure_def, List.flatMap_cons, List.map_cons] at ih ⊢
      rw [ih]
      rfl
  rw [h, List.map_map]
  rfl

/-- The loop visits exactly the integers from `lo` to `hi`. -/
theorem mem_intRange (lo hi x : Int) : x ∈ intRange lo hi ↔ lo ≤ x ∧ x ≤ hi := by
  rw [intRange_eq, List.mem_map]
  constructor
  · rintro ⟨k, hk, rfl⟩
    rw [List.mem_range] at hk
    omega
  · rintro ⟨h1, h2⟩
    refine ⟨(x - lo).toNat, ?_, ?_⟩
    · rw [List.mem_range]
      omega
    · omega

/-- The number of iterations of the loop from `lo` to `hi`. -/
theorem length_intRange (lo hi : Int) : (intRange lo hi).length = (hi + 1 - lo).toNat := by
  rw [intRange_eq, List.length_map, List.length_range]

/-- The length of a concatenation of lists of one length. -/
theorem length_flatMap_const {α β : Type} (f : α → List β) (c : Nat)
    (h : ∀ a, (f a).length = c) : ∀ l : List α, (l.flatMap f).length = l.length * c := by
  intro l
  induction l with
  | nil => simp
  | cons a l ih =>
    rw [List.flatMap_cons, List.length_append, ih, h a, List.length_cons]
    ring

/-- The three nested loops visit exactly the cells of the box. -/
theorem mem_boxCells (lo hi c : IVec3) : c ∈ boxCells lo hi ↔ IVec3.between lo hi c := by
  unfold boxCells IVec3.between
  simp only [List.mem_flatMap, List.mem_map, mem_intRange]
  constructor
  · rintro ⟨x, hx, y, hy, z, hz, rfl⟩
    exact ⟨hx, hy, hz⟩
  · rintro ⟨hx, hy, hz⟩
    exact ⟨c.x, hx, c.y, hy, c.z, hz, rfl⟩

/-- The number of cells the three nested loops visit. -/
theorem length_boxCells (lo hi : IVec3) :
    (boxCells lo hi).length =
      (hi.x + 1 - lo.x).toNat * ((hi.y + 1 - lo.y).toNat * (hi.z + 1 - lo.z).toNat) := by
  unfold boxCells
  rw [length_flatMap_const _ ((hi.y + 1 - lo.y).toNat * (hi.z + 1 - lo.z).toNat),
    length_intRange]
  intro x
  rw [length_flatMap_const _ ((hi.z + 1 - lo.z).toNat), length_intRange]
  intro y
  rw [List.length_map, length_intRange]

/-- A completed `mapM` lists the values of the function. -/
theorem mapM_some {α β : Type} (f : α → Option β) :
    ∀ (l : List α) (r : List β), l.mapM f = some r → r.map some = l.map f := by
  intro l
  induction l with
  | nil =>
    intro r h
    rw [List.mapM_nil] at h
    cases h
    rfl
  | cons a l ih =>
    intro r h
    rw [List.mapM_cons] at h
    cases hfa : f a with
    | none => rw [hfa] at h; cases h
    | some b =>
      rw [hfa] at h
      cases hl : l.mapM f with
      | none => rw [hl] at h; cases h
      | some r2 =>
        rw [hl] at h
        cases h
        rw [List.map_cons, List.map_cons, ih r2 hl, hfa]

/-- A `mapM` of a function defined on every member is defined. -/
theorem mapM_total {α β : Type} (f : α → Option β) :
    ∀ l : List α, (∀ a ∈ l, ∃ b, f a = some b) → ∃ r, l.mapM f = some r := by
  intro l
  induction l with
  | nil => intro _; exact ⟨[], rfl⟩
  | cons a l ih =>
    intro h
    obtain ⟨b, hb⟩ := h a (List.mem_cons_self _ _)
    obtain ⟨r, hr⟩ := ih (fun a2 ha2 => h a2 (List.mem_cons_of_mem _ ha2))
    exact ⟨b :: r, by rw [List.mapM_cons, hb, hr]; rfl⟩

/-- For a positive cell size `calcCell` is monotone in every component. -/
theorem calcCell_mono (len : ℚ) (p q : Vec3) (cp cq : IVec3) (hlen : 0 < len)
    (hp : calcCell len p = some cp) (hq : calcCell len q = some cq) :
    (p.x ≤ q.x → cp.x ≤ cq.x) ∧ (p.y ≤ q.y → cp.y ≤ cq.y) ∧ (p.z ≤ q.z → cp.z ≤ cq.z) := by
  unfold calcCell at hp hq
  rw [if_neg (ne_of_gt hlen)] at hp hq
  cases hp
  cases hq
  exact ⟨fun h => Int.floor_le_floor (div_le_div_of_nonneg_right h (le_of_lt hlen)),
    fun h => Int.floor_le_floor (div_le_div_of_nonneg_right h (le_of_lt hlen)),
    fun h => Int.floor_le_floor (div_le_div_of_nonneg_right h (le_of_lt hlen))⟩

/-- The loop of `hashTris` after `k` triangles: the lists below `k` have received the
hashes of their triangle, the others are untouched. -/
theorem hashTris_fold (s : Mesh) (T0 : List (List Nat)) (k : Nat) :
    ∀ Tk : List (List Nat), (List.range k).foldlM (hashTriStep s) T0 = some Tk →
      Tk.length = T0.length ∧
      (∀ t : Nat, t < k → ∃ (hs old : List Nat), triangleHashes s t = some hs ∧
        T0[t]? = some old ∧ Tk[t]? = some (old ++ hs)) ∧
      ∀ t : Nat, k ≤ t → Tk[t]? = T0[t]? := by
  induction k with
  | zero =>
    intro Tk h
    simp only [List.range_zero, List.foldlM_nil] at h
    cases h
    exact ⟨rfl, fun t ht => absurd ht (Nat.not_lt_zero t), fun t _ => rfl⟩
  | succ k ih =>
    intro Tk h
    rw [List.range_succ, List.foldlM_append] at h
    cases hT : (List.range k).foldlM (hashTriStep s) T0 with
    | none => rw [hT] at h; cases h
    | some T =>
      rw [hT] at h
      obtain ⟨hlen, hdone, hrest⟩ := ih T hT
      simp only [List.foldlM_cons, List.foldlM_nil, Option.pure_def, Option.bind_eq_bind,
        Option.bind_some, Option.some_bind] at h
      unfold hashTriStep at h
      cases hhs : triangleHashes s k with
      | none => rw [hhs] at h; cases h
      | some hs =>
        rw [hhs] at h
        simp only at h
        cases hold : T[k]? with
        | none => rw [hold] at h; cases h
        | some old =>
          rw [hold] at h
          simp only [Option.some.injEq] at h
          subst h
          have hk : k < T.length := (List.getElem?_eq_some_iff.mp hold).1
          refine ⟨by rw [List.length_set, hlen], ?_, ?_⟩
          · intro t ht
            by_cases htk : t < k
            · obtain ⟨hs2, old2, h1, h2, h3⟩ := hdone t htk
              refine ⟨hs2, old2, h1, h2, ?_⟩
              rw [List.getElem?_set_ne (by omega)]
              exact h3
            · have : t = k := by omega
              subst this
              refine ⟨hs, old, hhs, ?_, ?_⟩
              · rw [← hrest t (Nat.le_refl t)]
                exact hold
              · rw [List.getElem?_set_self hk]
          · intro t ht
            rw [List.getElem?_set_ne (by omega)]
            exact hrest t (by omega)

/-- The hashes appended for a triangle are `hashCell` of the cells of its bounding box, in
loop order. -/
theorem triangleHashes_spec (s : Mesh) (t : Nat) (hs : List Nat)
    (h : triangleHashes s t = some hs) :
    ∃ (p1 p2 p3 : Point) (lo hi : IVec3), trianglePoints s t = some (p1, p2, p3) ∧
      calcCell s.m_avgEdgeLength (Vec3.min (Vec3.min p1.m_pos p2.m_pos) p3.m_pos) = some lo ∧
      calcCell s.m_avgEdgeLength (Vec3.max (Vec3.max p1.m_pos p2.m_pos) p3.m_pos) = some hi ∧
      hs.map some = (boxCells lo hi).map (hashCell s.m_hashTable.length) := by
  unfold triangleHashes at h
  cases htp : trianglePoints s t with
  | none => rw [htp] at h; cases h
  | some tri =>
    obtain ⟨p1, p2, p3⟩ := tri
    rw [htp] at h
    simp only at h
    cases hlo : calcCell s.m_avgEdgeLength (Vec3.min (Vec3.min p1.m_pos p2.m_pos) p3.m_pos) with
    | none => rw [hlo] at h; cases h
    | some lo =>
      cases hhi : calcCell s.m_avgEdgeLength
          (Vec3.max (Vec3.max p1.m_pos p2.m_pos) p3.m_pos) with
      | none => rw [hlo, hhi] at h; cases h
      | some hi =>
        rw [hlo, hhi] at h
        exact ⟨p1, p2, p3, lo, hi, rfl, hlo, hhi, mapM_some _ _ _ h⟩

/-- The three points of a triangle are defined when its indices are in range. -/
theorem trianglePoints_total (s : Mesh) (t : Nat) (hidx : t * 3 + 2 < s.m_indices.length)
    (hpts : ∀ i ∈ s.m_indices, i < s.m_points.length) :
    ∃ tri, trianglePoints s t = some tri := by
  have h0 : t * 3 < s.m_indices.length := by omega
  have h1 : t * 3 + 1 < s.m_indices.length := by omega
  have b0 := hpts _ (List.getElem_mem h0)
  have b1 := hpts _ (List.getElem_mem h1)
  have b2 := hpts _ (List.getElem_mem hidx)
  refine ⟨(s.m_points[s.m_indices[t * 3]], s.m_points[s.m_indices[t * 3 + 1]],
    s.m_points[s.m_indices[t * 3 + 2]]), ?_⟩
  unfold trianglePoints
  rw [List.getElem?_eq_getElem h0, List.getElem?_eq_getElem h1, List.getElem?_eq_getElem hidx]
  simp only
  rw [List.getElem?_eq_getElem b0, List.getElem?_eq_getElem b1, List.getElem?_eq_getElem b2]

/-- The hashes of a triangle are defined when its indices are in range, the cell size is
not zero and there is a bucket. -/
theorem triangleHashes_total (s : Mesh) (t : Nat) (hidx : t * 3 + 2 < s.m_indices.length)
    (hpts : ∀ i ∈ s.m_indices, i < s.m_points.length) (havg : s.m_avgEdgeLength ≠ 0)
    (hm : 1 ≤ s.m_hashTable.length) : ∃ hs, triangleHashes s t = some hs := by
  obtain ⟨⟨p1, p2, p3⟩, htp⟩ := trianglePoints_total s t hidx hpts
  unfold triangleHashes
  rw [htp]
  simp only [calcCell, if_neg havg]
  exact mapM_total _ _ (fun c _ => by
    obtain ⟨h, hh, _⟩ := posMod_lt (cellKey c) s.m_hashTable.length hm
    exact ⟨h, hh⟩)

/-- The result of `hashTris`: only the lists change, and list `t` holds the hashes of
triangle `t`. -/
theorem hashTris_spec (s s2 : Mesh) (h : hashTris s = some s2) :
    s2 = { s with m_triangleVertHash := s2.m_triangleVertHash } ∧
    s2.m_triangleVertHash.length = s.m_triangleVertHash.length ∧
    ∀ t : Nat, t < s.m_triangleVertHash.length → ∃ hs : List Nat,
      triangleHashes s t = some hs ∧ s2.m_triangleVertHash[t]? = some hs := by
  unfold hashTris at h
  simp only at h
  cases hfold : (List.range s.m_triangleVertHash.length).foldlM (hashTriStep s)
      (s.m_triangleVertHash.map (fun _ => ([] : List Nat))) with
  | none => rw [hfold] at h; cases h
  | some T =>
    rw [hfold] at h
    simp only [Option.some.injEq] at h
    subst h
    obtain ⟨hlen, hdone, _⟩ := hashTris_fold _ _ _ T hfold
    rw [List.length_map] at hlen
    refine ⟨rfl, hlen, ?_⟩
    intro t ht
    obtain ⟨hs, old, h1, h2, h3⟩ := hdone t ht
    rw [List.getElem?_map, List.getElem?_eq_getElem ht] at h2
    cases h2
    exact ⟨hs, h1, h3⟩

/-- The method `hashTris` returns when the indices are in range, the cell size is not zero
and there is a bucket. -/
theorem hashTris_returns (s : Mesh)
    (hidx : s.m_triangleVertHash.length * 3 ≤ s.m_indices.length)
    (hpts : ∀ i ∈ s.m_indices, i < s.m_points.length) (havg : s.m_avgEdgeLength ≠ 0)
    (hm : 1 ≤ s.m_hashTable.length) : ∃ s2, hashTris s = some s2 := by
  obtain ⟨T, hT, _⟩ := foldlM_total (hashTriStep s)
    (fun T => T.length = s.m_triangleVertHash.length)
    (List.range s.m_triangleVertHash.length)
    (fun T t ht hP => by
      have ht2 := List.mem_range.mp ht
      have hP2 : T.length = s.m_triangleVertHash.length := hP
      obtain ⟨hs, hhs⟩ := triangleHashes_total s t (by omega) hpts havg hm
      refine ⟨T.set t (T[t] ++ hs), ?_, ?_⟩
      · unfold hashTriStep
        rw [hhs]
        simp only
        rw [List.getElem?_eq_getElem (by omega)]
      · show (T.set t (T[t] ++ hs)).length = s.m_triangleVertHash.length
        rw [List.length_set]
        exact hP)
    (s.m_triangleVertHash.map (fun _ => ([] : List Nat))) (List.length_map _ _)
  refine ⟨{ s with m_triangleVertHash := T }, ?_⟩
  unfold hashTris
  simp only [hT]

/-- For a positive cell size the cell of the minimum corner is below the cell of the
maximum corner. -/
theorem box_ordered (len : ℚ) (p1 p2 p3 : Vec3) (lo hi : IVec3) (hlen : 0 < len)
    (hlo : calcCell len (Vec3.min (Vec3.min p1 p2) p3) = some lo)
    (hhi : calcCell len (Vec3.max (Vec3.max p1 p2) p3) = some hi) :
    lo.x ≤ hi.x ∧ lo.y ≤ hi.y ∧ lo.z ≤ hi.z := by
  obtain ⟨hx, hy, hz⟩ := calcCell_mono len _ _ lo hi hlen hlo hhi
  refine ⟨hx ?_, hy ?_, hz ?_⟩
  · exact le_trans (min_le_left _ _) (le_trans (min_le_left _ _)
      (le_trans (le_max_left _ _) (le_max_left _ _)))
  · exact le_trans (min_le_left _ _) (le_trans (min_le_left _ _)
      (le_trans (le_max_left _ _) (le_max_left _ _)))
  · exact le_trans (min_le_left _ _) (le_trans (min_le_left _ _)
      (le_trans (le_max_left _ _) (le_max_left _ _)))

/-- Membership in a list known through its image under `some`. -/
theorem mem_map_some {α β : Type} (f : α → Option β) (l : List α) (r : List β)
    (h : r.map some = l.map f) (b : β) : b ∈ r ↔ ∃ a, a ∈ l ∧ f a = some b := by
  constructor
  · intro hb
    have : some b ∈ r.map some := List.mem_map.mpr ⟨b, hb, rfl⟩
    rw [h, List.mem_map] at this
    exact this
  · rintro ⟨a, ha, hfa⟩
    have : some b ∈ l.map f := List.mem_map.mpr ⟨a, ha, hfa⟩
    rw [← h, List.mem_map] at this
    obtain ⟨b2, hb2, he⟩ := this
    cases he
    exact hb2

/-- The three points of a triangle are the points at its three indices. -/
theorem trianglePoints_spec (s : Mesh) (t : Nat) (p1 p2 p3 : Point)
    (h : trianglePoints s t = some (p1, p2, p3)) :
    ∃ i1 i2 i3 : Nat, s.m_indices[t * 3]? = some i1 ∧ s.m_indices[t * 3 + 1]? = some i2 ∧
      s.m_indices[t * 3 + 2]? = some i3 ∧ s.m_points[i1]? = some p1 ∧
      s.m_points[i2]? = some p2 ∧ s.m_points[i3]? = some p3 := by
  unfold trianglePoints at h
  cases h1 : s.m_indices[t * 3]? with
  | none => rw [h1] at h; cases h
  | some i1 =>
    cases h2 : s.m_indices[t * 3 + 1]? with
    | none => rw [h1, h2] at h; cases h
    | some i2 =>
      cases h3 : s.m_indices[t * 3 + 2]? with
      | none => rw [h1, h2, h3] at h; cases h
      | some i3 =>
        rw [h1, h2, h3] at h
        simp only at h
        cases q1 : s.m_points[i1]? with
        | none => rw [q1] at h; cases h
        | some a1 =>
          cases q2 : s.m_points[i2]? with
          | none => rw [q1, q2] at h; cases h
          | some a2 =>
            cases q3 : s.m_points[i3]? with
            | none => rw [q1, q2, q3] at h; cases h
            | some a3 =>
              rw [q1, q2, q3] at h
              cases h
              exact ⟨i1, i2, i3, rfl, rfl, rfl, q1, q2, q3⟩

/-- The three corners of a triangle lie in its bounding box. -/
theorem between_own (p1 p2 p3 : Vec3) :
    Vec3.between (Vec3.min (Vec3.min p1 p2) p3) (Vec3.max (Vec3.max p1 p2) p3) p1 ∧
    Vec3.between (Vec3.min (Vec3.min p1 p2) p3) (Vec3.max (Vec3.max p1 p2) p3) p2 ∧
    Vec3.between (Vec3.min (Vec3.min p1 p2) p3) (Vec3.max (Vec3.max p1 p2) p3) p3 := by
  simp only [Vec3.between, Vec3.min, Vec3.max]
  simp only [min_le_iff, le_max_iff, le_refl, true_or, or_true, and_self]

/-- A vector other than zero has positive squared length. -/
theorem length2_pos (v : Vec3) (h : v ≠ Vec3.zero) : 0 < Vec3.length2 v := by
  obtain ⟨x, y, z⟩ := v
  simp only [Vec3.length2, Vec3.dot]
  have hne : ¬ (x = 0 ∧ y = 0 ∧ z = 0) := by
    rintro ⟨rfl, rfl, rfl⟩
    exact h rfl
  by_contra hle
  have hx : x * x = 0 := by nlinarith [mul_self_nonneg x, mul_self_nonneg y, mul_self_nonneg z]
  have hy : y * y = 0 := by nlinarith [mul_self_nonneg x, mul_self_nonneg y, mul_self_nonneg z]
  have hz : z * z = 0 := by nlinarith [mul_self_nonneg x, mul_self_nonneg y, mul_self_nonneg z]
  exact hne ⟨mul_self_eq_zero.mp hx, mul_self_eq_zero.mp hy, mul_self_eq_zero.mp hz⟩

/-- The three scalars of the inside test add up to the scale of the normal times the
squared length of the cross product. -/
theorem X_sum (T0 T1 T2 I : Vec3) (c : ℚ) :
    X1 (Vec3.scale (Vec3.cross (Vec3.sub T1 T0) (Vec3.sub T2 T0)) c) (Vec3.sub T1 T0) T0 I
      + X2 (Vec3.scale (Vec3.cross (Vec3.sub T1 T0) (Vec3.sub T2 T0)) c) (Vec3.sub T2 T1) T1 I
      + X3 (Vec3.scale (Vec3.cross (Vec3.sub T1 T0) (Vec3.sub T2 T0)) c) (Vec3.sub T2 T0) T0 I
      = c * Vec3.length2 (Vec3.cross (Vec3.sub T1 T0) (Vec3.sub T2 T0)) := by
  simp only [X1, X2, X3, Vec3.length2, Vec3.dot, Vec3.cross, Vec3.sub, Vec3.scale, Vec3.neg]
  ring

/-- A point of the plane, relative to `T0`, in terms of the two edges from `T0`. -/
theorem X_decompose (T0 T1 T2 I : Vec3) (c : ℚ)
    (hplane : Vec3.dot (Vec3.sub I T0) (Vec3.cross (Vec3.sub T1 T0) (Vec3.sub T2 T0)) = 0) :
    Vec3.scale (Vec3.sub I T0)
        (c * Vec3.length2 (Vec3.cross (Vec3.sub T1 T0) (Vec3.sub T2 T0)))
      = Vec3.add
        (Vec3.scale (Vec3.sub T1 T0)
          (X3 (Vec3.scale (Vec3.cross (Vec3.sub T1 T0) (Vec3.sub T2 T0)) c)
            (Vec3.sub T2 T0) T0 I))
        (Vec3.scale (Vec3.sub T2 T0)
          (X1 (Vec3.scale (Vec3.cross (Vec3.sub T1 T0) (Vec3.sub T2 T0)) c)
            (Vec3.sub T1 T0) T0 I)) := by
  obtain ⟨x0, y0, z0⟩ := T0
  obtain ⟨x1, y1, z1⟩ := T1
  obtain ⟨x2, y2, z2⟩ := T2
  obtain ⟨x, y, z⟩ := I
  simp only [X1, X3, Vec3.length2, Vec3.dot, Vec3.cross, Vec3.sub, Vec3.scale, Vec3.neg,
    Vec3.add, Vec3.mk.injEq] at hplane ⊢
  refine ⟨?_, ?_, ?_⟩
  · linear_combination
      c * ((y1 - y0) * (z2 - z0) - (y2 - y0) * (z1 - z0)) * hplane
  · linear_combination
      c * ((z1 - z0) * (x2 - x0) - (z2 - z0) * (x1 - x0)) * hplane
  · linear_combination
      c * ((x1 - x0) * (y2 - y0) - (x2 - x0) * (y1 - y0)) * hplane

/-- The three scalars of the inside test at a combination of the corners with weights of
sum one. -/
theorem X_of_comb (T0 T1 T2 : Vec3) (a b g c : ℚ) (hsum : a + b + g = 1) :
    X1 (Vec3.scale (Vec3.cross (Vec3.sub T1 T0) (Vec3.sub T2 T0)) c) (Vec3.sub T1 T0) T0
        (Vec3.add (Vec3.add (Vec3.smul a T0) (Vec3.smul b T1)) (Vec3.smul g T2))
      = g * (c * Vec3.length2 (Vec3.cross (Vec3.sub T1 T0) (Vec3.sub T2 T0))) ∧
    X2 (Vec3.scale (Vec3.cross (Vec3.sub T1 T0) (Vec3.sub T2 T0)) c) (Vec3.sub T2 T1) T1
        (Vec3.add (Vec3.add (Vec3.smul a T0) (Vec3.smul b T1)) (Vec3.smul g T2))
      = a * (c * Vec3.length2 (Vec3.cross (Vec3.sub T1 T0) (Vec3.sub T2 T0))) ∧
    X3 (Vec3.scale (Vec3.cross (Vec3.sub T1 T0) (Vec3.sub T2 T0)) c) (Vec3.sub T2 T0) T0
        (Vec3.add (Vec3.add (Vec3.smul a T0) (Vec3.smul b T1)) (Vec3.smul g T2))
      = b * (c * Vec3.length2 (Vec3.cross (Vec3.sub T1 T0) (Vec3.sub T2 T0))) := by
  have ha : a = 1 - b - g := by linarith
  subst ha
  simp only [X1, X2, X3, Vec3.length2, Vec3.dot, Vec3.cross, Vec3.sub, Vec3.scale, Vec3.neg,
    Vec3.add, Vec3.smul]
  refine ⟨?_, ?_, ?_⟩ <;> ring

/-- The inside test with a positive multiple of the cross product as normal. -/
theorem insideTri_iff_scaled (T0 T1 T2 I : Vec3) (c : ℚ) (hc : 0 < c)
    (hnd : Vec3.cross (Vec3.sub T1 T0) (Vec3.sub T2 T0) ≠ Vec3.zero)
    (hplane : Vec3.dot (Vec3.sub I T0) (Vec3.cross (Vec3.sub T1 T0) (Vec3.sub T2 T0)) = 0) :
    insideTri T0 T1 (Vec3.sub T1 T0) (Vec3.sub T2 T0) (Vec3.sub T2 T1)
        (Vec3.scale (Vec3.cross (Vec3.sub T1 T0) (Vec3.sub T2 T0)) c) I = true ↔
      inClosedTriangle T0 T1 T2 I := by
  have hD := length2_pos _ hnd
  have hcD : 0 < c * Vec3.length2 (Vec3.cross (Vec3.sub T1 T0) (Vec3.sub T2 T0)) :=
    mul_pos hc hD
  have hsum := X_sum T0 T1 T2 I c
  have hdec := X_decompose T0 T1 T2 I c hplane
  unfold insideTri inClosedTriangle
  simp only [Bool.and_eq_true, decide_eq_true_eq]
  generalize c * Vec3.length2 (Vec3.cross (Vec3.sub T1 T0) (Vec3.sub T2 T0)) = K
    at hcD hsum hdec
  constructor
  · rintro ⟨⟨h1, h2⟩, h3⟩
    generalize X1 (Vec3.scale (Vec3.cross (Vec3.sub T1 T0) (Vec3.sub T2 T0)) c)
      (Vec3.sub T1 T0) T0 I = x1 at h1 hsum hdec
    generalize X2 (Vec3.scale (Vec3.cross (Vec3.sub T1 T0) (Vec3.sub T2 T0)) c)
      (Vec3.sub T2 T1) T1 I = x2 at h2 hsum
    generalize X3 (Vec3.scale (Vec3.cross (Vec3.sub T1 T0) (Vec3.sub T2 T0)) c)
      (Vec3.sub T2 T0) T0 I = x3 at h3 hsum hdec
    have hK : K ≠ 0 := ne_of_gt hcD
    refine ⟨x2 / K, x3 / K, x1 / K, div_nonneg h2 (le_of_lt hcD),
      div_nonneg h3 (le_of_lt hcD), div_nonneg h1 (le_of_lt hcD), ?_, ?_⟩
    · field_simp
      linarith
    · obtain ⟨x0, y0, z0⟩ := T0
      obtain ⟨xa, ya, za⟩ := T1
      obtain ⟨xb, yb, zb⟩ := T2
      obtain ⟨x, y, z⟩ := I
      simp only [Vec3.sub, Vec3.scale, Vec3.add, Vec3.smul, Vec3.mk.injEq] at hdec ⊢
      obtain ⟨ex, ey, ez⟩ := hdec
      have hx2 : x2 = K - x1 - x3 := by linarith
      subst hx2
      refine ⟨?_, ?_, ?_⟩
      · field_simp
        linear_combination ex
      · field_simp
        linear_combination ey
      · field_simp
        linear_combination ez
  · rintro ⟨a, b, g, ha, hb, hg, habg, hI⟩
    subst hI
    obtain ⟨e1, e2, e3⟩ := X_of_comb T0 T1 T2 a b g c habg
    rw [e1, e2, e3]
    exact ⟨⟨mul_nonneg hg (le_of_lt (mul_pos hc hD)), mul_nonneg ha (le_of_lt (mul_pos hc hD))⟩,
      mul_nonneg hb (le_of_lt (mul_pos hc hD))⟩

/-- C15: for a non-degenerate triangle `(T0, T1, T2)`, a normal `n` that is a positive
multiple of `cross(T1-T0, T2-T0)` (in the code `fastNormalize` of that cross product)
and a point `I` in the plane of the triangle, the flag `insideTri` of
`resolveSelfCollision_rays` (`X1 ≥ 0`, `X2 ≥ 0` and `X3 ≥ 0`) is set if and only if `I`
is a convex combination of `T0`, `T1` and `T2`; the swap condition of the pass is that
flag, taken at the crossing point, together with the change of side. -/
theorem insideTri_iff_closed_triangle (T0 T1 T2 I : Vec3)
    (hnd : Vec3.cross (Vec3.sub T1 T0) (Vec3.sub T2 T0) ≠ Vec3.zero)
    (hplane : Vec3.dot (Vec3.sub I T0) (Vec3.cross (Vec3.sub T1 T0) (Vec3.sub T2 T0)) = 0) :
    (∀ c : ℚ, 0 < c →
      (insideTri T0 T1 (Vec3.sub T1 T0) (Vec3.sub T2 T0) (Vec3.sub T2 T1)
          (Vec3.scale (Vec3.cross (Vec3.sub T1 T0) (Vec3.sub T2 T0)) c) I = true ↔
        inClosedTriangle T0 T1 T2 I)) ∧
    (∀ fm : FastMath,
      0 < fm.fastInverseSqrt (Vec3.dot (Vec3.cross (Vec3.sub T1 T0) (Vec3.sub T2 T0))
        (Vec3.cross (Vec3.sub T1 T0) (Vec3.sub T2 T0))) →
      (insideTri T0 T1 (Vec3.sub T1 T0) (Vec3.sub T2 T0) (Vec3.sub T2 T1)
          (fm.fastNormalize (Vec3.cross (Vec3.sub T1 T0) (Vec3.sub T2 T0))) I = true ↔
        inClosedTriangle T0 T1 T2 I)) ∧
    (∀ edge1 edge2 edge3 norm L0 L1 : Vec3,
      rayHits T0 T1 edge1 edge2 edge3 norm L0 L1 =
        (decide (Vec3.dot (Vec3.sub L0 T0) norm * Vec3.dot (Vec3.sub L1 T0) norm < 0) &&
          insideTri T0 T1 edge1 edge2 edge3 norm
            (Vec3.add L0 (Vec3.scale (Vec3.sub L1 L0)
              (-Vec3.dot (Vec3.sub L0 T0) norm /
                (Vec3.dot (Vec3.sub L1 T0) norm - Vec3.dot (Vec3.sub L0 T0) norm)))))) := by
  refine ⟨fun c hc => insideTri_iff_scaled T0 T1 T2 I c hc hnd hplane,
    fun fm hc => insideTri_iff_scaled T0 T1 T2 I _ hc hnd hplane, ?_⟩
  intro edge1 edge2 edge3 norm L0 L1
  rfl

/-- The inside test on the unit right triangle: a point inside it and a point outside it.
-/
theorem insideTri_iff_closed_triangle_witness :
    Vec3.cross (Vec3.sub ⟨1, 0, 0⟩ ⟨0, 0, 0⟩) (Vec3.sub ⟨0, 1, 0⟩ ⟨0, 0, 0⟩) ≠ Vec3.zero ∧
    Vec3.dot (Vec3.sub ⟨1 / 4, 1 / 4, 0⟩ ⟨0, 0, 0⟩)
      (Vec3.cross (Vec3.sub ⟨1, 0, 0⟩ ⟨0, 0, 0⟩) (Vec3.sub ⟨0, 1, 0⟩ ⟨0, 0, 0⟩)) = 0 ∧
    inClosedTriangle ⟨0, 0, 0⟩ ⟨1, 0, 0⟩ ⟨0, 1, 0⟩ ⟨1 / 4, 1 / 4, 0⟩ ∧
    ¬ inClosedTriangle ⟨0, 0, 0⟩ ⟨1, 0, 0⟩ ⟨0, 1, 0⟩ ⟨1, 1, 0⟩ :=
  ⟨by decide!, by decide!,
    ((insideTri_iff_closed_triangle ⟨0, 0, 0⟩ ⟨1, 0, 0⟩ ⟨0, 1, 0⟩ ⟨1 / 4, 1 / 4, 0⟩
      (by decide!) (by decide!)).1 1 (by decide!)).mp (by decide!),
    fun h => absurd
      (((insideTri_iff_closed_triangle ⟨0, 0, 0⟩ ⟨1, 0, 0⟩ ⟨0, 1, 0⟩ ⟨1, 1, 0⟩
        (by decide!) (by decide!)).1 1 (by decide!)).mpr h) (by decide!)⟩

/-! ## Float rounding -/

/-- The rounded value is the floor or the floor plus one, on the side of the fractional
part, and even at a tie. -/
theorem roundHalfEven_bounds (q : ℚ) :
    (roundHalfEven q = Int.floor q ∨ roundHalfEven q = Int.floor q + 1) ∧
    (roundHalfEven q = Int.floor q → q - (Int.floor q : ℚ) ≤ 1 / 2) ∧
    (roundHalfEven q = Int.floor q + 1 → 1 / 2 ≤ q - (Int.floor q : ℚ)) ∧
    (q - (Int.floor q : ℚ) = 1 / 2 → roundHalfEven q % 2 = 0) := by
  unfold roundHalfEven
  by_cases h1 : q - (Int.floor q : ℚ) < 1 / 2
  · rw [if_pos h1]
    refine ⟨Or.inl rfl, fun _ => le_of_lt h1, fun h => ?_, fun h => ?_⟩
    · omega
    · rw [h] at h1
      exact absurd h1 (lt_irrefl _)
  · rw [if_neg h1]
    by_cases h2 : 1 / 2 < q - (Int.floor q : ℚ)
    · rw [if_pos h2]
      refine ⟨Or.inr rfl, fun h => ?_, fun _ => le_of_lt h2, fun h => ?_⟩
      · omega
      · rw [h] at h2
        exact absurd h2 (lt_irrefl _)
    · rw [if_neg h2]
      have he : q - (Int.floor q : ℚ) = 1 / 2 := le_antisymm (not_lt.mp h2) (not_lt.mp h1)
      by_cases h3 : Int.floor q % 2 = 0
      · rw [if_pos h3]
        exact ⟨Or.inl rfl, fun _ => le_of_eq he, fun h => by omega, fun _ => h3⟩
      · rw [if_neg h3]
        exact ⟨Or.inr rfl, fun h => by omega, fun _ => le_of_eq he.symm, fun _ => by omega⟩

/-- An integer rounds to itself. -/
theorem roundHalfEven_int (n : Int) : roundHalfEven (n : ℚ) = n := by
  unfold roundHalfEven
  rw [Int.floor_intCast]
  simp

/-- Rounding to the nearest integer is monotone. -/
theorem roundHalfEven_mono (a b : ℚ) (h : a ≤ b) : roundHalfEven a ≤ roundHalfEven b := by
  obtain ⟨ha, ha0, ha1, hae⟩ := roundHalfEven_bounds a
  obtain ⟨hb, hb0, hb1, hbe⟩ := roundHalfEven_bounds b
  have hfl : Int.floor a ≤ Int.floor b := Int.floor_le_floor h
  by_cases hlt : Int.floor a < Int.floor b
  · rcases ha with e | e <;> rcases hb with e2 | e2 <;> omega
  · have heq : Int.floor a = Int.floor b := by omega
    rcases ha with e | e
    · rcases hb with e2 | e2 <;> omega
    · rcases hb with e2 | e2
      · have h1 := ha1 e
        have h2 := hb0 e2
        rw [heq] at h1
        have hfa : a - (Int.floor b : ℚ) = 1 / 2 := by linarith
        have hfb : b - (Int.floor b : ℚ) = 1 / 2 := by linarith
        rw [← heq] at hfa
        have p1 := hae hfa
        have p2 := hbe hfb
        omega
      · omega

/-- With enough fuel the digit count `k + 1` of a positive `n` satisfies `2^k ≤ n <
2^(k+1)`. -/
theorem bitLenAux_spec (fuel : Nat) :
    ∀ n : Nat, 0 < n → n ≤ fuel →
      ∃ k : Nat, bitLenAux fuel n = k + 1 ∧ 2 ^ k ≤ n ∧ n < 2 ^ (k + 1) := by
  induction fuel with
  | zero => intro n h1 h2; omega
  | succ fuel ih =>
    intro n hn hle
    have hne : n ≠ 0 := by omega
    simp only [bitLenAux, if_neg hne]
    by_cases hhalf : n / 2 = 0
    · refine ⟨0, ?_, ?_, ?_⟩
      · rw [hhalf]
        cases fuel <;> simp [bitLenAux]
      · simp; omega
      · simp; omega
    · obtain ⟨k, hk, hlo, hhi⟩ := ih (n / 2) (by omega) (by omega)
      refine ⟨k + 1, by rw [hk], ?_, ?_⟩
      · rw [pow_succ]; omega
      · rw [pow_succ]; omega

/-- The digit count `k + 1` of a positive `n` satisfies `2^k ≤ n < 2^(k+1)`. -/
theorem bitLen_spec (n : Nat) (hn : 0 < n) :
    ∃ k : Nat, bitLen n = k + 1 ∧ 2 ^ k ≤ n ∧ n < 2 ^ (k + 1) :=
  bitLenAux_spec n n hn (Nat.le_refl n)

/-- Powers of two are positive. -/
theorem two_zpow_pos (e : Int) : (0 : ℚ) < 2 ^ e := zpow_pos (by norm_num) e

/-- The binary exponent brackets its argument: `2^e ≤ a < 2^(e+1)`. -/
theorem floorLog2_spec (a : ℚ) (ha : 0 < a) :
    (2 : ℚ) ^ floorLog2 a ≤ a ∧ a < 2 ^ (floorLog2 a + 1) := by
  have hnum : 0 < a.num := Rat.num_pos.mpr ha
  have hden : 0 < a.den := a.den_pos
  obtain ⟨kn, hkn, hnlo, hnhi⟩ := bitLen_spec a.num.toNat (by omega)
  obtain ⟨kd, hkd, hdlo, hdhi⟩ := bitLen_spec a.den hden
  have hnq : ((a.num.toNat : Nat) : ℚ) = (a.num : ℚ) := by
    have : ((a.num.toNat : Nat) : Int) = a.num := Int.toNat_of_nonneg (le_of_lt hnum)
    exact_mod_cast this
  have haeq : a = ((a.num.toNat : Nat) : ℚ) / (a.den : ℚ) := by
    rw [hnq]
    exact (Rat.num_div_den a).symm
  have hdq : (0 : ℚ) < (a.den : ℚ) := by exact_mod_cast hden
  have hnlo2 : (2 : ℚ) ^ kn ≤ ((a.num.toNat : Nat) : ℚ) := by exact_mod_cast hnlo
  have hnhi2 : ((a.num.toNat : Nat) : ℚ) < (2 : ℚ) ^ (kn + 1) := by exact_mod_cast hnhi
  have hdlo2 : (2 : ℚ) ^ kd ≤ (a.den : ℚ) := by exact_mod_cast hdlo
  have hdhi2 : (a.den : ℚ) < (2 : ℚ) ^ (kd + 1) := by exact_mod_cast hdhi
  have he0 : ((bitLen a.num.toNat : Int) - (bitLen a.den : Int)) = (kn : Int) - (kd : Int) := by
    rw [hkn, hkd]
    push_cast
    ring
  have hz : ∀ (i j : Nat), (2 : ℚ) ^ ((i : Int) - (j : Int)) = (2 : ℚ) ^ i / (2 : ℚ) ^ j := by
    intro i j
    rw [zpow_sub₀ (by norm_num), zpow_natCast, zpow_natCast]
  unfold floorLog2
  rw [he0]
  by_cases hcase : (2 : ℚ) ^ ((kn : Int) - (kd : Int)) ≤ a
  · rw [if_pos hcase]
    refine ⟨hcase, ?_⟩
    have : (kn : Int) - (kd : Int) + 1 = ((kn + 1 : Nat) : Int) - (kd : Int) := by
      push_cast
      ring
    rw [this, hz, haeq, div_lt_div_iff₀ hdq (pow_pos (by norm_num) kd)]
    calc ((a.num.toNat : Nat) : ℚ) * 2 ^ kd ≤ ((a.num.toNat : Nat) : ℚ) * (a.den : ℚ) :=
          mul_le_mul_of_nonneg_left hdlo2 (by positivity)
      _ < 2 ^ (kn + 1) * (a.den : ℚ) := mul_lt_mul_of_pos_right hnhi2 hdq
  · rw [if_neg hcase]
    refine ⟨?_, by rw [sub_add_cancel]; exact lt_of_not_le hcase⟩
    have : (kn : Int) - (kd : Int) - 1 = (kn : Int) - ((kd + 1 : Nat) : Int) := by
      push_cast
      ring
    rw [this, hz, haeq, div_le_div_iff₀ (pow_pos (by norm_num) (kd + 1)) hdq]
    calc (2 : ℚ) ^ kn * (a.den : ℚ) ≤ ((a.num.toNat : Nat) : ℚ) * (a.den : ℚ) :=
          mul_le_mul_of_nonneg_right hnlo2 (le_of_lt hdq)
      _ ≤ ((a.num.toNat : Nat) : ℚ) * 2 ^ (kd + 1) :=
          mul_le_mul_of_nonneg_left (le_of_lt hdhi2) (by positivity)

/-- The binary exponent is monotone. -/
theorem floorLog2_mono (a b : ℚ) (ha : 0 < a) (h : a ≤ b) : floorLog2 a ≤ floorLog2 b := by
  have h1 := (floorLog2_spec a ha).1
  have h2 := (floorLog2_spec b (lt_of_lt_of_le ha h)).2
  have : (2 : ℚ) ^ floorLog2 a < 2 ^ (floorLog2 b + 1) := lt_of_le_of_lt (le_trans h1 h) h2
  have := (zpow_lt_zpow_iff_right₀ (by norm_num : (1 : ℚ) < 2)).mp this
  omega

/-- The exponent of the unit in the last place is monotone. -/
theorem ulpExp_mono (a b : ℚ) (ha : 0 < a) (h : a ≤ b) : ulpExp a ≤ ulpExp b := by
  unfold ulpExp
  have := floorLog2_mono a b ha h
  omega

/-- A positive number rounds to a value that is not negative. -/
theorem roundPos_nonneg (a : ℚ) (ha : 0 < a) : 0 ≤ roundPos a := by
  unfold roundPos
  have hq : (0 : ℚ) ≤ a / 2 ^ ulpExp a := le_of_lt (div_pos ha (two_zpow_pos _))
  have := roundHalfEven_mono 0 _ hq
  have h0 : roundHalfEven (0 : ℚ) = 0 := by
    have := roundHalfEven_int 0
    simpa using this
  rw [h0] at this
  exact mul_nonneg (by exact_mod_cast this) (le_of_lt (two_zpow_pos _))

/-- A positive number rounds to at most the next power of two above its binade. -/
theorem roundPos_le_top (a : ℚ) (ha : 0 < a) : roundPos a ≤ 2 ^ (ulpExp a + 24) := by
  unfold roundPos
  have hu := two_zpow_pos (ulpExp a)
  have hlog : floorLog2 a + 1 ≤ ulpExp a + 24 := by
    unfold ulpExp
    omega
  have hlt : a < 2 ^ (ulpExp a + 24) :=
    lt_of_lt_of_le (floorLog2_spec a ha).2 (zpow_le_zpow_right₀ (by norm_num) hlog)
  have hq : a / 2 ^ ulpExp a ≤ ((2 ^ 24 : Int) : ℚ) := by
    rw [div_le_iff₀ hu]
    have : (((2 : Int) ^ 24 : Int) : ℚ) * 2 ^ ulpExp a = 2 ^ (ulpExp a + 24) := by
      rw [zpow_add₀ (by norm_num)]
      push_cast
      rw [mul_comm]
      norm_num
    rw [this]
    exact le_of_lt hlt
  have := roundHalfEven_mono _ _ hq
  rw [roundHalfEven_int] at this
  have h2 : (roundHalfEven (a / 2 ^ ulpExp a) : ℚ) ≤ ((2 ^ 24 : Int) : ℚ) := by
    exact_mod_cast this
  calc (roundHalfEven (a / 2 ^ ulpExp a) : ℚ) * 2 ^ ulpExp a
      ≤ ((2 ^ 24 : Int) : ℚ) * 2 ^ ulpExp a := mul_le_mul_of_nonneg_right h2 (le_of_lt hu)
    _ = 2 ^ (ulpExp a + 24) := by
      rw [zpow_add₀ (by norm_num)]
      push_cast
      rw [mul_comm]
      norm_num

/-- A normal positive number rounds to at least the power of two at the bottom of its
binade. -/
theorem roundPos_ge_bottom (a : ℚ) (ha : 0 < a) (hn : -126 < floorLog2 a) :
    (2 : ℚ) ^ (ulpExp a + 23) ≤ roundPos a := by
  unfold roundPos
  have hu := two_zpow_pos (ulpExp a)
  have he : ulpExp a + 23 = floorLog2 a := by
    unfold ulpExp
    omega
  have hge : (2 : ℚ) ^ (ulpExp a + 23) ≤ a := by
    rw [he]
    exact (floorLog2_spec a ha).1
  have hq : ((2 ^ 23 : Int) : ℚ) ≤ a / 2 ^ ulpExp a := by
    rw [le_div_iff₀ hu]
    have : (((2 : Int) ^ 23 : Int) : ℚ) * 2 ^ ulpExp a = 2 ^ (ulpExp a + 23) := by
      rw [zpow_add₀ (by norm_num)]
      push_cast
      rw [mul_comm]
      norm_num
    rw [this]
    exact hge
  have := roundHalfEven_mono _ _ hq
  rw [roundHalfEven_int] at this
  have h2 : ((2 ^ 23 : Int) : ℚ) ≤ (roundHalfEven (a / 2 ^ ulpExp a) : ℚ) := by
    exact_mod_cast this
  calc (2 : ℚ) ^ (ulpExp a + 23) = ((2 ^ 23 : Int) : ℚ) * 2 ^ ulpExp a := by
        rw [zpow_add₀ (by norm_num)]
        push_cast
        rw [mul_comm]
        norm_num
    _ ≤ (roundHalfEven (a / 2 ^ ulpExp a) : ℚ) * 2 ^ ulpExp a :=
        mul_le_mul_of_nonneg_right h2 (le_of_lt hu)

/-- The rounding of positive numbers is monotone. -/
theorem roundPos_mono (a b : ℚ) (ha : 0 < a) (h : a ≤ b) : roundPos a ≤ roundPos b := by
  have hb : 0 < b := lt_of_lt_of_le ha h
  have hexp := ulpExp_mono a b ha h
  by_cases heq : ulpExp a = ulpExp b
  · unfold roundPos
    rw [heq]
    have hu := two_zpow_pos (ulpExp b)
    have hq : a / 2 ^ ulpExp b ≤ b / 2 ^ ulpExp b := div_le_div_of_nonneg_right h (le_of_lt hu)
    have := roundHalfEven_mono _ _ hq
    exact mul_le_mul_of_nonneg_right (by exact_mod_cast this) (le_of_lt hu)
  · have hlt : ulpExp a < ulpExp b := lt_of_le_of_ne hexp heq
    have hn : -126 < floorLog2 b := by
      unfold ulpExp at hlt
      omega
    calc roundPos a ≤ 2 ^ (ulpExp a + 24) := roundPos_le_top a ha
      _ ≤ 2 ^ (ulpExp b + 23) := zpow_le_zpow_right₀ (by norm_num) (by omega)
      _ ≤ roundPos b := roundPos_ge_bottom b hb hn

/-- The rounding of binary32 is monotone and exact at zero. -/
theorem round32_isRounding : IsRounding round32 := by
  refine ⟨?_, by simp [round32]⟩
  intro x y h
  show round32 x ≤ round32 y
  unfold round32
  rcases lt_trichotomy x 0 with hx | hx | hx
  · rw [if_neg (ne_of_lt hx), if_neg (not_lt.mpr (le_of_lt hx))]
    have hx2 : 0 < -x := by linarith
    rcases lt_trichotomy y 0 with hy | hy | hy
    · rw [if_neg (ne_of_lt hy), if_neg (not_lt.mpr (le_of_lt hy))]
      have := roundPos_mono (-y) (-x) (by linarith) (by linarith)
      linarith
    · rw [if_pos hy]
      have := roundPos_nonneg (-x) hx2
      linarith
    · rw [if_neg (ne_of_gt hy), if_pos hy]
      have := roundPos_nonneg (-x) hx2
      have := roundPos_nonneg y hy
      linarith
  · rw [if_pos hx]
    rcases lt_or_eq_of_le (hx ▸ h : (0 : ℚ) ≤ y) with hy | hy
    · rw [if_neg (ne_of_gt hy), if_pos hy]
      exact roundPos_nonneg y hy
    · rw [if_pos hy.symm]
  · have hy : 0 < y := lt_of_lt_of_le hx h
    rw [if_neg (ne_of_gt hx), if_pos hx, if_neg (ne_of_gt hy), if_pos hy]
    exact roundPos_mono x y hx h

/-- Exact arithmetic is a rounding. -/
theorem id_isRounding : IsRounding id := ⟨fun _ _ h => h, rfl⟩

/-! ## Integration in float arithmetic -/

/-- A rounding keeps a value that is not positive not positive. -/
theorem rounding_nonpos (rnd : ℚ → ℚ) (hr : IsRounding rnd) (x : ℚ) (hx : x ≤ 0) :
    rnd x ≤ 0 := by
  have := hr.1 hx
  rw [hr.2] at this
  exact this

/-- A rounding keeps a value that is not negative not negative. -/
theorem rounding_nonneg (rnd : ℚ → ℚ) (hr : IsRounding rnd) (x : ℚ) (hx : 0 ≤ x) :
    0 ≤ rnd x := by
  have := hr.1 hx
  rw [hr.2] at this
  exact this

/-- The rounded gravity term `fl(fl(fl(invMass * -1) * dt) * dt)` is not positive. -/
theorem gravity_term_nonpos (rnd : ℚ → ℚ) (hr : IsRounding rnd) (m dt : ℚ) (hm : 0 ≤ m) :
    rnd (rnd (rnd (m * -1) * dt) * dt) ≤ 0 := by
  have ha : rnd (m * -1) ≤ 0 := rounding_nonpos rnd hr _ (by linarith)
  apply rounding_nonpos rnd hr
  rcases le_total 0 dt with hdt | hdt
  · have hb : rnd (rnd (m * -1) * dt) ≤ 0 :=
      rounding_nonpos rnd hr _ (mul_nonpos_of_nonpos_of_nonneg ha hdt)
    exact mul_nonpos_of_nonpos_of_nonneg hb hdt
  · have hb : 0 ≤ rnd (rnd (m * -1) * dt) :=
      rounding_nonneg rnd hr _ (mul_nonneg_of_nonpos_of_nonpos ha hdt)
    exact mul_nonpos_of_nonneg_of_nonpos hb hdt

/-- C9 as stated fails in float arithmetic: for the point at rest at `(1, 2, 3)` with
inverse mass `1` and the time step `dt = 2^-13` (all of them binary32 values) the gravity
term `2^-26` is less than half a unit in the last place of `2`, the sum rounds back to
`2`, and the point stays where it was: `y` is not strictly smaller and the new position
is not `2*pos - prevPos + invMass*(0,-1,0)*dt^2`.  The same happens at `y = 100` with the
float nearest to one millisecond. -/
theorem integrate_float_absorbs :
    round32 (1 / 8192) = 1 / 8192 ∧ Storable round32 ⟨1, 2, 3⟩ ∧
    (integrateFloat round32 (1 / 8192) ⟨⟨1, 2, 3⟩, ⟨1, 2, 3⟩, 1⟩).m_pos = ⟨1, 2, 3⟩ ∧
    (2 * 2 - 2 + 1 * (-1) * (1 / 8192) ^ 2 : ℚ) < 2 ∧
    Storable round32 ⟨0, 100, 0⟩ ∧
    (integrateFloat round32 (round32 (1 / 1000)) ⟨⟨0, 100, 0⟩, ⟨0, 100, 0⟩, 1⟩).m_pos
      = ⟨0, 100, 0⟩ := by
  refine ⟨by decide!, by decide!, by decide!, by norm_num, by decide!, by decide!⟩

/-- C9, amended: the integration step of `update` in float arithmetic sends a point
`(pos, prevPos, invMass)` to `prevPos' = pos` and to
`pos' = fl(fl(fl(pos*2) - prevPos) + fl(fl(fl(invMass*gravity)*dt)*dt))`, every operation
rounded, with the inverse mass unchanged; where no operation rounds this is
`2*pos - prevPos + invMass*(0,-1,0)*dt^2`, and `y` then strictly decreases for a point at
rest with positive inverse mass and `dt ≠ 0`.  For every monotone rounding that is exact
at zero, a point at rest whose coordinates are floats keeps `x` and `z` and gets a `y`
that is smaller or equal when its inverse mass is positive, and stays exactly where it
was when its inverse mass is `0`. -/
theorem integrateFloat_spec (rnd : ℚ → ℚ) (hr : IsRounding rnd) (dt : ℚ) (point : Point) :
    (integrateFloat rnd dt point).m_prevPos = point.m_pos ∧
    (integrateFloat rnd dt point).m_pos =
      ⟨rnd (rnd (rnd (point.m_pos.x * 2) - point.m_prevPos.x) +
          rnd (rnd (rnd (point.m_invMass * 0) * dt) * dt)),
       rnd (rnd (rnd (point.m_pos.y * 2) - point.m_prevPos.y) +
          rnd (rnd (rnd (point.m_invMass * -1) * dt) * dt)),
       rnd (rnd (rnd (point.m_pos.z * 2) - point.m_prevPos.z) +
          rnd (rnd (rnd (point.m_invMass * 0) * dt) * dt))⟩ ∧
    (integrateFloat rnd dt point).m_invMass = point.m_invMass ∧
    ((integrateFloat id dt point).m_pos =
        ⟨2 * point.m_pos.x - point.m_prevPos.x + point.m_invMass * 0 * dt ^ 2,
         2 * point.m_pos.y - point.m_prevPos.y + point.m_invMass * (-1) * dt ^ 2,
         2 * point.m_pos.z - point.m_prevPos.z + point.m_invMass * 0 * dt ^ 2⟩ ∧
      integrateFloat id dt point = integrate dt point ∧
      (point.m_pos = point.m_prevPos → 0 < point.m_invMass → dt ≠ 0 →
        (integrateFloat id dt point).m_pos.y < point.m_pos.y)) ∧
    (point.m_pos = point.m_prevPos → Storable rnd point.m_pos → 0 < point.m_invMass →
      dt ≠ 0 →
      (integrateFloat rnd dt point).m_pos.y ≤ point.m_pos.y ∧
      (integrateFloat rnd dt point).m_pos.x = point.m_pos.x ∧
      (integrateFloat rnd dt point).m_pos.z = point.m_pos.z) ∧
    (point.m_pos = point.m_prevPos → Storable rnd point.m_pos → point.m_invMass = 0 →
      (integrateFloat rnd dt point).m_pos = point.m_pos ∧
      (integrateFloat rnd dt point).m_prevPos = point.m_prevPos) := by
  obtain ⟨pos, prev, m⟩ := point
  obtain ⟨x, y, z⟩ := pos
  obtain ⟨px, py, pz⟩ := prev
  have h0 : rnd 0 = 0 := hr.2
  have hstill : ∀ v : ℚ, rnd v = v → rnd (v * 2) = v * 2 →
      rnd (rnd (rnd (v * 2) - v) + rnd (rnd (rnd (m * 0) * dt) * dt)) = v := by
    intro v h1 h2
    rw [h2, mul_zero, h0, zero_mul, h0, zero_mul, h0, add_zero]
    have : v * 2 - v = v := by ring
    rw [this, h1, h1]
  have hfall : ∀ v : ℚ, rnd v = v → rnd (v * 2) = v * 2 → 0 ≤ m →
      rnd (rnd (rnd (v * 2) - v) + rnd (rnd (rnd (m * -1) * dt) * dt)) ≤ v := by
    intro v h1 h2 hm
    have ht := gravity_term_nonpos rnd hr m dt hm
    have : v * 2 - v = v := by ring
    rw [h2, this, h1]
    calc rnd (v + rnd (rnd (rnd (m * -1) * dt) * dt)) ≤ rnd v := hr.1 (by linarith)
      _ = v := h1
  refine ⟨rfl, ?_, rfl, ⟨?_, ?_, ?_⟩, ?_, ?_⟩
  · simp only [integrateFloat, Vec3.round, Vec3.add, Vec3.sub, Vec3.scale, Vec3.smul, gravity]
  · simp only [integrateFloat, Vec3.round, Vec3.add, Vec3.sub, Vec3.scale, Vec3.smul, gravity,
      id, Vec3.mk.injEq]
    refine ⟨by ring, by ring, by ring⟩
  · rfl
  · intro hrest hmass hdt
    simp only [Vec3.mk.injEq] at hrest
    obtain ⟨rfl, rfl, rfl⟩ := hrest
    simp only [integrateFloat, Vec3.round, Vec3.add, Vec3.sub, Vec3.scale, Vec3.smul, gravity,
      id]
    have hsq : 0 < dt * dt := mul_self_pos.mpr hdt
    have hpos : 0 < m * (dt * dt) := mul_pos hmass hsq
    nlinarith
  · intro hrest hst hmass _
    simp only [Vec3.mk.injEq] at hrest
    obtain ⟨rfl, rfl, rfl⟩ := hrest
    simp only [Storable, Vec3.round, Vec3.scale, Vec3.mk.injEq] at hst
    obtain ⟨⟨sx, sy, sz⟩, ⟨dx, dy, dz⟩⟩ := hst
    simp only [integrateFloat, Vec3.round, Vec3.add, Vec3.sub, Vec3.scale, Vec3.smul, gravity]
    exact ⟨hfall y sy dy (le_of_lt hmass), hstill x sx dx, hstill z sz dz⟩
  · intro hrest hst hmass
    simp only [Vec3.mk.injEq] at hrest
    obtain ⟨rfl, rfl, rfl⟩ := hrest
    simp only at hmass
    subst hmass
    simp only [Storable, Vec3.round, Vec3.scale, Vec3.mk.injEq] at hst
    obtain ⟨⟨sx, sy, sz⟩, ⟨dx, dy, dz⟩⟩ := hst
    refine ⟨?_, rfl⟩
    simp only [integrateFloat, Vec3.round, Vec3.add, Vec3.sub, Vec3.scale, Vec3.smul, gravity,
      Vec3.mk.injEq]
    have hy : rnd (rnd (rnd (y * 2) - y) + rnd (rnd (rnd (0 * -1) * dt) * dt)) = y := by
      have := hstill y sy dy
      rw [mul_zero] at this
      rw [zero_mul]
      exact this
    exact ⟨hstill x sx dx, hy, hstill z sz dz⟩

/-- Witness of C9 in binary32: a free point at rest with time step `1/2` falls from
`y = 2` to `7/4`, a pinned point at rest stays. -/
theorem integrateFloat_spec_witness :
    IsRounding round32 ∧
    ((integrateFloat round32 (1 / 2) ⟨⟨1, 2, 3⟩, ⟨1, 2, 3⟩, 1⟩).m_pos.y ≤ 2 ∧
      (integrateFloat round32 (1 / 2) ⟨⟨1, 2, 3⟩, ⟨1, 2, 3⟩, 1⟩).m_pos.x = 1 ∧
      (integrateFloat round32 (1 / 2) ⟨⟨1, 2, 3⟩, ⟨1, 2, 3⟩, 1⟩).m_pos.z = 3) ∧
    ((integrateFloat round32 (1 / 2) ⟨⟨1, 2, 3⟩, ⟨1, 2, 3⟩, 0⟩).m_pos = ⟨1, 2, 3⟩ ∧
      (integrateFloat round32 (1 / 2) ⟨⟨1, 2, 3⟩, ⟨1, 2, 3⟩, 0⟩).m_prevPos = ⟨1, 2, 3⟩) ∧
    (integrateFloat round32 (1 / 2) ⟨⟨1, 2, 3⟩, ⟨1, 2, 3⟩, 1⟩).m_pos = ⟨1, 7 / 4, 3⟩ :=
  ⟨round32_isRounding,
   (integrateFloat_spec round32 round32_isRounding (1 / 2)
      ⟨⟨1, 2, 3⟩, ⟨1, 2, 3⟩, 1⟩).2.2.2.2.1 rfl (by decide!) (by norm_num) (by norm_num),
   (integrateFloat_spec round32 round32_isRounding (1 / 2)
      ⟨⟨1, 2, 3⟩, ⟨1, 2, 3⟩, 0⟩).2.2.2.2.2 rfl (by decide!) rfl,
   by decide!⟩

/-! ## The grid in float arithmetic -/

/-- A cell returned by `calcCellFloat` is the floor of the rounded quotients, for a cell
size other than zero, and fits `int`. -/
theorem calcCellFloat_some (rnd : ℚ → ℚ) (len : ℚ) (p : Vec3) (c : IVec3)
    (h : calcCellFloat rnd len p = some c) :
    len ≠ 0 ∧ c = ⟨Int.floor (rnd (p.x / len)), Int.floor (rnd (p.y / len)),
      Int.floor (rnd (p.z / len))⟩ ∧ inInt32 c.x ∧ inInt32 c.y ∧ inInt32 c.z := by
  unfold calcCellFloat at h
  by_cases hlen : len = 0
  · rw [if_pos hlen] at h
    cases h
  · rw [if_neg hlen] at h
    split at h
    · rename_i hr
      cases h
      exact ⟨hlen, rfl, hr⟩
    · cases h

/-- The float `calcCell` is defined where the cell indices fit `int`. -/
theorem calcCellFloat_total (rnd : ℚ → ℚ) (len : ℚ) (p : Vec3) (hlen : len ≠ 0)
    (hp : CellOk rnd len p) :
    ∃ c : IVec3, calcCellFloat rnd len p = some c ∧
      c.x < 2 ^ 31 - 1 ∧ c.y < 2 ^ 31 - 1 ∧ c.z < 2 ^ 31 - 1 := by
  obtain ⟨⟨x1, x2⟩, ⟨y1, y2⟩, ⟨z1, z2⟩⟩ := hp
  refine ⟨⟨Int.floor (rnd (p.x / len)), Int.floor (rnd (p.y / len)),
    Int.floor (rnd (p.z / len))⟩, ?_, x2, y2, z2⟩
  unfold calcCellFloat
  rw [if_neg hlen, if_pos]
  unfold inInt32
  refine ⟨⟨x1, by omega⟩, ⟨y1, by omega⟩, ⟨z1, by omega⟩⟩

/-- With a monotone rounding and a positive cell size the float `calcCell` is monotone in
every component. -/
theorem calcCellFloat_mono (rnd : ℚ → ℚ) (hr : Monotone rnd) (len : ℚ) (p q : Vec3)
    (cp cq : IVec3) (hlen : 0 < len)
    (hp : calcCellFloat rnd len p = some cp) (hq : calcCellFloat rnd len q = some cq) :
    (p.x ≤ q.x → cp.x ≤ cq.x) ∧ (p.y ≤ q.y → cp.y ≤ cq.y) ∧ (p.z ≤ q.z → cp.z ≤ cq.z) := by
  obtain ⟨_, rfl, _⟩ := calcCellFloat_some rnd len p cp hp
  obtain ⟨_, rfl, _⟩ := calcCellFloat_some rnd len q cq hq
  exact ⟨fun h => Int.floor_le_floor (hr (div_le_div_of_nonneg_right h (le_of_lt hlen))),
    fun h => Int.floor_le_floor (hr (div_le_div_of_nonneg_right h (le_of_lt hlen))),
    fun h => Int.floor_le_floor (hr (div_le_div_of_nonneg_right h (le_of_lt hlen)))⟩

/-- The float `calcCell` is the floor of the rounded quotient. -/
theorem calcCellFloat_floor (rnd : ℚ → ℚ) (len : ℚ) (p : Vec3) (c : IVec3)
    (h : calcCellFloat rnd len p = some c) :
    ((c.x : ℚ) ≤ rnd (p.x / len) ∧ rnd (p.x / len) < (c.x : ℚ) + 1) ∧
    ((c.y : ℚ) ≤ rnd (p.y / len) ∧ rnd (p.y / len) < (c.y : ℚ) + 1) ∧
    ((c.z : ℚ) ≤ rnd (p.z / len) ∧ rnd (p.z / len) < (c.z : ℚ) + 1) := by
  obtain ⟨_, rfl, _⟩ := calcCellFloat_some rnd len p c h
  exact ⟨⟨Int.floor_le _, Int.lt_floor_add_one _⟩, ⟨Int.floor_le _, Int.lt_floor_add_one _⟩,
    ⟨Int.floor_le _, Int.lt_floor_add_one _⟩⟩

/-- Where the quotient is not rounded, its floor `c` satisfies `c*len ≤ v < (c+1)*len`. -/
theorem bracket_of_exact (len v r : ℚ) (c : Int) (hlen : 0 < len) (hex : r = v / len)
    (h1 : (c : ℚ) ≤ r) (h2 : r < (c : ℚ) + 1) :
    (c : ℚ) * len ≤ v ∧ v < ((c : ℚ) + 1) * len := by
  subst hex
  exact ⟨(le_div_iff₀ hlen).mp h1, (div_lt_iff₀ hlen).mp h2⟩

/-- Whatever the float `hashPoint` returns is below the table size. -/
theorem hashPointFloat_some_lt (rnd : ℚ → ℚ) (len : ℚ) (m : Nat) (p : Vec3) (h : Nat)
    (hh : hashPointFloat rnd len m p = some h) : h < m := by
  unfold hashPointFloat at hh
  cases hc : calcCellFloat rnd len p with
  | none => rw [hc] at hh; cases hh
  | some c =>
    rw [hc] at hh
    exact posMod_some_lt _ _ _ hh

/-- The float `hashPoint` is defined where the cell indices fit `int`, for a cell size
other than zero and at least one bucket. -/
theorem hashPointFloat_total (rnd : ℚ → ℚ) (len : ℚ) (m : Nat) (p : Vec3) (hlen : len ≠ 0)
    (hm : 1 ≤ m) (hp : CellOk rnd len p) :
    ∃ h, hashPointFloat rnd len m p = some h ∧ h < m := by
  obtain ⟨c, hc, _⟩ := calcCellFloat_total rnd len p hlen hp
  obtain ⟨h, hh, hlt⟩ := posMod_lt (cellKey c) m hm
  refine ⟨h, ?_, hlt⟩
  unfold hashPointFloat
  rw [hc]
  exact hh

/-- The loop of the float `hashVerts` after `k` vertices: every bucket has received, in
order, the vertices below `k` that hash to it. -/
theorem hashVertsFloat_fold (rnd : ℚ → ℚ) (len : ℚ) (points : List Point)
    (T0 : List (List Nat)) (k : Nat) :
    ∀ Tk : List (List Nat),
      (List.range k).foldlM (hashVertStepFloat rnd len points) T0 = some Tk →
      Tk.length = T0.length ∧
      (∀ i : Nat, i < k → ∃ (p : Point) (h : Nat), points[i]? = some p ∧
        hashPointFloat rnd len T0.length p.m_pos = some h) ∧
      ∀ (h : Nat) (bucket : List Nat), T0[h]? = some bucket →
        Tk[h]? = some (bucket ++ (List.range k).filter (fun i =>
          decide ((points[i]?).bind (fun p => hashPointFloat rnd len T0.length p.m_pos)
            = some h))) := by
  induction k with
  | zero =>
    intro Tk h
    simp only [List.range_zero, List.foldlM_nil] at h
    cases h
    refine ⟨rfl, fun i hi => absurd hi (Nat.not_lt_zero i), fun h bucket hb => ?_⟩
    simp [hb]
  | succ k ih =>
    intro Tk h
    rw [List.range_succ, List.foldlM_append] at h
    cases hT : (List.range k).foldlM (hashVertStepFloat rnd len points) T0 with
    | none => rw [hT] at h; cases h
    | some T =>
      rw [hT] at h
      obtain ⟨hlen, hdef, hget⟩ := ih T hT
      simp only [List.foldlM_cons, List.foldlM_nil, Option.pure_def, Option.bind_eq_bind,
        Option.bind_some, Option.some_bind] at h
      unfold hashVertStepFloat at h
      cases hp : points[k]? with
      | none => rw [hp] at h; cases h
      | some pt =>
        rw [hp] at h
        simp only at h
        cases hh : hashPointFloat rnd len T.length pt.m_pos with
        | none => rw [hh] at h; cases h
        | some hk =>
          rw [hh] at h
          simp only [Option.some.injEq] at h
          subst h
          have hklt : hk < T.length := hashPointFloat_some_lt _ _ _ _ _ hh
          rw [hlen] at hh
          refine ⟨by rw [length_pushAt, hlen], ?_, ?_⟩
          · intro i hi
            by_cases hik : i < k
            · exact hdef i hik
            · have : i = k := by omega
              subst this
              exact ⟨pt, hk, hp, hh⟩
          · intro h bucket hb
            rw [pushAt_get T hk k h hklt, List.range_succ, List.filter_append]
            by_cases hhk : h = hk
            · subst hhk
              rw [if_pos rfl, hget h bucket hb]
              simp [hp, hh]
            · rw [if_neg hhk, hget h bucket hb]
              have : ¬ (hk = h) := fun e => hhk e.symm
              simp [hp, hh, this]

/-- The result of the float `hashVerts`: only the table changes, and every vertex is in
the bucket of its hash. -/
theorem hashVertsFloat_spec (rnd : ℚ → ℚ) (s s2 : Mesh) (h : hashVertsFloat rnd s = some s2) :
    s2 = { s with m_hashTable := s2.m_hashTable } ∧
    s2.m_hashTable.length = s.m_hashTable.length ∧
    (∀ (i : Nat) (P : Point), s.m_points[i]? = some P → ∃ hsh : Nat,
      hashPointFloat rnd s.m_avgEdgeLength s.m_hashTable.length P.m_pos = some hsh ∧
      ∃ bucket : List Nat, s2.m_hashTable[hsh]? = some bucket ∧ i ∈ bucket) := by
  unfold hashVertsFloat at h
  by_cases hbig : maxUShort < s.m_points.length
  · rw [if_pos hbig] at h
    cases h
  · rw [if_neg hbig] at h
    simp only at h
    cases hfold : (List.range s.m_points.length).foldlM
        (hashVertStepFloat rnd s.m_avgEdgeLength s.m_points)
        (s.m_hashTable.map (fun _ => ([] : List Nat))) with
    | none => rw [hfold] at h; cases h
    | some T =>
      rw [hfold] at h
      simp only [Option.some.injEq] at h
      subst h
      obtain ⟨hlen, hdef, hget⟩ := hashVertsFloat_fold _ _ _ _ _ T hfold
      rw [List.length_map] at hlen hdef hget
      refine ⟨rfl, hlen, ?_⟩
      intro i P hP
      have hi : i < s.m_points.length := (List.getElem?_eq_some_iff.mp hP).1
      obtain ⟨p, hsh, hp, hh⟩ := hdef i hi
      rw [hP] at hp
      cases hp
      have hlt : hsh < s.m_hashTable.length := hashPointFloat_some_lt _ _ _ _ _ hh
      refine ⟨hsh, hh, _, hget hsh [] (by
        rw [List.getElem?_map, List.getElem?_eq_getElem hlt]
        rfl), ?_⟩
      rw [List.nil_append, List.mem_filter]
      exact ⟨List.mem_range.mpr hi, by simp [hP, hh]⟩

/-- The float `hashVerts` returns for at most 65535 points, at least one bucket, a cell
size other than zero and cell indices that fit `int`. -/
theorem hashVertsFloat_returns (rnd : ℚ → ℚ) (s : Mesh) (hn : s.m_points.length ≤ maxUShort)
    (hm : 1 ≤ s.m_hashTable.length) (havg : s.m_avgEdgeLength ≠ 0)
    (hok : ∀ P ∈ s.m_points, CellOk rnd s.m_avgEdgeLength P.m_pos) :
    ∃ s2, hashVertsFloat rnd s = some s2 := by
  obtain ⟨T, hT, _⟩ := foldlM_total (hashVertStepFloat rnd s.m_avgEdgeLength s.m_points)
    (fun T => T.length = s.m_hashTable.length) (List.range s.m_points.length)
    (fun T i hi hP => by
      have hi2 := List.mem_range.mp hi
      have hP2 : T.length = s.m_hashTable.length := hP
      obtain ⟨h, hh, _⟩ := hashPointFloat_total rnd s.m_avgEdgeLength T.length
        (s.m_points[i]).m_pos havg (by omega) (hok _ (List.getElem_mem hi2))
      refine ⟨pushAt T h i, ?_, ?_⟩
      · unfold hashVertStepFloat
        rw [List.getElem?_eq_getElem hi2]
        simp only [hh]
      · show (pushAt T h i).length = s.m_hashTable.length
        rw [length_pushAt]
        exact hP)
    (s.m_hashTable.map (fun _ => ([] : List Nat))) (List.length_map _ _)
  refine ⟨{ s with m_hashTable := T }, ?_⟩
  unfold hashVertsFloat
  rw [if_neg (Nat.not_lt.mpr hn)]
  simp only [hT]

/-- The loop of the float `hashTris` after `k` triangles: the lists below `k` have
received the hashes of their triangle, the others are untouched. -/
theorem hashTrisFloat_fold (rnd : ℚ → ℚ) (s : Mesh) (T0 : List (List Nat)) (k : Nat) :
    ∀ Tk : List (List Nat), (List.range k).foldlM (hashTriStepFloat rnd s) T0 = some Tk →
      Tk.length = T0.length ∧
      (∀ t : Nat, t < k → ∃ (hs old : List Nat), triangleHashesFloat rnd s t = some hs ∧
        T0[t]? = some old ∧ Tk[t]? = some (old ++ hs)) ∧
      ∀ t : Nat, k ≤ t → Tk[t]? = T0[t]? := by
  induction k with
  | zero =>
    intro Tk h
    simp only [List.range_zero, List.foldlM_nil] at h
    cases h
    exact ⟨rfl, fun t ht => absurd ht (Nat.not_lt_zero t), fun t _ => rfl⟩
  | succ k ih =>
    intro Tk h
    rw [List.range_succ, List.foldlM_append] at h
    cases hT : (List.range k).foldlM (hashTriStepFloat rnd s) T0 with
    | none => rw [hT] at h; cases h
    | some T =>
      rw [hT] at h
      obtain ⟨hlen, hdone, hrest⟩ := ih T hT
      simp only [List.foldlM_cons, List.foldlM_nil, Option.pure_def, Option.bind_eq_bind,
        Option.bind_some, Option.some_bind] at h
      unfold hashTriStepFloat at h
      cases hhs : triangleHashesFloat rnd s k with
      | none => rw [hhs] at h; cases h
      | some hs =>
        rw [hhs] at h
        simp only at h
        cases hold : T[k]? with
        | none => rw [hold] at h; cases h
        | some old =>
          rw [hold] at h
          simp only [Option.some.injEq] at h
          subst h
          have hk : k < T.length := (List.getElem?_eq_some_iff.mp hold).1
          refine ⟨by rw [List.length_set, hlen], ?_, ?_⟩
          · intro t ht
            by_cases htk : t < k
            · obtain ⟨hs2, old2, h1, h2, h3⟩ := hdone t htk
              refine ⟨hs2, old2, h1, h2, ?_⟩
              rw [List.getElem?_set_ne (by omega)]
              exact h3
            · have : t = k := by omega
              subst this
              refine ⟨hs, old, hhs, ?_, ?_⟩
              · rw [← hrest t (Nat.le_refl t)]
                exact hold
              · rw [List.getElem?_set_self hk]
          · intro t ht
            rw [List.getElem?_set_ne (by omega)]
            exact hrest t (by omega)

/-- The hashes appended for a triangle are `hashCell` of the cells of its bounding box, in
loop order. -/
theorem triangleHashesFloat_spec (rnd : ℚ → ℚ) (s : Mesh) (t : Nat) (hs : List Nat)
    (h : triangleHashesFloat rnd s t = some hs) :
    ∃ (p1 p2 p3 : Point) (lo hi : IVec3), trianglePoints s t = some (p1, p2, p3) ∧
      calcCellFloat rnd s.m_avgEdgeLength (Vec3.min (Vec3.min p1.m_pos p2.m_pos) p3.m_pos)
        = some lo ∧
      calcCellFloat rnd s.m_avgEdgeLength (Vec3.max (Vec3.max p1.m_pos p2.m_pos) p3.m_pos)
        = some hi ∧
      hs.map some = (boxCells lo hi).map (hashCell s.m_hashTable.length) := by
  unfold triangleHashesFloat at h
  cases htp : trianglePoints s t with
  | none => rw [htp] at h; cases h
  | some tri =>
    obtain ⟨p1, p2, p3⟩ := tri
    rw [htp] at h
    simp only at h
    cases hlo : calcCellFloat rnd s.m_avgEdgeLength
        (Vec3.min (Vec3.min p1.m_pos p2.m_pos) p3.m_pos) with
    | none => rw [hlo] at h; cases h
    | some lo =>
      cases hhi : calcCellFloat rnd s.m_avgEdgeLength
          (Vec3.max (Vec3.max p1.m_pos p2.m_pos) p3.m_pos) with
      | none => rw [hlo, hhi] at h; cases h
      | some hi =>
        rw [hlo, hhi] at h
        simp only at h
        split at h
        · exact ⟨p1, p2, p3, lo, hi, rfl, hlo, hhi, mapM_some _ _ _ h⟩
        · cases h

/-- The smaller of two coordinates with cell indices in range has its cell index in range.
-/
theorem coordOk_min (rnd : ℚ → ℚ) (len a b : ℚ) (ha : coordOk rnd len a)
    (hb : coordOk rnd len b) : coordOk rnd len (min a b) := by
  rcases min_choice a b with h | h <;> rw [h] <;> assumption

/-- The larger of two coordinates with cell indices in range has its cell index in range.
-/
theorem coordOk_max (rnd : ℚ → ℚ) (len a b : ℚ) (ha : coordOk rnd len a)
    (hb : coordOk rnd len b) : coordOk rnd len (max a b) := by
  rcases max_choice a b with h | h <;> rw [h] <;> assumption

/-- The component-wise minimum of two positions with cell indices in range has them in
range. -/
theorem cellOk_min (rnd : ℚ → ℚ) (len : ℚ) (a b : Vec3) (ha : CellOk rnd len a)
    (hb : CellOk rnd len b) : CellOk rnd len (Vec3.min a b) :=
  ⟨coordOk_min rnd len _ _ ha.1 hb.1, coordOk_min rnd len _ _ ha.2.1 hb.2.1,
    coordOk_min rnd len _ _ ha.2.2 hb.2.2⟩

/-- The component-wise maximum of two positions with cell indices in range has them in
range. -/
theorem cellOk_max (rnd : ℚ → ℚ) (len : ℚ) (a b : Vec3) (ha : CellOk rnd len a)
    (hb : CellOk rnd len b) : CellOk rnd len (Vec3.max a b) :=
  ⟨coordOk_max rnd len _ _ ha.1 hb.1, coordOk_max rnd len _ _ ha.2.1 hb.2.1,
    coordOk_max rnd len _ _ ha.2.2 hb.2.2⟩

/-- The hashes of a triangle are defined in float arithmetic when its indices are in
range, the cell size is not zero, there is a bucket and the cell indices fit `int`. -/
theorem triangleHashesFloat_total (rnd : ℚ → ℚ) (s : Mesh) (t : Nat)
    (hidx : t * 3 + 2 < s.m_indices.length)
    (hpts : ∀ i ∈ s.m_indices, i < s.m_points.length) (havg : s.m_avgEdgeLength ≠ 0)
    (hm : 1 ≤ s.m_hashTable.length)
    (hok : ∀ P ∈ s.m_points, CellOk rnd s.m_avgEdgeLength P.m_pos) :
    ∃ hs, triangleHashesFloat rnd s t = some hs := by
  obtain ⟨⟨p1, p2, p3⟩, htp⟩ := trianglePoints_total s t hidx hpts
  obtain ⟨i1, i2, i3, _, _, _, q1, q2, q3⟩ := trianglePoints_spec s t p1 p2 p3 htp
  have o1 := hok p1 (List.getElem?_mem q1)
  have o2 := hok p2 (List.getElem?_mem q2)
  have o3 := hok p3 (List.getElem?_mem q3)
  obtain ⟨lo, hlo, _⟩ := calcCellFloat_total rnd s.m_avgEdgeLength _ havg
    (cellOk_min rnd _ _ _ (cellOk_min rnd _ _ _ o1 o2) o3)
  obtain ⟨hi, hhi, b1, b2, b3⟩ := calcCellFloat_total rnd s.m_avgEdgeLength _ havg
    (cellOk_max rnd _ _ _ (cellOk_max rnd _ _ _ o1 o2) o3)
  unfold triangleHashesFloat
  rw [htp]
  simp only [hlo, hhi]
  rw [if_pos ⟨b1, b2, b3⟩]
  exact mapM_total _ _ (fun c _ => by
    obtain ⟨h, hh, _⟩ := posMod_lt (cellKey c) s.m_hashTable.length hm
    exact ⟨h, hh⟩)

/-- The result of the float `hashTris`: only the lists change, and list `t` holds the
hashes of triangle `t`. -/
theorem hashTrisFloat_spec (rnd : ℚ → ℚ) (s s2 : Mesh) (h : hashTrisFloat rnd s = some s2) :
    s2 = { s with m_triangleVertHash := s2.m_triangleVertHash } ∧
    s2.m_triangleVertHash.length = s.m_triangleVertHash.length ∧
    ∀ t : Nat, t < s.m_triangleVertHash.length → ∃ hs : List Nat,
      triangleHashesFloat rnd s t = some hs ∧ s2.m_triangleVertHash[t]? = some hs := by
  unfold hashTrisFloat at h
  simp only at h
  cases hfold : (List.range s.m_triangleVertHash.length).foldlM (hashTriStepFloat rnd s)
      (s.m_triangleVertHash.map (fun _ => ([] : List Nat))) with
  | none => rw [hfold] at h; cases h
  | some T =>
    rw [hfold] at h
    simp only [Option.some.injEq] at h
    subst h
    obtain ⟨hlen, hdone, _⟩ := hashTrisFloat_fold _ _ _ _ T hfold
    rw [List.length_map] at hlen
    refine ⟨rfl, hlen, ?_⟩
    intro t ht
    obtain ⟨hs, old, h1, h2, h3⟩ := hdone t ht
    rw [List.getElem?_map, List.getElem?_eq_getElem ht] at h2
    cases h2
    exact ⟨hs, h1, h3⟩

/-- The float `hashTris` returns when the indices are in range, the cell size is not zero,
there is a bucket and the cell indices fit `int`. -/
theorem hashTrisFloat_returns (rnd : ℚ → ℚ) (s : Mesh)
    (hidx : s.m_triangleVertHash.length * 3 ≤ s.m_indices.length)
    (hpts : ∀ i ∈ s.m_indices, i < s.m_points.length) (havg : s.m_avgEdgeLength ≠ 0)
    (hm : 1 ≤ s.m_hashTable.length)
    (hok : ∀ P ∈ s.m_points, CellOk rnd s.m_avgEdgeLength P.m_pos) :
    ∃ s2, hashTrisFloat rnd s = some s2 := by
  obtain ⟨T, hT, _⟩ := foldlM_total (hashTriStepFloat rnd s)
    (fun T => T.length = s.m_triangleVertHash.length)
    (List.range s.m_triangleVertHash.length)
    (fun T t ht hP => by
      have ht2 := List.mem_range.mp ht
      have hP2 : T.length = s.m_triangleVertHash.length := hP
      obtain ⟨hs, hhs⟩ := triangleHashesFloat_total rnd s t (by omega) hpts havg hm hok
      refine ⟨T.set t (T[t] ++ hs), ?_, ?_⟩
      · unfold hashTriStepFloat
        rw [hhs]
        simp only
        rw [List.getElem?_eq_getElem (by omega)]
      · show (T.set t (T[t] ++ hs)).length = s.m_triangleVertHash.length
        rw [List.length_set]
        exact hP)
    (s.m_triangleVertHash.map (fun _ => ([] : List Nat))) (List.length_map _ _)
  refine ⟨{ s with m_triangleVertHash := T }, ?_⟩
  unfold hashTrisFloat
  simp only [hT]

/-- After both float rebuilds, a vertex in the bounding box of triangle `t` is held by a
bucket listed for `t`. -/
theorem coveredFloat (rnd : ℚ → ℚ) (hr : Monotone rnd) (s s1 s2 : Mesh)
    (havg : 0 < s.m_avgEdgeLength)
    (hv : hashVertsFloat rnd s = some s1) (ht : hashTrisFloat rnd s1 = some s2) (t : Nat)
    (htlt : t < s.m_triangleVertHash.length) :
    ∃ (i1 i2 i3 : Nat) (p1 p2 p3 : Point), s.m_indices[t * 3]? = some i1 ∧
      s.m_indices[t * 3 + 1]? = some i2 ∧ s.m_indices[t * 3 + 2]? = some i3 ∧
      s.m_points[i1]? = some p1 ∧ s.m_points[i2]? = some p2 ∧ s.m_points[i3]? = some p3 ∧
      ∀ (v : Nat) (P : Point), s.m_points[v]? = some P →
        Vec3.between (Vec3.min (Vec3.min p1.m_pos p2.m_pos) p3.m_pos)
          (Vec3.max (Vec3.max p1.m_pos p2.m_pos) p3.m_pos) P.m_pos →
        ∃ (h : Nat) (hs bucket : List Nat),
          hashPointFloat rnd s.m_avgEdgeLength s.m_hashTable.length P.m_pos = some h ∧
          s2.m_triangleVertHash[t]? = some hs ∧ h ∈ hs ∧
          s2.m_hashTable[h]? = some bucket ∧ v ∈ bucket := by
  obtain ⟨hframe1, hlen1, hget⟩ := hashVertsFloat_spec rnd s s1 hv
  obtain ⟨hframe2, hlen2, hget2⟩ := hashTrisFloat_spec rnd s1 s2 ht
  have e1 : s1.m_points = s.m_points := by rw [hframe1]
  have e2 : s1.m_indices = s.m_indices := by rw [hframe1]
  have e3 : s1.m_avgEdgeLength = s.m_avgEdgeLength := by rw [hframe1]
  have e4 : s1.m_triangleVertHash = s.m_triangleVertHash := by rw [hframe1]
  have e5 : s2.m_hashTable = s1.m_hashTable := by rw [hframe2]
  obtain ⟨hs, hhs, hst⟩ := hget2 t (by rw [e4]; exact htlt)
  obtain ⟨p1, p2, p3, lo, hi, htp, hlo, hhi, hmap⟩ := triangleHashesFloat_spec rnd s1 t hs hhs
  obtain ⟨i1, i2, i3, a1, a2, a3, q1, q2, q3⟩ := trianglePoints_spec s1 t p1 p2 p3 htp
  rw [e2] at a1 a2 a3
  rw [e1] at q1 q2 q3
  rw [e3] at hlo hhi
  rw [hlen1] at hmap
  refine ⟨i1, i2, i3, p1, p2, p3, a1, a2, a3, q1, q2, q3, ?_⟩
  intro v P hP hbox
  obtain ⟨h, hh2, bucket, hb, hmem⟩ := hget v P hP
  refine ⟨h, hs, bucket, hh2, hst, ?_, by rw [e5]; exact hb, hmem⟩
  rw [mem_map_some _ _ _ hmap h]
  unfold hashPointFloat at hh2
  cases hc : calcCellFloat rnd s.m_avgEdgeLength P.m_pos with
  | none => rw [hc] at hh2; cases hh2
  | some c =>
    rw [hc] at hh2
    refine ⟨c, ?_, hh2⟩
    rw [mem_boxCells]
    obtain ⟨lx, ly, lz⟩ := calcCellFloat_mono rnd hr _ _ _ lo c havg hlo hc
    obtain ⟨ux, uy, uz⟩ := calcCellFloat_mono rnd hr _ _ _ c hi havg hc hhi
    exact ⟨⟨lx hbox.1.1, ux hbox.1.2⟩, ⟨ly hbox.2.1.1, uy hbox.2.1.2⟩,
      ⟨lz hbox.2.2.1, uz hbox.2.2.2⟩⟩

/-- C14 as stated fails in its description of `calcCell`: in binary32, with the cell size
`0.1f` and the position `(0.7f, 0.3f, -0.3f)`, the quotients round to `7`, `3` and `-3`
and `calcCell` returns the cell `(7, 3, -3)`, although `7 * 0.1f > 0.7f` and
`-3 * 0.1f > -0.3f`: the bracket `c*size ≤ p < (c+1)*size` does not hold.  The exact floor
division of the same floats gives the cell `(6, 3, -4)`. -/
theorem calcCell_float_not_floor_division :
    round32 (1 / 10) = 13421773 / 134217728 ∧
    round32 (7 / 10) = 11744051 / 16777216 ∧
    round32 (3 / 10) = 5033165 / 16777216 ∧
    calcCellFloat round32 (13421773 / 134217728)
      ⟨11744051 / 16777216, 5033165 / 16777216, -5033165 / 16777216⟩
        = some ⟨7, 3, -3⟩ ∧
    ¬ ((7 : ℚ) * (13421773 / 134217728) ≤ 11744051 / 16777216) ∧
    ¬ ((-3 : ℚ) * (13421773 / 134217728) ≤ -5033165 / 16777216) ∧
    calcCell (13421773 / 134217728)
      ⟨11744051 / 16777216, 5033165 / 16777216, -5033165 / 16777216⟩
        = some ⟨6, 3, -4⟩ := by
  refine ⟨by decide!, by decide!, by decide!, by decide!, by norm_num, by norm_num,
    by decide!⟩

/-- C14, amended: in float arithmetic with a monotone rounding and a cell size
`m_avgEdgeLength > 0`, after `hashVerts` followed by `hashTris` on the same positions,
for every triangle `t` and every vertex `v` whose position lies in the axis-aligned
bounding box of the three vertex positions of `t`, the bucket `hashPoint(position of v)`
is listed in `m_triangleVertHash[t]` and holds `v`; this holds in particular for the three
vertices of `t` itself.  `calcCell` is the floor of the rounded quotient
(`c ≤ fl(p/size) < c+1`) and therefore monotone; the bracket `c*size ≤ p < (c+1)*size`
holds where the quotient is not rounded.  Both rebuilds return on every state with at
most 65535 points, at least one bucket, indices in range and cell indices that fit
`int`. -/
theorem broad_phase_coverage_float (rnd : ℚ → ℚ) (hr : Monotone rnd) (s : Mesh)
    (havg : 0 < s.m_avgEdgeLength) :
    (s.m_points.length ≤ maxUShort → 1 ≤ s.m_hashTable.length →
      s.m_triangleVertHash.length * 3 ≤ s.m_indices.length →
      (∀ i ∈ s.m_indices, i < s.m_points.length) →
      (∀ P ∈ s.m_points, CellOk rnd s.m_avgEdgeLength P.m_pos) →
      ∃ s1 s2 : Mesh, hashVertsFloat rnd s = some s1 ∧ hashTrisFloat rnd s1 = some s2) ∧
    (∀ s1 s2 : Mesh, hashVertsFloat rnd s = some s1 → hashTrisFloat rnd s1 = some s2 →
      s2.m_points = s.m_points ∧
      ∀ t : Nat, t < s.m_triangleVertHash.length →
        ∃ (i1 i2 i3 : Nat) (p1 p2 p3 : Point), s.m_indices[t * 3]? = some i1 ∧
          s.m_indices[t * 3 + 1]? = some i2 ∧ s.m_indices[t * 3 + 2]? = some i3 ∧
          s.m_points[i1]? = some p1 ∧ s.m_points[i2]? = some p2 ∧
          s.m_points[i3]? = some p3 ∧
          (∀ (v : Nat) (P : Point), s.m_points[v]? = some P →
            Vec3.between (Vec3.min (Vec3.min p1.m_pos p2.m_pos) p3.m_pos)
              (Vec3.max (Vec3.max p1.m_pos p2.m_pos) p3.m_pos) P.m_pos →
            ∃ (h : Nat) (hs bucket : List Nat),
              hashPointFloat rnd s.m_avgEdgeLength s.m_hashTable.length P.m_pos = some h ∧
              s2.m_triangleVertHash[t]? = some hs ∧ h ∈ hs ∧
              s2.m_hashTable[h]? = some bucket ∧ v ∈ bucket) ∧
          (∀ vP : Nat × Point, vP ∈ [(i1, p1), (i2, p2), (i3, p3)] →
            ∃ (h : Nat) (hs bucket : List Nat),
              hashPointFloat rnd s.m_avgEdgeLength s.m_hashTable.length vP.2.m_pos
                = some h ∧
              s2.m_triangleVertHash[t]? = some hs ∧ h ∈ hs ∧
              s2.m_hashTable[h]? = some bucket ∧ vP.1 ∈ bucket)) ∧
    (∀ (p : Vec3) (c : IVec3), calcCellFloat rnd s.m_avgEdgeLength p = some c →
      (((c.x : ℚ) ≤ rnd (p.x / s.m_avgEdgeLength) ∧
          rnd (p.x / s.m_avgEdgeLength) < (c.x : ℚ) + 1) ∧
        ((c.y : ℚ) ≤ rnd (p.y / s.m_avgEdgeLength) ∧
          rnd (p.y / s.m_avgEdgeLength) < (c.y : ℚ) + 1) ∧
        ((c.z : ℚ) ≤ rnd (p.z / s.m_avgEdgeLength) ∧
          rnd (p.z / s.m_avgEdgeLength) < (c.z : ℚ) + 1)) ∧
      (rnd (p.x / s.m_avgEdgeLength) = p.x / s.m_avgEdgeLength →
        (c.x : ℚ) * s.m_avgEdgeLength ≤ p.x ∧ p.x < ((c.x : ℚ) + 1) * s.m_avgEdgeLength) ∧
      (rnd (p.y / s.m_avgEdgeLength) = p.y / s.m_avgEdgeLength →
        (c.y : ℚ) * s.m_avgEdgeLength ≤ p.y ∧ p.y < ((c.y : ℚ) + 1) * s.m_avgEdgeLength) ∧
      (rnd (p.z / s.m_avgEdgeLength) = p.z / s.m_avgEdgeLength →
        (c.z : ℚ) * s.m_avgEdgeLength ≤ p.z ∧ p.z < ((c.z : ℚ) + 1) * s.m_avgEdgeLength)) ∧
    (∀ (p q : Vec3) (cp cq : IVec3), calcCellFloat rnd s.m_avgEdgeLength p = some cp →
      calcCellFloat rnd s.m_avgEdgeLength q = some cq →
      (p.x ≤ q.x → cp.x ≤ cq.x) ∧ (p.y ≤ q.y → cp.y ≤ cq.y) ∧ (p.z ≤ q.z → cp.z ≤ cq.z)) := by
  refine ⟨?_, ?_, ?_, fun p q cp cq hp hq => calcCellFloat_mono rnd hr _ p q cp cq havg hp hq⟩
  · intro hn hm hidx hpts hok
    obtain ⟨s1, hs1⟩ := hashVertsFloat_returns rnd s hn hm (ne_of_gt havg) hok
    obtain ⟨hframe1, hlen1, _⟩ := hashVertsFloat_spec rnd s s1 hs1
    have e1 : s1.m_points = s.m_points := by rw [hframe1]
    have e2 : s1.m_indices = s.m_indices := by rw [hframe1]
    have e3 : s1.m_avgEdgeLength = s.m_avgEdgeLength := by rw [hframe1]
    have e4 : s1.m_triangleVertHash = s.m_triangleVertHash := by rw [hframe1]
    obtain ⟨s2, hs2⟩ := hashTrisFloat_returns rnd s1 (by rw [e4, e2]; exact hidx)
      (by rw [e2, e1]; exact hpts) (by rw [e3]; exact ne_of_gt havg)
      (by rw [hlen1]; exact hm) (by rw [e1, e3]; exact hok)
    exact ⟨s1, s2, hs1, hs2⟩
  · intro s1 s2 hv ht
    obtain ⟨hframe1, _, _⟩ := hashVertsFloat_spec rnd s s1 hv
    obtain ⟨hframe2, _, _⟩ := hashTrisFloat_spec rnd s1 s2 ht
    have e1 : s1.m_points = s.m_points := by rw [hframe1]
    have e6 : s2.m_points = s1.m_points := by rw [hframe2]
    refine ⟨by rw [e6, e1], ?_⟩
    intro t htlt
    obtain ⟨i1, i2, i3, p1, p2, p3, a1, a2, a3, q1, q2, q3, hcov⟩ :=
      coveredFloat rnd hr s s1 s2 havg hv ht t htlt
    refine ⟨i1, i2, i3, p1, p2, p3, a1, a2, a3, q1, q2, q3, hcov, ?_⟩
    obtain ⟨b1, b2, b3⟩ := between_own p1.m_pos p2.m_pos p3.m_pos
    intro vP hvP
    simp only [List.mem_cons, List.mem_singleton, List.not_mem_nil, or_false] at hvP
    rcases hvP with e | e | e
    · subst e; exact hcov i1 p1 q1 b1
    · subst e; exact hcov i2 p2 q2 b2
    · subst e; exact hcov i3 p3 q3 b3
  · intro p c hc
    obtain ⟨hx, hy, hz⟩ := calcCellFloat_floor rnd _ p c hc
    exact ⟨⟨hx, hy, hz⟩,
      fun e => bracket_of_exact _ _ _ _ havg e hx.1 hx.2,
      fun e => bracket_of_exact _ _ _ _ havg e hy.1 hy.2,
      fun e => bracket_of_exact _ _ _ _ havg e hz.1 hz.2⟩

/-- Witness of C14 in binary32: on the sample grid both rebuilds return and leave the
points alone. -/
theorem broad_phase_coverage_float_witness :
    Monotone round32 ∧ 0 < sampleGrid.m_avgEdgeLength ∧
    (∀ P ∈ sampleGrid.m_points, CellOk round32 sampleGrid.m_avgEdgeLength P.m_pos) ∧
    ∃ s1 s2 : Mesh, hashVertsFloat round32 sampleGrid = some s1 ∧
      hashTrisFloat round32 s1 = some s2 ∧ s2.m_points = sampleGrid.m_points := by
  have H := broad_phase_coverage_float round32 round32_isRounding.1 sampleGrid (by decide!)
  obtain ⟨s1, s2, h1, h2⟩ :=
    H.1 (by decide!) (by decide!) (by decide!) (by decide!) (by decide!)
  exact ⟨round32_isRounding.1, by decide!, by decide!, s1, s2, h1, h2,
    (H.2.1 s1 s2 h1 h2).1⟩

end CSB
